import Mathlib

/-!
# vote_system: the rating store and the leaderboard of `server.js`

A shallow embedding of the three request handlers of `src/server.js`
(`POST /api/submit`, `GET /api/rankings`, `POST /api/clear-test`).

Every handler is a function from the document `ratings.json` before the
request to a response and the document after it.  A document is represented
by the tree `JSON.parse` yields for it: an object is the list of its own
enumerable properties in the order `Object.keys` lists them.  The text that is
written and read is modelled too (`render`, `parseDocument`), and shown to
give these trees.

Modelling decisions:
* counters are JavaScript numbers holding integers; a stored counter is an
  `Int`, and `counter + 1` is taken exactly, as it is for magnitudes below
  `2^53`; the scores of the leaderboard are computed as the code does, every
  product and sum rounded to the nearest double, with `Infinity` and `NaN`;
* `Array.prototype.sort` is the stable sort where the comparator is
  consistent, and the procedure of the engine (V8) where it is not;
* the file system never fails (`initRatingsFile` has created the document and
  only the handlers write it), so the `catch` branches that answer 500 on an
  I/O or parse error are not entered;
* property reads go through the prototype chain: a name that is not an own
  property of an object is looked up on `Object.prototype`.  In the handlers
  `submit`, `submitBody`, `rankings` and `clearTest` the built-in objects are
  in their initial state when a request starts; what votes write to the
  built-in objects instead of the document is carried from request to request
  by the process model (`Process`, `submitIn`, `clearIn`);
* a tier is the property name it is used as in `record[tier]`: `submit` takes
  bodies whose values are strings, `submitBody` bodies of any JSON values;
* the messages (`msg`) of the responses are left out.
-/

namespace VoteSystem

/-! ## Values and objects -/

/-- The values a property of a tally record can hold: a number whose value is
an integer (`-0` is not told apart from `0`), `Infinity` or `-Infinity`
(`negative`; `JSON.parse` yields it for a literal such as `1e999`), `NaN`,
`null`, or the text
`function f() { [native code] }` of a built-in function followed by `ones`
copies of the character `1`. -/
inductive Val where
  | num (n : Int)
  | inf (negative : Bool)
  | nan
  | null
  | fnText (name : String) (ones : Nat)
  deriving DecidableEq, Repr

/-- An object: its own properties, in the order of `Object.keys`. -/
abbrev Obj (α : Type) := List (String × α)

/-- A tally record, such as `{ S: 0, A: 0, B: 0, C: 0, D: 0 }`. -/
abbrev Record := Obj Val

/-- The parsed document `ratings.json` (`allRatings`). -/
abbrev Store := Obj Record

/-- The body of a submit request (`userRatings`) all of whose values are
strings: item name to tier symbol. -/
abbrev Ratings := Obj String

/-- `Object.keys(o)`. -/
def keys {α : Type} (o : Obj α) : List String := o.map Prod.fst

/-- The own property `k` of `o`, if there is one. -/
def getOwn {α : Type} : Obj α → String → Option α
  | [], _ => none
  | (k', v) :: rest, k => if k = k' then some v else getOwn rest k

/-- Overwrites the own property `k` of `o` in place (its position is kept). -/
def replaceOwn {α : Type} : Obj α → String → α → Obj α
  | [], _, _ => []
  | (k', v') :: rest, k, v =>
      if k = k' then (k', v) :: rest else (k', v') :: replaceOwn rest k v

/-- Reads a run of decimal digits. -/
def parseDigits : List Char → Nat → Option Nat
  | [], acc => some acc
  | c :: cs, acc =>
      if 48 ≤ c.toNat ∧ c.toNat ≤ 57 then parseDigits cs (acc * 10 + (c.toNat - 48)) else none

/-- The array index a property name denotes, if it is the canonical decimal
form of an integer below `2^32 - 1`.  Such names come first in `Object.keys`,
in ascending numeric order. -/
def arrayIndex (k : String) : Option Nat :=
  match k.data with
  | [] => none
  | [c] => parseDigits [c] 0
  | c :: cs =>
      if c = '0' then none
      else match parseDigits (c :: cs) 0 with
        | some n => if n < 4294967295 then some n else none
        | none => none

/-- Places a new array-index property among the array-index properties, which
stand first in the object. -/
def insertIndex {α : Type} (n : Nat) (k : String) (v : α) : Obj α → Obj α
  | [] => [(k, v)]
  | (k', v') :: rest =>
      match arrayIndex k' with
      | some m => if n < m then (k, v) :: (k', v') :: rest else (k', v') :: insertIndex n k v rest
      | none => (k, v) :: (k', v') :: rest

/-- Creates the own property `k` on an object that does not have it: an array
index goes to its numeric place, any other name to the end. -/
def insertKey {α : Type} (k : String) (v : α) (o : Obj α) : Obj α :=
  match arrayIndex k with
  | some n => insertIndex n k v o
  | none => o ++ [(k, v)]

/-- The function-valued properties of `Object.prototype`: property name to the
name of the built-in function found there. -/
def protoFunction (k : String) : Option String :=
  if k = "constructor" then some "Object"
  else if k = "hasOwnProperty" ∨ k = "isPrototypeOf" ∨ k = "propertyIsEnumerable"
      ∨ k = "toLocaleString" ∨ k = "toString" ∨ k = "valueOf"
      ∨ k = "__defineGetter__" ∨ k = "__defineSetter__"
      ∨ k = "__lookupGetter__" ∨ k = "__lookupSetter__" then some k
  else none

/-- The result of the property read `o[k]`. -/
inductive Looked (α : Type) where
  | own (v : α)
  | builtin (fname : String)
  | objectPrototype
  | undefined
  deriving DecidableEq, Repr

/-- The property read `o[k]` on an ordinary object: the own property, else what
`Object.prototype` has under that name (a built-in function, or for the name
`__proto__` the prototype itself), else `undefined`. -/
def get {α : Type} (o : Obj α) (k : String) : Looked α :=
  match getOwn o k with
  | some v => .own v
  | none =>
      match protoFunction k with
      | some f => .builtin f
      | none => if k = "__proto__" then .objectPrototype else .undefined

/-! ## The submit handler -/

/-- The record literal `{ S: 0, A: 0, B: 0, C: 0, D: 0 }`. -/
def zeroRecord : Record :=
  [("S", .num 0), ("A", .num 0), ("B", .num 0), ("C", .num 0), ("D", .num 0)]

/-- The value of `v + 1` for a stored value `v`.  The sum of a number is
exact, as the code's is for magnitudes below `2^53`. -/
def plusOne : Val → Val
  | .num n => .num (n + 1)
  | .inf s => .inf s
  | .nan => .nan
  | .null => .num 1
  | .fnText f k => .fnText f (k + 1)

/-- The statement `record[tier] += 1`. -/
def increment (r : Record) (tier : String) : Record :=
  match get r tier with
  | .own v => replaceOwn r tier (plusOne v)
  | .builtin f => insertKey tier (.fnText f 1) r
  | .objectPrototype => r
  | .undefined => insertKey tier .nan r

/-- The names `caller` and `arguments`: reading them on a built-in function
throws a `TypeError`. -/
def restrictedName (k : String) : Prop := k = "caller" ∨ k = "arguments"

instance (k : String) : Decidable (restrictedName k) := by
  unfold restrictedName
  exact inferInstance

/-- The body of the `forEach` callback of the submit handler for one item;
`none` when it throws.  Where `allRatings[skinName]` is not a record of the
document but a built-in object, the statement `allRatings[skinName][tier] += 1`
reads and writes a property of that object and the document is not touched. -/
def mergeStep (allRatings : Store) (skinName tier : String) : Option Store :=
  match get allRatings skinName with
  | .own r => some (replaceOwn allRatings skinName (increment r tier))
  | .undefined => some (insertKey skinName (increment zeroRecord tier) allRatings)
  | .builtin _ => if restrictedName tier then none else some allRatings
  | .objectPrototype => some allRatings

/-- The read `userRatings[skinName]`, as the property name it is used for. -/
def tierOf (userRatings : Ratings) (skinName : String) : String :=
  (getOwn userRatings skinName).getD "undefined"

/-- Runs the callback over a list of item names, `tierAt` giving the tier of
each; `none` as soon as one call throws. -/
def forEach (tierAt : String → String) : List String → Store → Option Store
  | [], allRatings => some allRatings
  | skinName :: rest, allRatings =>
      match mergeStep allRatings skinName (tierAt skinName) with
      | some next => forEach tierAt rest next
      | none => none

/-- The loop `Object.keys(userRatings).forEach(...)` of the submit handler. -/
def merge (allRatings : Store) (userRatings : Ratings) : Option Store :=
  forEach (tierOf userRatings) (keys userRatings) allRatings

/-- What `JSON.stringify` writes for a value: `NaN`, `Infinity` and
`-Infinity` become `null`. -/
def stringifyVal : Val → Val
  | .nan => .null
  | .inf _ => .null
  | v => v

/-- What `JSON.stringify` writes for a record. -/
def stringifyRecord (r : Record) : Record := r.map (fun q => (q.1, stringifyVal q.2))

/-- The document `JSON.stringify(allRatings, null, 2)` writes, as the tree a
later `JSON.parse` reads back. -/
def stringify (allRatings : Store) : Store :=
  allRatings.map (fun p => (p.1, stringifyRecord p.2))

/-- The tree `JSON.parse` yields for the document. -/
def parse (doc : Store) : Store := doc

/-- The response envelope: HTTP status, the `success` flag, and the `data`
field when there is one. -/
structure Response (α : Type) where
  status : Nat
  success : Bool
  data : Option α
  deriving DecidableEq, Repr

/-- The handler of `POST /api/submit`: `body` is `req.body` (`none` when the
request has no body), the result is the response and the document afterwards.
When the loop throws, the `catch` branch answers 500 and nothing is written. -/
def submit (doc : Store) (body : Option Ratings) : Response Unit × Store :=
  match body with
  | none => (⟨400, false, none⟩, doc)
  | some userRatings =>
      if (keys userRatings).length = 0 then (⟨400, false, none⟩, doc)
      else
        match merge (parse doc) userRatings with
        | some merged => (⟨200, true, none⟩, stringify merged)
        | none => (⟨500, false, none⟩, doc)

/-- A value of the request body, as `JSON.parse` yields it.  A number is given
by the string it converts to (`1` for the number 1, `1e+21` for 10^21). -/
inductive Json where
  | null
  | bool (b : Bool)
  | num (text : String)
  | str (s : String)
  | arr (items : List Json)
  | obj (props : List (String × Json))

mutual
/-- The property name a value is used as in `record[tier]`; `none` when the
conversion throws a `TypeError`.  An array converts to its elements joined by
commas; an object converts to `[object Object]`, unless it has an own
property `toString`: that is no function, and the inherited `valueOf` returns
the object itself, so that no primitive value is found. -/
def toPropertyKey : Json → Option String
  | .null => some "null"
  | .bool b => some (if b then "true" else "false")
  | .num text => some text
  | .str s => some s
  | .arr items => joinKeys items
  | .obj props => if props.any (fun p => p.1 == "toString") then none else some "[object Object]"
/-- The call `join(",")` an array is converted with. -/
def joinKeys : List Json → Option String
  | [] => some ""
  | [x] => elementKey x
  | x :: y :: rest =>
      match elementKey x, joinKeys (y :: rest) with
      | some a, some b => some (a ++ "," ++ b)
      | _, _ => none
/-- The string an element contributes to the join: nothing for `null`. -/
def elementKey : Json → Option String
  | .null => some ""
  | .bool b => some (if b then "true" else "false")
  | .num text => some text
  | .str s => some s
  | .arr items => joinKeys items
  | .obj props => if props.any (fun p => p.1 == "toString") then none else some "[object Object]"
end

/-- The body of a submit request as `express.json()` hands it over. -/
abbrev Body := Obj Json

/-- The property name that `userRatings[skinName]` is used as on line 58;
`none` when its conversion throws. -/
def tierKeyOf (userRatings : Body) (skinName : String) : Option String :=
  match getOwn userRatings skinName with
  | some v => toPropertyKey v
  | none => some "undefined"

/-- The loop `Object.keys(userRatings).forEach(...)` on a body of any values;
`none` as soon as one call throws. -/
def forEachBody (userRatings : Body) : List String → Store → Option Store
  | [], allRatings => some allRatings
  | skinName :: rest, allRatings =>
      match tierKeyOf userRatings skinName with
      | none => none
      | some tier =>
          match mergeStep allRatings skinName tier with
          | some next => forEachBody userRatings rest next
          | none => none

/-- The handler of `POST /api/submit` on a body of any values.  `submit` is
this handler on the bodies whose values are strings. -/
def submitBody (doc : Store) (body : Option Body) : Response Unit × Store :=
  match body with
  | none => (⟨400, false, none⟩, doc)
  | some userRatings =>
      if (keys userRatings).length = 0 then (⟨400, false, none⟩, doc)
      else
        match forEachBody userRatings (keys userRatings) (parse doc) with
        | some merged => (⟨200, true, none⟩, stringify merged)
        | none => (⟨500, false, none⟩, doc)

/-- A body of strings, as a body of any values. -/
def asBody (userRatings : Ratings) : Body := userRatings.map (fun p => (p.1, Json.str p.2))

/-- The body with every value replaced by the property name it is used as. -/
def converted (userRatings : Body) : Ratings :=
  userRatings.map (fun p => (p.1, (toPropertyKey p.2).getD ""))

/-! ## The process state outside the document

The handlers above take the built-in objects as they are when the server
starts.  A vote for an item named `__proto__` writes to `Object.prototype`
itself, and a vote for the item `constructor` with the tier `keys` replaces
`Object.keys`; what is written there stays for the life of the process and is
seen by every later request.  The definitions below carry these writes along,
for bodies whose values are strings.  Other properties that votes put on the
built-in functions are not carried: no statement of the handlers reads them.
What the framework does between the socket and the handlers is outside the
model. -/

/-- Whether a value counts as true in a condition. -/
def truthy : Val → Bool
  | .num n => decide (n ≠ 0)
  | .inf _ => true
  | .nan => false
  | .null => false
  | .fnText _ _ => true

/-- The state of the server: the properties that votes have put on
`Object.prototype`, whether a vote has replaced `Object.keys` (by a string),
and the document. -/
structure Process where
  prototypeProps : Obj Val
  keysOverwritten : Bool
  doc : Store
  deriving DecidableEq, Repr

/-- The statement `record[tier] += 1` when `Object.prototype` carries `props`;
`none` when it throws: adding 1 to `Object.prototype` (tier `__proto__`)
converts it with `toString`, which is no function once a vote has written to
it. -/
def incrementIn (props : Obj Val) (r : Record) (tier : String) : Option Record :=
  match getOwn r tier with
  | some v => some (replaceOwn r tier (plusOne v))
  | none =>
      match getOwn props tier with
      | some v => some (insertKey tier (plusOne v) r)
      | none =>
          match protoFunction tier with
          | some f => some (insertKey tier (.fnText f 1) r)
          | none =>
              if tier = "__proto__" then
                (if (getOwn props "toString").isSome then none else some r)
              else some (insertKey tier .nan r)

/-- The statement `Object.prototype[tier] += 1`, which a vote for the item
`__proto__` runs. -/
def bumpPrototype (props : Obj Val) (tier : String) : Obj Val :=
  match getOwn props tier with
  | some v => replaceOwn props tier (plusOne v)
  | none =>
      match protoFunction tier with
      | some f => props ++ [(tier, .fnText f 1)]
      | none => if tier = "__proto__" then props else props ++ [(tier, .nan)]

/-- The body of the `forEach` callback when `Object.prototype` carries `props`
and `Object.keys` is overwritten or not (`broken`); `none` when it throws.  A
number or string found on the prototype under the item name is tested on
line 54 like a record: when it counts as true, line 58 assigns to a property
of a primitive value, which does nothing. -/
def mergeStepIn (props : Obj Val) (broken : Bool) (allRatings : Store)
    (skinName tier : String) : Option (Obj Val × Bool × Store) :=
  match getOwn allRatings skinName with
  | some r =>
      (incrementIn props r tier).map
        (fun r2 => (props, broken, replaceOwn allRatings skinName r2))
  | none =>
      match getOwn props skinName with
      | some v =>
          if truthy v then some (props, broken, allRatings)
          else (incrementIn props zeroRecord tier).map
            (fun r2 => (props, broken, insertKey skinName r2 allRatings))
      | none =>
          match protoFunction skinName with
          | some f =>
              if restrictedName tier ∨
                  (f = "Object" ∧ tier = "prototype" ∧ (getOwn props "toString").isSome)
              then none
              else some (props, broken || decide (f = "Object" ∧ tier = "keys"), allRatings)
          | none =>
              if skinName = "__proto__" then some (bumpPrototype props tier, broken, allRatings)
              else (incrementIn props zeroRecord tier).map
                (fun r2 => (props, broken, insertKey skinName r2 allRatings))

/-- The loop of the submit handler in the process: the properties on the
prototype and the state of `Object.keys` afterwards, and the merged document,
or `none` when a call throws. -/
def forEachIn (tierAt : String → String) :
    Obj Val → Bool → List String → Store → Obj Val × Bool × Option Store
  | props, broken, [], allRatings => (props, broken, some allRatings)
  | props, broken, skinName :: rest, allRatings =>
      match mergeStepIn props broken allRatings skinName (tierAt skinName) with
      | some (props2, broken2, next) => forEachIn tierAt props2 broken2 rest next
      | none => (props, broken, none)

/-- The handler of `POST /api/submit` as a step of the process.  Once
`Object.keys` is overwritten, the call on line 42 throws and the answer
is 500. -/
def submitIn (s : Process) (body : Option Ratings) : Response Unit × Process :=
  match body with
  | none => (⟨400, false, none⟩, s)
  | some userRatings =>
      if s.keysOverwritten then (⟨500, false, none⟩, s)
      else if (keys userRatings).length = 0 then (⟨400, false, none⟩, s)
      else
        match forEachIn (tierOf userRatings) s.prototypeProps false (keys userRatings)
            (parse s.doc) with
        | (props, broken, some merged) => (⟨200, true, none⟩, ⟨props, broken, stringify merged⟩)
        | (props, broken, none) => (⟨500, false, none⟩, ⟨props, broken, s.doc⟩)

/-- The handler of `POST /api/clear-test` as a step of the process: it writes
the document and nothing else. -/
def clearIn (s : Process) : Response Unit × Process :=
  (⟨200, true, none⟩, ⟨s.prototypeProps, s.keysOverwritten, []⟩)

/-- The process when the server has started on no document. -/
def started : Process := ⟨[], false, []⟩

/-- The handler of `POST /api/clear-test`. -/
def clearTest (_doc : Store) : Response Unit × Store :=
  (⟨200, true, none⟩, [])

/-! ## The rankings handler -/

/-- A JavaScript number as the score arithmetic sees it: a double whose value
is an integer, `Infinity` or `-Infinity` (`negative`), or `NaN`. -/
inductive Num where
  | int (n : Int)
  | inf (negative : Bool)
  | nan
  deriving DecidableEq, Repr

/-- The number of low bits that the magnitude `a` loses when it is cut to the
53 bits of a double: the least `e` from `e` on with `a / 2^e < 2^53` (`fuel`
bounds the search). -/
def dropCount : Nat → Nat → Nat → Nat
  | 0, _, e => e
  | fuel + 1, a, e => if a / 2 ^ e < 2 ^ 53 then e else dropCount fuel a (e + 1)

/-- The number `2^1024`, the magnitude from which doubles overflow. -/
def overflowBound : Nat :=
  179769313486231590772930519078902473361797697894230657273430081157732675805500963132708477322407536021120113879871393357658789768814416622492847430639474124377767893424865485276302219601246094119453082952085005768838150682342462881473913110540827237163350510684586298239947245938479716304835356329624224137216

/-- The magnitude `a` with its `e` low bits rounded away: the nearest multiple
of `2^e`, a tie going to the multiple with the even quotient. -/
def roundAt (a e : Nat) : Nat :=
  (if 2 ^ e / 2 < a % 2 ^ e ∨ (a % 2 ^ e = 2 ^ e / 2 ∧ a / 2 ^ e % 2 = 1)
    then a / 2 ^ e + 1 else a / 2 ^ e) * 2 ^ e

/-- The magnitude `a`, at least `2^53`, rounded to 53 significant bits. -/
def roundMagnitude (a : Nat) : Nat := roundAt a (dropCount a a 0)

/-- The double that the exact integer result `m` of an operation is rounded
to: `m` itself below `2^53`; otherwise the nearest integer with 53 significant
bits, a tie going to the even one; `Infinity` from `2^1024` on. -/
def roundToDouble (m : Int) : Num :=
  if m.natAbs < 2 ^ 53 then .int m
  else if overflowBound ≤ roundMagnitude m.natAbs then .inf (decide (m < 0))
  else .int (if m < 0 then -(Int.ofNat (roundMagnitude m.natAbs))
    else Int.ofNat (roundMagnitude m.natAbs))

/-- The product `x * y`. -/
def Num.mul : Num → Num → Num
  | .int a, .int b => roundToDouble (a * b)
  | .int a, .inf s => if a = 0 then .nan else .inf (if a < 0 then !s else s)
  | .inf s, .int b => if b = 0 then .nan else .inf (if b < 0 then !s else s)
  | .inf s, .inf t => .inf (s != t)
  | _, _ => .nan

/-- The sum `x + y`. -/
def Num.add : Num → Num → Num
  | .int a, .int b => roundToDouble (a + b)
  | .int _, .inf s => .inf s
  | .inf s, .int _ => .inf s
  | .inf s, .inf t => if s = t then .inf s else .nan
  | _, _ => .nan

/-- The difference `x - y`. -/
def Num.sub : Num → Num → Num
  | .int a, .int b => roundToDouble (a - b)
  | .int _, .inf s => .inf (!s)
  | .inf s, .int _ => .inf s
  | .inf s, .inf t => if s = t then .nan else .inf s
  | _, _ => .nan

/-- The number a stored value converts to in an arithmetic expression. -/
def toNumber : Val → Num
  | .num n => .int n
  | .inf s => .inf s
  | .nan => .nan
  | .null => .int 0
  | .fnText _ _ => .nan

/-- The member read `stats.S` as a number (`undefined`, a function and an
object all convert to `NaN`). -/
def field (stats : Record) (tier : String) : Num :=
  match get stats tier with
  | .own v => toNumber v
  | _ => .nan

/-- The weight table `tierScores`. -/
def tierScores : Obj Int := [("S", 5), ("A", 4), ("B", 3), ("C", 2), ("D", 1)]

/-- The member read `tierScores.S`. -/
def weight (tier : String) : Num :=
  match getOwn tierScores tier with
  | some w => .int w
  | none => .nan

/-- The expression computing `totalScore` from `stats`. -/
def totalScoreOf (stats : Record) : Num :=
  Num.add (Num.add (Num.add (Num.add
    (Num.mul (field stats "S") (weight "S"))
    (Num.mul (field stats "A") (weight "A")))
    (Num.mul (field stats "B") (weight "B")))
    (Num.mul (field stats "C") (weight "C")))
    (Num.mul (field stats "D") (weight "D"))

/-- An element of the leaderboard: `{ skin, totalScore, stats }`. -/
structure Entry where
  skin : String
  totalScore : Num
  stats : Record
  deriving DecidableEq, Repr

/-- The callback of `Object.keys(allRatings).map(...)`.  `skinName` comes from
`Object.keys`, so `allRatings[skinName]` is an own property; on any other name
the result is `none`. -/
def entryOf (allRatings : Store) (skinName : String) : Option Entry :=
  match getOwn allRatings skinName with
  | some stats => some ⟨skinName, totalScoreOf stats, stats⟩
  | none => none

/-- Maps a callback that can fail over a list; fails where the callback does. -/
def mapAll {α β : Type} (f : α → Option β) : List α → Option (List β)
  | [] => some []
  | a :: as =>
      match f a, mapAll f as with
      | some b, some bs => some (b :: bs)
      | _, _ => none

/-- The array `rankingList` before it is sorted. -/
def rankingList (allRatings : Store) : Option (List Entry) :=
  mapAll (entryOf allRatings) (keys allRatings)

/-- The comparator `(a, b) => b.totalScore - a.totalScore`. -/
def compareFn (a b : Entry) : Num := b.totalScore.sub a.totalScore

/-- Whether a comparator result asks for the first argument to come after the
second (a `NaN` result counts as `0`). -/
def Num.positive : Num → Bool
  | .int n => decide (0 < n)
  | .inf s => !s
  | .nan => false

/-- One insertion of the stable sort: `x`, which stood before every element of
the sorted list `l`, moves right only past elements the comparator puts before
it. -/
def insertSorted {α : Type} (cmp : α → α → Num) (x : α) : List α → List α
  | [] => [x]
  | y :: ys => if (cmp x y).positive then y :: insertSorted cmp x ys else x :: y :: ys

/-- The stable arrangement of `l` in the order of the comparator, by insertion. -/
def stableSort {α : Type} (cmp : α → α → Num) (l : List α) : List α :=
  l.foldr (insertSorted cmp) []

/-- Whether a comparator result is below `0` (a `NaN` result counts as `0`). -/
def Num.negative : Num → Bool
  | .int n => decide (n < 0)
  | .inf s => s
  | .nan => false

/-- Whether a comparator result is `0`. -/
def Num.isZero : Num → Bool
  | .int n => decide (n = 0)
  | _ => false

/-- The comparator is a consistent comparator for the elements of `l`, in the
sense of ECMAScript: no result is `NaN`, every element is equal to itself, and
being equal, being before and being after are transitive (equality symmetric). -/
def ConsistentOn {α : Type} (cmp : α → α → Num) (l : List α) : Prop :=
  ∀ a ∈ l, ∀ b ∈ l, ∀ c ∈ l,
    cmp a b ≠ Num.nan ∧ (cmp a a).isZero = true ∧
    ((cmp a b).isZero = true → (cmp b a).isZero = true) ∧
    ((cmp a b).isZero = true → (cmp b c).isZero = true → (cmp a c).isZero = true) ∧
    ((cmp a b).negative = true → (cmp b c).negative = true → (cmp a c).negative = true) ∧
    ((cmp a b).positive = true → (cmp b c).positive = true → (cmp a c).positive = true)

instance {α : Type} (cmp : α → α → Num) (l : List α) : Decidable (ConsistentOn cmp l) := by
  unfold ConsistentOn
  exact inferInstance

/-- How far the run that opens an array goes on after the element `prev`: in a
descending run as long as each element is before its predecessor, in an
ascending run as long as it is not. -/
def runLength {α : Type} (cmp : α → α → Num) (descending : Bool) (prev : α) : List α → Nat
  | [] => 0
  | cur :: rest =>
      if (cmp cur prev).negative = descending then 1 + runLength cmp descending cur rest else 0

/-- Whether the run that opens the array is a descending one. -/
def runDescending {α : Type} (cmp : α → α → Num) : List α → Bool
  | a0 :: a1 :: _ => (cmp a1 a0).negative
  | _ => false

/-- The length of the run that opens the array. -/
def countRun {α : Type} (cmp : α → α → Num) : List α → Nat
  | [] => 0
  | [_] => 1
  | a0 :: a1 :: rest => 2 + runLength cmp (cmp a1 a0).negative a1 rest

/-- The binary search for the place of `pivot` in `sorted` between `left` and
`right`: to the left of the middle element when `pivot` is before it, to its
right otherwise. -/
def searchSlot {α : Type} (cmp : α → α → Num) (pivot : α) (sorted : List α) :
    Nat → Nat → Nat → Nat
  | 0, left, _ => left
  | fuel + 1, left, right =>
      if left < right then
        match sorted[left + (right - left) / 2]? with
        | some middle =>
            if (cmp pivot middle).negative
            then searchSlot cmp pivot sorted fuel left (left + (right - left) / 2)
            else searchSlot cmp pivot sorted fuel (left + (right - left) / 2 + 1) right
        | none => left
      else left

/-- One step of the binary insertion: `pivot` is put at its place in `sorted`. -/
def binaryInsert {α : Type} (cmp : α → α → Num) (sorted : List α) (pivot : α) : List α :=
  sorted.take (searchSlot cmp pivot sorted sorted.length 0 sorted.length) ++
    pivot :: sorted.drop (searchSlot cmp pivot sorted sorted.length 0 sorted.length)

/-- What the engine (V8) does with an array of fewer than 64 elements: the run
that opens the array is taken as sorted (reversed when it is descending) and
the other elements are put into it one by one by binary insertion. -/
def engineSort {α : Type} (cmp : α → α → Num) (l : List α) : List α :=
  ((l.drop (countRun cmp l)).foldl (binaryInsert cmp)
    (if runDescending cmp l then (l.take (countRun cmp l)).reverse
      else l.take (countRun cmp l)))

/-- The built-in `Array.prototype.sort` with a comparator.  For a consistent
comparator ECMAScript fixes the result: the sort is stable, so it is the
stable arrangement.  For any other comparator the order is up to the engine;
it is taken from V8's procedure for arrays of fewer than 64 elements, which
for longer arrays is exact in this only, that the result is a rearrangement
of the array. -/
def sort {α : Type} (cmp : α → α → Num) (l : List α) : List α :=
  if ConsistentOn cmp l then stableSort cmp l else engineSort cmp l

/-- The call `slice(0, n)`. -/
def slice0 {α : Type} (l : List α) (n : Nat) : List α := l.take n

/-- The handler of `GET /api/rankings`. -/
def rankings (doc : Store) : Response (List Entry) × Store :=
  match rankingList (parse doc) with
  | some l => (⟨200, true, some (slice0 (sort compareFn l) 10)⟩, doc)
  | none => (⟨500, false, none⟩, doc)

/-- The five tier symbols: the keys of the record literal. -/
def tierSymbols : List String := keys zeroRecord

/-- A name that a read on an object without such an own property finds on
`Object.prototype`. -/
def inheritedName (k : String) : Prop := protoFunction k ≠ none ∨ k = "__proto__"

instance (k : String) : Decidable (inheritedName k) := by
  unfold inheritedName
  exact inferInstance

/-- Whether a property read found an integer. -/
def isInteger : Option Val → Bool
  | some (.num _) => true
  | _ => false

/-- The document has integer counters: every record has an integer under each
of the five tier symbols. -/
def IntegerCounters (doc : Store) : Prop :=
  ∀ p ∈ doc, ∀ t ∈ tierSymbols, isInteger (getOwn p.2 t) = true

instance (doc : Store) : Decidable (IntegerCounters doc) := by
  unfold IntegerCounters
  exact inferInstance

/-- The comparison `a <= b` of two numbers (false when one is `NaN`). -/
def Num.le : Num → Num → Prop
  | .int a, .int b => a ≤ b
  | .int _, .inf s => s = false
  | .inf s, .int _ => s = true
  | .inf s, .inf t => s = true ∨ t = false
  | _, _ => False

/-- The comparison `a < b` of two numbers (false when one is `NaN`). -/
def Num.lt : Num → Num → Prop
  | .int a, .int b => a < b
  | .int _, .inf s => s = false
  | .inf s, .int _ => s = true
  | .inf s, .inf t => s = true ∧ t = false
  | _, _ => False

instance (a b : Num) : Decidable (Num.le a b) := by
  cases a <;> cases b <;> unfold Num.le <;> exact inferInstance

instance (a b : Num) : Decidable (Num.lt a b) := by
  cases a <;> cases b <;> unfold Num.lt <;> exact inferInstance

/-- The entry has a number, not `NaN`, as its score. -/
def Scored (e : Entry) : Prop := ∃ n : Int, e.totalScore = .int n

/-- The record one vote for tier `t` leaves under item `k`, from the record
`before` the item had (`none`: no own property of that name). -/
def afterVote (before : Option Record) (k t : String) : Option Record :=
  match before with
  | some r => some (increment r t)
  | none => if inheritedName k then none else some (increment zeroRecord t)

/-- The value of counter `t` of item `X`, taken as `0` when the document has no
record for `X`. -/
def counter (doc : Store) (X t : String) : Int :=
  match getOwn doc X with
  | some r =>
      match getOwn r t with
      | some (.num n) => n
      | _ => 0
  | none => 0

/-- The document `initRatingsFile` creates: the empty object. -/
def initData : Store := []

/-- Every integer counter of `r` is an integer counter of `r'` that is at least
as large. -/
def Grows (r r' : Record) : Prop :=
  ∀ u n, getOwn r u = some (.num n) → ∃ m, getOwn r' u = some (.num m) ∧ n ≤ m

/-- The array `rankingList` before it is sorted: one entry per item, in the
order of `Object.keys(allRatings)`. -/
def entries (doc : Store) : List Entry := (rankingList (parse doc)).getD []

/-- The `data` array of the rankings response (`top10`). -/
def top10 (doc : Store) : List Entry := ((rankings doc).1.data).getD []

/-- Whether a number is finite: neither `NaN` nor an infinity. -/
def Num.isFinite : Num → Bool
  | .int _ => true
  | _ => false

/-- Every item of the document gets a finite `totalScore`. -/
def FiniteScores (doc : Store) : Prop := ∀ e ∈ entries doc, e.totalScore.isFinite = true

instance (doc : Store) : Decidable (FiniteScores doc) := by
  unfold FiniteScores
  exact inferInstance

/-- The sorted entries that `slice(0, 10)` leaves out of the response. -/
def leftOut (doc : Store) : List Entry := (sort compareFn (entries doc)).drop 10

/-- The tally record `{ S: s, A: a, B: b, C: c, D: d }`. -/
def tally (s a b c d : Int) : Record :=
  [("S", .num s), ("A", .num a), ("B", .num b), ("C", .num c), ("D", .num d)]

/-- A document of fifteen items whose scores strictly decrease in key order. -/
def fifteenItems : Store :=
  [("a", tally 15 0 0 0 0), ("b", tally 14 0 0 0 0), ("c", tally 13 0 0 0 0),
   ("d", tally 12 0 0 0 0), ("e", tally 11 0 0 0 0), ("f", tally 10 0 0 0 0),
   ("g", tally 9 0 0 0 0), ("h", tally 8 0 0 0 0), ("i", tally 7 0 0 0 0),
   ("j", tally 6 0 0 0 0), ("k", tally 5 0 0 0 0), ("l", tally 4 0 0 0 0),
   ("m", tally 3 0 0 0 0), ("n", tally 2 0 0 0 0), ("o", tally 1 0 0 0 0)]

/-- A document whose one item has a counter with `5 * S` above `2^53`. -/
def roundingDoc : Store := [("X", tally 1801439850948199 0 0 0 0)]

/-- A document with integer counters whose second item has `S` at `2^1023` and
`A` at `-2^1023`, so that its score is `Infinity + -Infinity`. -/
def overflowDoc : Store :=
  [("a", tally 0 0 0 0 1),
   ("b", tally (Int.ofNat (2 ^ 1023)) (-(Int.ofNat (2 ^ 1023))) 0 0 0),
   ("c", tally 1 0 0 0 0)]

/-- A document of eleven items: nine with score `0`, one whose record has no
counters (its score is `NaN`), and one with score `5`. -/
def nanDoc : Store :=
  [("a", tally 0 0 0 0 0), ("b", tally 0 0 0 0 0), ("c", tally 0 0 0 0 0),
   ("d", tally 0 0 0 0 0), ("e", tally 0 0 0 0 0), ("f", tally 0 0 0 0 0),
   ("g", tally 0 0 0 0 0), ("h", tally 0 0 0 0 0), ("i", tally 0 0 0 0 0),
   ("j", []), ("k", tally 1 0 0 0 0)]

/-- A document of seven items with the scores 9, 8, 0, `NaN`, 5, 7, 5. -/
def unstableDoc : Store :=
  [("a", tally 0 0 0 0 9), ("b", tally 0 0 0 0 8), ("c", tally 0 0 0 0 0), ("d", []),
   ("e", tally 1 0 0 0 0), ("f", tally 0 0 0 0 7), ("g", tally 0 0 0 0 5)]

/-- A document of twelve items: eleven with one score and one above them. -/
def tiedItems : Store :=
  [("p", tally 0 0 0 0 1), ("q", tally 0 0 0 0 1), ("r", tally 0 0 0 0 1),
   ("top", tally 1 0 0 0 0), ("s", tally 0 0 0 0 1), ("t", tally 0 0 0 0 1),
   ("u", tally 0 0 0 0 1), ("v", tally 0 0 0 0 1), ("w", tally 0 0 0 0 1),
   ("x", tally 0 0 0 0 1), ("y", tally 0 0 0 0 1), ("z", tally 0 0 0 0 1)]

/-- A request to the server. -/
inductive Request where
  | submit (body : Option Ratings)
  | rankings
  | clearTest
  deriving DecidableEq, Repr

/-- The document after a request. -/
def handle (doc : Store) : Request → Store
  | .submit body => (submit doc body).2
  | .rankings => (rankings doc).2
  | .clearTest => (clearTest doc).2

/-- The document after a sequence of requests to a freshly started server. -/
def run (reqs : List Request) : Store := reqs.foldl handle initData

/-- Whether a value is a non-negative integer. -/
def isCount : Val → Bool
  | .num n => decide (0 ≤ n)
  | _ => false

/-- The record has exactly the five tier keys, each holding a non-negative
integer. -/
def RecordShape (r : Record) : Prop :=
  keys r = tierSymbols ∧ ∀ q ∈ r, isCount q.2 = true

instance (r : Record) : Decidable (RecordShape r) := by
  unfold RecordShape
  exact inferInstance

/-- The request names no tier outside the five symbols. -/
def ValidTiers : Request → Prop
  | .submit (some userRatings) => ∀ p ∈ userRatings, p.2 ∈ tierSymbols
  | _ => True

instance (req : Request) : Decidable (ValidTiers req) := by
  cases req with
  | submit body =>
    cases body with
    | none => exact isTrue trivial
    | some u => exact inferInstanceAs (Decidable (∀ p ∈ u, p.2 ∈ tierSymbols))
  | rankings => exact isTrue trivial
  | clearTest => exact isTrue trivial

/-- The tree holds no `NaN` and no infinity: every value in it is written by
`JSON.stringify` as it is. -/
def FiniteValues (doc : Store) : Prop := ∀ p ∈ doc, ∀ q ∈ p.2, stringifyVal q.2 = q.2

instance (doc : Store) : Decidable (FiniteValues doc) := by
  unfold FiniteValues
  exact inferInstance

/-- The record has an integer under each of the five tier symbols. -/
def HasCounters (r : Record) : Prop := ∀ t ∈ tierSymbols, isInteger (getOwn r t) = true

instance (r : Record) : Decidable (HasCounters r) := by
  unfold HasCounters
  exact inferInstance

/-- The record an accepted submit request leaves under item `X`, from the
record `before` the item had and the tier the submission gives it (`none`: the
submission does not name the item). -/
def afterSubmit (before : Option Record) (X : String) (tier : Option String) : Option Record :=
  match tier with
  | some t => (afterVote before X t).map stringifyRecord
  | none => before.map stringifyRecord

/-- The score the rankings formula gives item `X`, taken as `0` when the
document has no record for `X`. -/
def scoreOf (doc : Store) (X : String) : Num :=
  match getOwn doc X with
  | some r => totalScoreOf r
  | none => .int 0

/-! ## The text of the document

The submit handler writes the merged store with `JSON.stringify(allRatings,
null, 2)` and every handler reads the document with `JSON.parse`.  What
follows gives the characters written and what is read from a text, for
documents that are an object of objects whose values are integer literals,
`null` or strings. -/

/-- The decimal digit `d`. -/
def digitChar (d : Nat) : Char := Char.ofNat (48 + d)

/-- The decimal digits of `n`, the most significant first. -/
def natDigits : Nat → Nat → List Char
  | 0, _ => []
  | fuel + 1, n =>
      if n < 10 then [digitChar n] else natDigits fuel (n / 10) ++ [digitChar (n % 10)]

/-- The text `JSON.stringify` writes for a number whose value is the integer
`n` (of a magnitude below `10^21`, from which on an exponent is written). -/
def renderInt (n : Int) : List Char :=
  if n < 0 then '-' :: natDigits (n.natAbs + 1) n.natAbs else natDigits (n.natAbs + 1) n.natAbs

/-- The hexadecimal digit `d`, in lower case. -/
def hexChar (d : Nat) : Char := if d < 10 then Char.ofNat (48 + d) else Char.ofNat (87 + d)

/-- What `JSON.stringify` writes for one character of a string. -/
def quoteChar (c : Char) : List Char :=
  if c = '"' then ['\\', '"']
  else if c = '\\' then ['\\', '\\']
  else if c.toNat = 8 then ['\\', 'b']
  else if c.toNat = 9 then ['\\', 't']
  else if c.toNat = 10 then ['\\', 'n']
  else if c.toNat = 12 then ['\\', 'f']
  else if c.toNat = 13 then ['\\', 'r']
  else if c.toNat < 32 then ['\\', 'u', '0', '0', hexChar (c.toNat / 16), hexChar (c.toNat % 16)]
  else [c]

/-- The characters of a string and the closing quote. -/
def quoteChars : List Char → List Char
  | [] => ['"']
  | c :: cs => quoteChar c ++ quoteChars cs

/-- The string literal `JSON.stringify` writes for a string. -/
def quote (s : List Char) : List Char := '"' :: quoteChars s

/-- The string `v + 1` is when `v` is the built-in function `f` followed by
`ones - 1` copies of `1`. -/
def fnTextChars (f : String) (ones : Nat) : List Char :=
  "function ".data ++ f.data ++ "() \x7b [native code] \x7d".data ++ List.replicate ones '1'

/-- The text `JSON.stringify` writes for a value of a record. -/
def renderVal : Val → List Char
  | .num n => renderInt n
  | .inf _ => "null".data
  | .nan => "null".data
  | .null => "null".data
  | .fnText f ones => quote (fnTextChars f ones)

/-- The indentation of depth `d`, two blanks for each level. -/
def indentation (d : Nat) : List Char := List.replicate (2 * d) ' '

/-- The members of a non-empty object written at depth `d`, and the closing
brace. -/
def renderMembers {α : Type} (renderItem : α → List Char) (d : Nat) : Obj α → List Char
  | [] => '\n' :: (indentation d ++ ['\x7d'])
  | [p] =>
      indentation (d + 1) ++ quote p.1.data ++ ':' :: ' ' :: renderItem p.2 ++
        '\n' :: (indentation d ++ ['\x7d'])
  | p :: q :: rest =>
      indentation (d + 1) ++ quote p.1.data ++ ':' :: ' ' :: renderItem p.2 ++
        ',' :: '\n' :: renderMembers renderItem d (q :: rest)

/-- The text `JSON.stringify(o, null, 2)` writes for an object at depth `d`. -/
def renderObject {α : Type} (renderItem : α → List Char) (d : Nat) (o : Obj α) : List Char :=
  match o with
  | [] => ['\x7b', '\x7d']
  | p :: rest => '\x7b' :: '\n' :: renderMembers renderItem d (p :: rest)

/-- The text written for a record of the store. -/
def renderRecord (r : Record) : List Char := renderObject renderVal 1 r

/-- The text `JSON.stringify(allRatings, null, 2)` of line 62. -/
def render (allRatings : Store) : List Char := renderObject renderRecord 0 allRatings

/-- The white space of JSON. -/
def isWs (c : Char) : Bool := c = ' ' || c = '\n' || c = '\r' || c = '\t'

/-- Drops the white space the text starts with. -/
def skipWs : List Char → List Char
  | [] => []
  | c :: rest => if isWs c then skipWs rest else c :: rest

/-- The value of a hexadecimal digit. -/
def hexValue (c : Char) : Option Nat :=
  if 48 ≤ c.toNat ∧ c.toNat ≤ 57 then some (c.toNat - 48)
  else if 97 ≤ c.toNat ∧ c.toNat ≤ 102 then some (c.toNat - 87)
  else if 65 ≤ c.toNat ∧ c.toNat ≤ 70 then some (c.toNat - 55)
  else none

/-- The character the escape `\e` stands for. -/
def unescape (e : Char) : Option Char :=
  if e = '"' then some '"'
  else if e = '\\' then some '\\'
  else if e = '/' then some '/'
  else if e = 'b' then some (Char.ofNat 8)
  else if e = 't' then some (Char.ofNat 9)
  else if e = 'n' then some (Char.ofNat 10)
  else if e = 'f' then some (Char.ofNat 12)
  else if e = 'r' then some (Char.ofNat 13)
  else none

/-- Reads the escape `\uXXXX` of a low surrogate: its code and the text after
it. -/
def lowSurrogate : List Char → Option (Nat × List Char)
  | b :: u :: x3 :: x2 :: x1 :: x0 :: rest =>
      if b = '\\' ∧ u = 'u' then
        match hexValue x3, hexValue x2, hexValue x1, hexValue x0 with
        | some h3, some h2, some h1, some h0 =>
            if 56320 ≤ ((h3 * 16 + h2) * 16 + h1) * 16 + h0 ∧
                ((h3 * 16 + h2) * 16 + h1) * 16 + h0 < 57344
            then some (((h3 * 16 + h2) * 16 + h1) * 16 + h0, rest) else none
        | _, _, _, _ => none
      else none
  | _ => none

/-- Reads a string literal after its opening quote: the string and the text
after the closing quote.  The escapes of a high and a low surrogate give one
character.  `none` for what `JSON.parse` refuses (no closing quote, a control
character, an escape that is none) and for the escape of a surrogate without
its partner, which gives a string outside this model. -/
def parseChars : Nat → List Char → Option (List Char × List Char)
  | 0, _ => none
  | _ + 1, [] => none
  | fuel + 1, c :: rest =>
      if c = '"' then some ([], rest)
      else if c = '\\' then
        match rest with
        | [] => none
        | e :: rest2 =>
            if e = 'u' then
              match rest2 with
              | x3 :: x2 :: x1 :: x0 :: rest3 =>
                  match hexValue x3, hexValue x2, hexValue x1, hexValue x0 with
                  | some h3, some h2, some h1, some h0 =>
                      if 55296 ≤ ((h3 * 16 + h2) * 16 + h1) * 16 + h0 ∧
                          ((h3 * 16 + h2) * 16 + h1) * 16 + h0 < 57344 then
                        match lowSurrogate rest3 with
                        | some (low, rest4) =>
                            if ((h3 * 16 + h2) * 16 + h1) * 16 + h0 < 56320 then
                              (parseChars fuel rest4).map
                                (fun r => (Char.ofNat (65536 +
                                  (((h3 * 16 + h2) * 16 + h1) * 16 + h0 - 55296) * 1024 +
                                  (low - 56320)) :: r.1, r.2))
                            else none
                        | none => none
                      else (parseChars fuel rest3).map
                        (fun r => (Char.ofNat (((h3 * 16 + h2) * 16 + h1) * 16 + h0) :: r.1, r.2))
                  | _, _, _, _ => none
              | _ => none
            else
              match unescape e with
              | some x => (parseChars fuel rest2).map (fun r => (x :: r.1, r.2))
              | none => none
      else if c.toNat < 32 then none
      else (parseChars fuel rest).map (fun r => (c :: r.1, r.2))

/-- Reads a string literal after its opening quote. -/
def parseString (input : List Char) : Option (List Char × List Char) :=
  parseChars input.length input

/-- Whether the character is a decimal digit. -/
def isDigit (c : Char) : Bool := decide (48 ≤ c.toNat ∧ c.toNat ≤ 57)

/-- Reads an integer literal without sign: its value and the text after it.
`none` for no digit and for a leading zero, which `JSON.parse` refuses, and
for a literal with a fraction or an exponent, which is outside this model. -/
def parseNat (input : List Char) : Option (Nat × List Char) :=
  match input.takeWhile isDigit, input.dropWhile isDigit with
  | [], _ => none
  | c :: ds, rest =>
      if c = '0' ∧ ds ≠ [] then none
      else
        match rest with
        | [] => (parseDigits (c :: ds) 0).map (fun n => (n, []))
        | x :: rest2 =>
            if x = '.' ∨ x = 'e' ∨ x = 'E' then none
            else (parseDigits (c :: ds) 0).map (fun n => (n, x :: rest2))

/-- The number value of an integer literal: the double nearest to it. -/
def numVal (n : Int) : Val :=
  match roundToDouble n with
  | .int m => .num m
  | .inf s => .inf s
  | .nan => .nan

/-- The names of the built-in functions found on `Object.prototype`. -/
def functionNames : List String :=
  ["Object", "hasOwnProperty", "isPrototypeOf", "propertyIsEnumerable", "toLocaleString",
    "toString", "valueOf", "__defineGetter__", "__defineSetter__", "__lookupGetter__",
    "__lookupSetter__"]

/-- Removes the characters `p` the text starts with. -/
def dropChars : List Char → List Char → Option (List Char)
  | [], s => some s
  | _ :: _, [] => none
  | a :: p, b :: s => if a = b then dropChars p s else none

/-- Reads a string as the text of the built-in function `f` followed by
copies of `1`. -/
def asFnTextOf (s : List Char) (f : String) : Option Val :=
  match dropChars ("function ".data ++ f.data ++ "() \x7b [native code] \x7d".data) s with
  | some ones => if ones.all (fun c => c = '1') then some (.fnText f ones.length) else none
  | none => none

/-- Reads a string as a value of a record; `none` for a string that is not the
text of a built-in function followed by copies of `1`. -/
def asFnText (s : List Char) : Option Val := functionNames.findSome? (asFnTextOf s)

/-- Reads a value of a record: its value and the text after it. -/
def parseValue (input : List Char) : Option (Val × List Char) :=
  match input with
  | [] => none
  | c :: rest =>
      if c = 'n' then
        match rest with
        | x1 :: x2 :: x3 :: rest2 =>
            if x1 = 'u' ∧ x2 = 'l' ∧ x3 = 'l' then some (.null, rest2) else none
        | _ => none
      else if c = '"' then
        match parseString rest with
        | some (s, rest2) => (asFnText s).map (fun v => (v, rest2))
        | none => none
      else if c = '-' then (parseNat rest).map (fun r => (numVal (-(Int.ofNat r.1)), r.2))
      else (parseNat (c :: rest)).map (fun r => (numVal (Int.ofNat r.1), r.2))

/-- The definition of the property `k` while an object is read: the value of
a name that is there is replaced, a new name is created. -/
def defineOwn {α : Type} (o : Obj α) (k : String) (v : α) : Obj α :=
  match getOwn o k with
  | some _ => replaceOwn o k v
  | none => insertKey k v o

/-- Reads the members of an object, from the opening quote of a name on: the
object, and the text after the closing brace. -/
def parseMembers {α : Type} (parseItem : List Char → Option (α × List Char)) :
    Nat → Obj α → List Char → Option (Obj α × List Char)
  | 0, _, _ => none
  | fuel + 1, acc, input =>
      match input with
      | [] => none
      | c :: rest =>
          if c = '"' then
            match parseString rest with
            | none => none
            | some (k, rest2) =>
                match skipWs rest2 with
                | [] => none
                | c2 :: rest3 =>
                    if c2 = ':' then
                      match parseItem (skipWs rest3) with
                      | none => none
                      | some (v, rest4) =>
                          match skipWs rest4 with
                          | [] => none
                          | c3 :: rest5 =>
                              if c3 = ',' then
                                parseMembers parseItem fuel (defineOwn acc (String.mk k) v)
                                  (skipWs rest5)
                              else if c3 = '\x7d' then
                                some (defineOwn acc (String.mk k) v, rest5)
                              else none
                    else none
          else none

/-- Reads an object: the object, and the text after its closing brace. -/
def parseObject {α : Type} (parseItem : List Char → Option (α × List Char))
    (input : List Char) : Option (Obj α × List Char) :=
  match input with
  | [] => none
  | c :: rest =>
      if c = '\x7b' then
        match skipWs rest with
        | [] => none
        | c2 :: rest2 =>
            if c2 = '\x7d' then some ([], rest2)
            else parseMembers parseItem (c2 :: rest2).length [] (c2 :: rest2)
      else none

/-- Reads a record of the store. -/
def parseRecord (input : List Char) : Option (Record × List Char) :=
  parseObject parseValue input

/-- The tree `JSON.parse` yields for the text of a document; `none` when it
throws and when the text is no object of records. -/
def parseDocument (text : List Char) : Option Store :=
  match parseObject parseRecord (skipWs text) with
  | some (doc, rest) => if skipWs rest = [] then some doc else none
  | none => none

/-- The name `a` may stand before the name `b` in `Object.keys`: they differ,
and when `b` is an array index, `a` is one that is not greater. -/
def keyBefore (a b : String) : Bool :=
  a != b &&
    (match arrayIndex b with
     | none => true
     | some m =>
         match arrayIndex a with
         | some n => decide (n ≤ m)
         | none => false)

/-- The properties stand as in an object: no name twice, the array indices
first in ascending order. -/
def Ordered {α : Type} (o : Obj α) : Prop := o.Pairwise (fun p q => keyBefore p.1 q.1 = true)

instance {α : Type} (o : Obj α) : Decidable (Ordered o) := by
  unfold Ordered
  exact inferInstance

/-- The value is one that a document can hold or that is written as `null`:
a number is an integer up to `2^53` in magnitude (all of which are doubles),
a text is that of a built-in function of `Object.prototype`. -/
def Exact : Val → Prop
  | .num n => n.natAbs ≤ 2 ^ 53
  | .fnText f _ => f ∈ functionNames
  | _ => True

instance (v : Val) : Decidable (Exact v) := by
  cases v <;> unfold Exact <;> exact inferInstance

/-- The store is one of the model: at both levels the properties stand as in
an object, and every value is exact. -/
def WellFormed (doc : Store) : Prop :=
  Ordered doc ∧ ∀ p ∈ doc, Ordered p.2 ∧ ∀ q ∈ p.2, Exact q.2

instance (doc : Store) : Decidable (WellFormed doc) := by
  unfold WellFormed
  exact inferInstance

/-- What may follow a value in the text written: nothing, or a character that
is no digit and opens no fraction and no exponent. -/
def EndsNumber (rest : List Char) : Prop :=
  ∀ x r, rest = x :: r → isDigit x = false ∧ x ≠ '.' ∧ x ≠ 'e' ∧ x ≠ 'E'

/-- What follows a value in the text written: a comma, or a new line. -/
def EndsValue (tail : List Char) : Prop := ∃ r, tail = ',' :: r ∨ tail = '\n' :: r

/-- The value is a safe integer (below `2^53` in magnitude), `null`, or the
text of a built-in function of `Object.prototype`. -/
def Safe : Val → Prop
  | .num n => n.natAbs < 2 ^ 53
  | .fnText f _ => f ∈ functionNames
  | .null => True
  | _ => False

instance (v : Val) : Decidable (Safe v) := by
  cases v <;> unfold Safe <;> exact inferInstance

/-- The store is one read from a document, with safe integers for numbers:
at both levels the properties stand as in an object, and every value is a
safe integer, `null`, or the text of a built-in function. -/
def SafeStore (doc : Store) : Prop :=
  Ordered doc ∧ ∀ p ∈ doc, Ordered p.2 ∧ ∀ q ∈ p.2, Safe q.2

instance (doc : Store) : Decidable (SafeStore doc) := by
  unfold SafeStore
  exact inferInstance


/-! ## Own properties under the object updates -/

theorem getOwn_replaceOwn {α : Type} (o : Obj α) (k k' : String) (v : α) :
    getOwn (replaceOwn o k v) k' =
      if k' = k then (getOwn o k).map (fun _ => v) else getOwn o k' := by
  induction o with
  | nil => simp [replaceOwn, getOwn]
  | cons p rest ih =>
    obtain ⟨a, b⟩ := p
    by_cases h1 : k = a
    · subst h1
      by_cases h2 : k' = k <;> simp [replaceOwn, getOwn, h2]
    · by_cases h2 : k' = a
      · subst h2
        have h3 : ¬ k' = k := fun h => h1 h.symm
        simp [replaceOwn, getOwn, h1, h3]
      · simp only [replaceOwn, getOwn, h1, h2, if_false, ih]

theorem keys_replaceOwn {α : Type} (o : Obj α) (k : String) (v : α) :
    keys (replaceOwn o k v) = keys o := by
  induction o with
  | nil => rfl
  | cons p rest ih =>
    obtain ⟨a, b⟩ := p
    by_cases h1 : k = a
    · simp [replaceOwn, keys, h1]
    · simpa [replaceOwn, keys, h1] using ih

theorem getOwn_append_single {α : Type} (o : Obj α) (k k' : String) (v : α) :
    getOwn (o ++ [(k, v)]) k' =
      match getOwn o k' with
      | some w => some w
      | none => if k' = k then some v else none := by
  induction o with
  | nil => simp [getOwn]
  | cons p rest ih =>
    obtain ⟨a, b⟩ := p
    by_cases h : k' = a
    · simp [getOwn, h]
    · simpa [getOwn, h] using ih

theorem getOwn_insertIndex_ne {α : Type} (n : Nat) (o : Obj α) (k k' : String) (v : α)
    (h : k' ≠ k) : getOwn (insertIndex n k v o) k' = getOwn o k' := by
  induction o with
  | nil => simp [insertIndex, getOwn, h]
  | cons p rest ih =>
    obtain ⟨a, b⟩ := p
    simp only [insertIndex]
    split
    · split
      · simp [getOwn, h]
      · by_cases h2 : k' = a <;> simp [getOwn, h2, ih]
    · simp [getOwn, h]

theorem getOwn_insertIndex_self {α : Type} (n : Nat) (o : Obj α) (k : String) (v : α)
    (h : getOwn o k = none) : getOwn (insertIndex n k v o) k = some v := by
  induction o with
  | nil => simp [insertIndex, getOwn]
  | cons p rest ih =>
    obtain ⟨a, b⟩ := p
    have hka : ¬ k = a := by
      intro hk
      simp [getOwn, hk] at h
    have hrest : getOwn rest k = none := by
      simpa [getOwn, hka] using h
    simp only [insertIndex]
    split
    · split
      · simp [getOwn]
      · simp [getOwn, hka, ih hrest]
    · simp [getOwn]

theorem getOwn_insertKey_ne {α : Type} (o : Obj α) (k k' : String) (v : α)
    (h : k' ≠ k) : getOwn (insertKey k v o) k' = getOwn o k' := by
  unfold insertKey
  split
  · exact getOwn_insertIndex_ne _ o k k' v h
  · rw [getOwn_append_single]
    cases getOwn o k' <;> simp [h]

theorem getOwn_insertKey_self {α : Type} (o : Obj α) (k : String) (v : α)
    (h : getOwn o k = none) : getOwn (insertKey k v o) k = some v := by
  unfold insertKey
  split
  · exact getOwn_insertIndex_self _ o k v h
  · rw [getOwn_append_single, h]
    simp

theorem getOwn_eq_none_iff {α : Type} (o : Obj α) (k : String) :
    getOwn o k = none ↔ k ∉ keys o := by
  induction o with
  | nil => simp [getOwn, keys]
  | cons p rest ih =>
    obtain ⟨a, b⟩ := p
    by_cases h : k = a
    · simp [getOwn, keys, h]
    · simpa [getOwn, keys, h] using ih

theorem getOwn_isSome_of_mem {α : Type} (o : Obj α) (k : String) (h : k ∈ keys o) :
    ∃ v, getOwn o k = some v := by
  cases hg : getOwn o k with
  | none => exact absurd h ((getOwn_eq_none_iff o k).1 hg)
  | some v => exact ⟨v, rfl⟩

/-! ## One vote -/

theorem get_of_getOwn {α : Type} (o : Obj α) (k : String) (v : α)
    (h : getOwn o k = some v) : get o k = .own v := by
  simp [get, h]

theorem get_undefined {α : Type} (o : Obj α) (k : String)
    (h : getOwn o k = none) (hk : ¬ inheritedName k) : get o k = .undefined := by
  unfold inheritedName at hk
  push_neg at hk
  simp [get, h, hk.1, hk.2]

theorem tierSymbols_not_inherited (t : String) (ht : t ∈ tierSymbols) :
    ¬ inheritedName t := by
  simp only [tierSymbols, keys, zeroRecord, List.map_cons, List.map_nil, List.mem_cons,
    List.mem_singleton, List.not_mem_nil, or_false] at ht
  rcases ht with h | h | h | h | h <;> subst h <;> decide

theorem getOwn_increment_ne (r : Record) (t u : String) (h : u ≠ t) :
    getOwn (increment r t) u = getOwn r u := by
  unfold increment
  split
  · rw [getOwn_replaceOwn]; simp [h]
  · exact getOwn_insertKey_ne r t u _ h
  · rfl
  · exact getOwn_insertKey_ne r t u _ h

theorem getOwn_increment_self (r : Record) (t : String) (v : Val)
    (h : getOwn r t = some v) : getOwn (increment r t) t = some (plusOne v) := by
  unfold increment
  rw [get_of_getOwn r t v h]
  simp [getOwn_replaceOwn, h]

theorem mergeStep_own (all : Store) (k t : String) (r : Record)
    (h : getOwn all k = some r) :
    mergeStep all k t = some (replaceOwn all k (increment r t)) := by
  unfold mergeStep
  rw [get_of_getOwn all k r h]

theorem mergeStep_new (all : Store) (k t : String)
    (h : getOwn all k = none) (hk : ¬ inheritedName k) :
    mergeStep all k t = some (insertKey k (increment zeroRecord t) all) := by
  unfold mergeStep
  rw [get_undefined all k h hk]

/-- A vote for a name found on `Object.prototype` leaves the document as it
is, if it does not throw. -/
theorem mergeStep_inherited (all next : Store) (k t : String)
    (h : getOwn all k = none) (hk : inheritedName k) (hs : mergeStep all k t = some next) :
    next = all := by
  unfold mergeStep get at hs
  rw [h] at hs
  cases hp : protoFunction k with
  | some f =>
    rw [hp] at hs
    by_cases hr : restrictedName t
    · simp [hr] at hs
    · simp only [hr, if_false] at hs
      exact (Option.some.inj hs).symm
  | none =>
    have : k = "__proto__" := by
      rcases hk with h1 | h1
      · exact absurd hp h1
      · exact h1
    rw [hp] at hs
    simp only [this, if_true] at hs
    exact (Option.some.inj hs).symm

/-- The three ways a vote that does not throw can go. -/
theorem mergeStep_cases (all next : Store) (k t : String) (hs : mergeStep all k t = some next) :
    (∃ r, getOwn all k = some r ∧ next = replaceOwn all k (increment r t)) ∨
    (getOwn all k = none ∧ ¬ inheritedName k ∧
      next = insertKey k (increment zeroRecord t) all) ∨
    (getOwn all k = none ∧ inheritedName k ∧ next = all) := by
  cases h : getOwn all k with
  | some r =>
    left
    rw [mergeStep_own all k t r h] at hs
    exact ⟨r, rfl, (Option.some.inj hs).symm⟩
  | none =>
    right
    by_cases hk : inheritedName k
    · right
      exact ⟨rfl, hk, mergeStep_inherited all next k t h hk hs⟩
    · left
      rw [mergeStep_new all k t h hk] at hs
      exact ⟨rfl, hk, (Option.some.inj hs).symm⟩

theorem getOwn_mergeStep_ne (all next : Store) (k t X : String)
    (hs : mergeStep all k t = some next) (h : X ≠ k) : getOwn next X = getOwn all X := by
  rcases mergeStep_cases all next k t hs with ⟨r, _, e⟩ | ⟨_, _, e⟩ | ⟨_, _, e⟩
  · rw [e, getOwn_replaceOwn]; simp [h]
  · rw [e]; exact getOwn_insertKey_ne all k X _ h
  · rw [e]

theorem getOwn_mergeStep_self (all next : Store) (k t : String)
    (hs : mergeStep all k t = some next) :
    getOwn next k = afterVote (getOwn all k) k t := by
  rcases mergeStep_cases all next k t hs with ⟨r, hr, e⟩ | ⟨hr, hk, e⟩ | ⟨hr, hk, e⟩
  · rw [e, hr, getOwn_replaceOwn]; simp [afterVote, hr]
  · rw [e, hr, getOwn_insertKey_self all k _ hr]; simp [afterVote, hk]
  · rw [e, hr]; simp [afterVote, hk]

/-- A vote throws only for the tiers `caller` and `arguments`. -/
theorem mergeStep_isSome (all : Store) (k t : String) (ht : ¬ restrictedName t) :
    ∃ next, mergeStep all k t = some next := by
  unfold mergeStep
  split
  · exact ⟨_, rfl⟩
  · exact ⟨_, rfl⟩
  · exact ⟨all, by simp [ht]⟩
  · exact ⟨_, rfl⟩

/-! ## The whole loop -/

theorem forEach_cons (f : String → String) (k : String) (rest : List String)
    (all merged : Store) (h : forEach f (k :: rest) all = some merged) :
    ∃ next, mergeStep all k (f k) = some next ∧ forEach f rest next = some merged := by
  simp only [forEach] at h
  cases hs : mergeStep all k (f k) with
  | none => rw [hs] at h; cases h
  | some next => rw [hs] at h; exact ⟨next, rfl, h⟩

theorem forEach_isSome (f : String → String) (l : List String) (all : Store)
    (hf : ∀ k ∈ l, ¬ restrictedName (f k)) : ∃ merged, forEach f l all = some merged := by
  induction l generalizing all with
  | nil => exact ⟨all, rfl⟩
  | cons k rest ih =>
    obtain ⟨next, hn⟩ := mergeStep_isSome all k (f k) (hf k (by simp))
    obtain ⟨merged, hm⟩ := ih next (fun k2 hk2 => hf k2 (by simp [hk2]))
    exact ⟨merged, by simp [forEach, hn, hm]⟩

theorem getOwn_forEach_not_mem (f : String → String) (l : List String) (all merged : Store)
    (X : String) (hm : forEach f l all = some merged) (h : X ∉ l) :
    getOwn merged X = getOwn all X := by
  induction l generalizing all with
  | nil =>
    simp only [forEach] at hm
    rw [← Option.some.inj hm]
  | cons k rest ih =>
    have h1 : X ≠ k := fun e => h (by simp [e])
    have h2 : X ∉ rest := fun e => h (by simp [e])
    obtain ⟨next, hn, hr⟩ := forEach_cons f k rest all merged hm
    rw [ih next hr h2, getOwn_mergeStep_ne all next k (f k) X hn h1]

theorem getOwn_forEach_mem (f : String → String) (l : List String) (all merged : Store)
    (X : String) (hm : forEach f l all = some merged) (hnd : l.Nodup) (h : X ∈ l) :
    getOwn merged X = afterVote (getOwn all X) X (f X) := by
  induction l generalizing all with
  | nil => simp at h
  | cons k rest ih =>
    rw [List.nodup_cons] at hnd
    obtain ⟨next, hn, hr⟩ := forEach_cons f k rest all merged hm
    by_cases hk : X = k
    · subst hk
      rw [getOwn_forEach_not_mem f rest next merged X hr hnd.1,
        getOwn_mergeStep_self all next X (f X) hn]
    · have hmem : X ∈ rest := by
        rcases List.mem_cons.1 h with e | e
        · exact absurd e hk
        · exact e
      rw [ih next hr hnd.2 hmem, getOwn_mergeStep_ne all next k (f k) X hn hk]

theorem getOwn_of_mem_nodup {α : Type} (o : Obj α) (k : String) (v : α)
    (hnd : (keys o).Nodup) (h : (k, v) ∈ o) : getOwn o k = some v := by
  induction o with
  | nil => simp at h
  | cons p rest ih =>
    obtain ⟨a, b⟩ := p
    simp only [keys, List.map_cons, List.nodup_cons] at hnd
    rcases List.mem_cons.1 h with e | e
    · cases e
      simp [getOwn]
    · have hka : k ≠ a := by
        intro hk
        subst hk
        exact hnd.1 (List.mem_map.2 ⟨(k, v), e, rfl⟩)
      simpa [getOwn, hka] using ih hnd.2 e

theorem mem_keys_of_mem {α : Type} (o : Obj α) (k : String) (v : α) (h : (k, v) ∈ o) :
    k ∈ keys o := List.mem_map.2 ⟨(k, v), h, rfl⟩

/-- The record the loop leaves under a submitted item. -/
theorem getOwn_merge_mem (all merged : Store) (userRatings : Ratings) (X t : String)
    (hm : merge all userRatings = some merged)
    (hnd : (keys userRatings).Nodup) (h : (X, t) ∈ userRatings) :
    getOwn merged X = afterVote (getOwn all X) X t := by
  unfold merge at hm
  rw [getOwn_forEach_mem (tierOf userRatings) _ all merged X hm hnd (mem_keys_of_mem _ _ _ h)]
  simp [tierOf, getOwn_of_mem_nodup userRatings X t hnd h]

/-- The loop leaves the items it is not given as they are. -/
theorem getOwn_merge_not_mem (all merged : Store) (userRatings : Ratings) (X : String)
    (hm : merge all userRatings = some merged)
    (h : X ∉ keys userRatings) : getOwn merged X = getOwn all X := by
  unfold merge at hm
  exact getOwn_forEach_not_mem (tierOf userRatings) _ all merged X hm h

/-! ## Writing the document -/

theorem getOwn_map {α β : Type} (g : α → β) (o : Obj α) (k : String) :
    getOwn (o.map (fun q => (q.1, g q.2))) k = (getOwn o k).map g := by
  induction o with
  | nil => rfl
  | cons p rest ih =>
    obtain ⟨a, b⟩ := p
    by_cases h : k = a
    · simp [getOwn, h]
    · simpa [getOwn, h] using ih

theorem getOwn_stringify (all : Store) (X : String) :
    getOwn (stringify all) X = (getOwn all X).map stringifyRecord := by
  unfold stringify
  exact getOwn_map stringifyRecord all X

theorem mem_of_getOwn {α : Type} (o : Obj α) (k : String) (v : α)
    (h : getOwn o k = some v) : (k, v) ∈ o := by
  induction o with
  | nil => simp [getOwn] at h
  | cons p rest ih =>
    obtain ⟨a, b⟩ := p
    by_cases hk : k = a
    · subst hk
      simp [getOwn] at h
      simp [h]
    · simp only [getOwn, hk, if_false] at h
      exact List.mem_cons_of_mem _ (ih h)

theorem getOwn_stringifyRecord (r : Record) (t : String) :
    getOwn (stringifyRecord r) t = (getOwn r t).map stringifyVal := by
  unfold stringifyRecord
  exact getOwn_map stringifyVal r t

theorem submit_nonempty (doc merged : Store) (userRatings : Ratings) (h : userRatings ≠ [])
    (hm : merge doc userRatings = some merged) :
    submit doc (some userRatings) = (⟨200, true, none⟩, stringify merged) := by
  cases userRatings with
  | nil => exact absurd rfl h
  | cons p rest => simp [submit, keys, parse, hm]

theorem submit_throws (doc : Store) (userRatings : Ratings) (h : userRatings ≠ [])
    (hm : merge doc userRatings = none) :
    submit doc (some userRatings) = (⟨500, false, none⟩, doc) := by
  cases userRatings with
  | nil => exact absurd rfl h
  | cons p rest => simp [submit, keys, parse, hm]

theorem tierOf_mem_values (userRatings : Ratings) (k : String) (hk : k ∈ keys userRatings) :
    (k, tierOf userRatings k) ∈ userRatings := by
  obtain ⟨t, ht⟩ := getOwn_isSome_of_mem userRatings k hk
  have := mem_of_getOwn userRatings k t ht
  simpa [tierOf, ht] using this

/-- A vote for an item whose name is not found on `Object.prototype` does not
throw. -/
theorem mergeStep_isSome_of_name (all : Store) (k t : String) (hk : ¬ inheritedName k) :
    ∃ next, mergeStep all k t = some next := by
  cases h : getOwn all k with
  | some r => exact ⟨_, mergeStep_own all k t r h⟩
  | none => exact ⟨_, mergeStep_new all k t h hk⟩

theorem forEach_isSome_of_names (f : String → String) (l : List String) (all : Store)
    (hl : ∀ k ∈ l, ¬ inheritedName k) : ∃ merged, forEach f l all = some merged := by
  induction l generalizing all with
  | nil => exact ⟨all, rfl⟩
  | cons k rest ih =>
    obtain ⟨next, hn⟩ := mergeStep_isSome_of_name all k (f k) (hl k (by simp))
    obtain ⟨merged, hm⟩ := ih next (fun k2 hk2 => hl k2 (by simp [hk2]))
    exact ⟨merged, by simp [forEach, hn, hm]⟩

/-- A submission none of whose item names is found on `Object.prototype` is
merged without a throw. -/
theorem merge_isSome_of_names (doc : Store) (userRatings : Ratings)
    (h : ∀ p ∈ userRatings, ¬ inheritedName p.1) :
    ∃ merged, merge doc userRatings = some merged := by
  unfold merge
  refine forEach_isSome_of_names (tierOf userRatings) (keys userRatings) doc ?_
  intro k hk
  obtain ⟨p, hp, rfl⟩ := List.mem_map.1 hk
  exact h p hp

/-- A submission that names neither `caller` nor `arguments` as a tier is
merged without a throw. -/
theorem merge_isSome (doc : Store) (userRatings : Ratings)
    (h : ∀ p ∈ userRatings, ¬ restrictedName p.2) :
    ∃ merged, merge doc userRatings = some merged := by
  unfold merge
  exact forEach_isSome (tierOf userRatings) (keys userRatings) doc
    (fun k hk => h _ (tierOf_mem_values userRatings k hk))

theorem tierSymbols_not_restricted (t : String) (ht : t ∈ tierSymbols) :
    ¬ restrictedName t := by
  simp only [tierSymbols, keys, zeroRecord, List.map_cons, List.map_nil, List.mem_cons,
    List.mem_singleton, List.not_mem_nil, or_false] at ht
  rcases ht with h | h | h | h | h <;> subst h <;> decide

/-! ## Counters only grow -/

theorem Grows.refl (r : Record) : Grows r r := fun _ n h => ⟨n, h, le_refl n⟩

theorem Grows.trans {a b c : Record} (h1 : Grows a b) (h2 : Grows b c) : Grows a c := by
  intro u n h
  obtain ⟨m, hm, hle⟩ := h1 u n h
  obtain ⟨k, hk, hle2⟩ := h2 u m hm
  exact ⟨k, hk, le_trans hle hle2⟩

theorem grows_increment (r : Record) (t : String) : Grows r (increment r t) := by
  intro u n h
  by_cases hu : u = t
  · subst hu
    exact ⟨n + 1, by rw [getOwn_increment_self r u _ h]; rfl, by omega⟩
  · exact ⟨n, by rw [getOwn_increment_ne r t u hu]; exact h, le_refl n⟩

theorem grows_stringifyRecord (r : Record) : Grows r (stringifyRecord r) := by
  intro u n h
  exact ⟨n, by rw [getOwn_stringifyRecord, h]; rfl, le_refl n⟩

theorem grows_mergeStep (all next : Store) (k t X : String) (r : Record)
    (hs : mergeStep all k t = some next) (h : getOwn all X = some r) :
    ∃ r', getOwn next X = some r' ∧ Grows r r' := by
  by_cases hk : X = k
  · subst hk
    refine ⟨increment r t, ?_, grows_increment r t⟩
    rw [getOwn_mergeStep_self all next X t hs, h]
    rfl
  · exact ⟨r, by rw [getOwn_mergeStep_ne all next k t X hs hk]; exact h, Grows.refl r⟩

theorem grows_forEach (f : String → String) (l : List String) (all merged : Store)
    (X : String) (r : Record) (hm : forEach f l all = some merged)
    (h : getOwn all X = some r) :
    ∃ r', getOwn merged X = some r' ∧ Grows r r' := by
  induction l generalizing all r with
  | nil =>
    simp only [forEach] at hm
    rw [← Option.some.inj hm]
    exact ⟨r, h, Grows.refl r⟩
  | cons k rest ih =>
    obtain ⟨next, hn, hr⟩ := forEach_cons f k rest all merged hm
    obtain ⟨r1, h1, g1⟩ := grows_mergeStep all next k (f k) X r hn h
    obtain ⟨r2, h2, g2⟩ := ih next r1 hr h1
    exact ⟨r2, h2, g1.trans g2⟩

theorem grows_submit (doc : Store) (body : Option Ratings) (X : String) (r : Record)
    (h : getOwn doc X = some r) :
    ∃ r', getOwn (submit doc body).2 X = some r' ∧ Grows r r' := by
  cases body with
  | none => exact ⟨r, h, Grows.refl r⟩
  | some userRatings =>
    by_cases he : userRatings = []
    · subst he
      exact ⟨r, h, Grows.refl r⟩
    · cases hm : merge doc userRatings with
      | none =>
        rw [submit_throws doc userRatings he hm]
        exact ⟨r, h, Grows.refl r⟩
      | some merged =>
        rw [submit_nonempty doc merged userRatings he hm]
        obtain ⟨r1, h1, g1⟩ :=
          grows_forEach (tierOf userRatings) (keys userRatings) doc merged X r hm h
        refine ⟨stringifyRecord r1, ?_, g1.trans (grows_stringifyRecord r1)⟩
        rw [getOwn_stringify, h1]
        rfl

/-! ## Merge correctness (C1) -/

theorem isInteger_iff (o : Option Val) : isInteger o = true ↔ ∃ n : Int, o = some (.num n) := by
  cases o with
  | none => simp [isInteger]
  | some v => cases v <;> simp [isInteger]

theorem integerCounters_getOwn (doc : Store) (hint : IntegerCounters doc) (X : String)
    (r : Record) (h : getOwn doc X = some r) (t : String) (ht : t ∈ tierSymbols) :
    ∃ n : Int, getOwn r t = some (.num n) :=
  (isInteger_iff _).1 (hint (X, r) (mem_of_getOwn doc X r h) t ht)

theorem getOwn_zeroRecord (u : String) (hu : u ∈ tierSymbols) :
    getOwn zeroRecord u = some (.num 0) := by
  simp only [tierSymbols, keys, zeroRecord, List.map_cons, List.map_nil, List.mem_cons,
    List.mem_singleton, List.not_mem_nil, or_false] at hu
  rcases hu with h | h | h | h | h <;> subst h <;> decide

/-- The counters of a record after one vote for a tier it counts. -/
theorem counters_increment (r : Record) (t u : String) (n : Int)
    (hu : getOwn r u = some (.num n)) (ht : ∃ m : Int, getOwn r t = some (.num m)) :
    getOwn (stringifyRecord (increment r t)) u
      = some (.num (n + if u = t then 1 else 0)) := by
  rw [getOwn_stringifyRecord]
  by_cases h : u = t
  · subst h
    rw [getOwn_increment_self r u _ hu]
    simp [plusOne, stringifyVal]
  · rw [getOwn_increment_ne r t u h, hu]
    simp [h, stringifyVal]

/-- Merge correctness for the items the loop records: with integer counters in
the document and a submission of distinct item names with tiers among the
five symbols, every submitted item that has a record, or whose name is not
found on `Object.prototype`, ends with its submitted tier counted once more
and its other counters as before (`0` when it had no record), and the request
is answered with success. -/
theorem submit_counts_vote (doc : Store) (userRatings : Ratings) (X t : String)
    (hint : IntegerCounters doc) (hnd : (keys userRatings).Nodup)
    (hvalid : ∀ p ∈ userRatings, p.2 ∈ tierSymbols) (h : (X, t) ∈ userRatings)
    (hX : X ∈ keys doc ∨ ¬ inheritedName X) :
    (submit doc (some userRatings)).1 = ⟨200, true, none⟩ ∧
    ∃ r', getOwn (submit doc (some userRatings)).2 X = some r' ∧
      ∀ u ∈ tierSymbols, getOwn r' u = some (.num (counter doc X u + if u = t then 1 else 0)) := by
  have hne : userRatings ≠ [] := by
    intro e
    subst e
    simp at h
  have ht : t ∈ tierSymbols := hvalid (X, t) h
  obtain ⟨merged, hm⟩ := merge_isSome doc userRatings
    (fun p hp => tierSymbols_not_restricted p.2 (hvalid p hp))
  rw [submit_nonempty doc merged userRatings hne hm]
  refine ⟨rfl, ?_⟩
  rw [getOwn_stringify, getOwn_merge_mem doc merged userRatings X t hm hnd h]
  cases hg : getOwn doc X with
  | some r =>
    refine ⟨stringifyRecord (increment r t), rfl, ?_⟩
    intro u hu
    obtain ⟨n, hn⟩ := integerCounters_getOwn doc hint X r hg u hu
    have hc : counter doc X u = n := by simp [counter, hg, hn]
    rw [hc]
    exact counters_increment r t u n hn (integerCounters_getOwn doc hint X r hg t ht)
  | none =>
    have hni : ¬ inheritedName X := by
      rcases hX with h1 | h1
      · exact absurd h1 ((getOwn_eq_none_iff doc X).1 hg)
      · exact h1
    refine ⟨stringifyRecord (increment zeroRecord t), by simp [afterVote, hni], ?_⟩
    intro u hu
    have hc : counter doc X u = 0 := by simp [counter, hg]
    rw [hc]
    exact counters_increment zeroRecord t u 0 (getOwn_zeroRecord u hu)
      ⟨0, getOwn_zeroRecord t ht⟩

/-- The witness of the merge property: from the empty document, `{"X":"S"}`
twice and `{"X":"A"}` once leave `X` with `{S:2,A:1,B:0,C:0,D:0}`. -/
theorem submit_twice_S_once_A :
    (submit (submit (submit initData (some [("X", "S")])).2 (some [("X", "S")])).2
        (some [("X", "A")])).2
      = [("X", [("S", .num 2), ("A", .num 1), ("B", .num 0), ("C", .num 0), ("D", .num 0)])] := by
  decide

/-- C1, at the input where the code departs from it: on the empty document the
submission `{"constructor":"S"}` is answered with success, yet afterwards the
document has no record for `constructor` (the read `allRatings[skinName]`
finds the built-in `Object` function, so the record is never created), while
the claim wants its counter `S` at `1`. -/
theorem submit_inherited_name_not_recorded :
    submit initData (some [("constructor", "S")]) = (⟨200, true, none⟩, []) ∧
    getOwn (submit initData (some [("constructor", "S")])).2 "constructor" = none ∧
    counter initData "constructor" "S" + 1 = 1 := by
  decide

/-! ## Invalid tiers (C5) -/

theorem forEach_congr (f g : String → String) (l : List String) (all : Store)
    (h : ∀ k ∈ l, f k = g k) : forEach f l all = forEach g l all := by
  induction l generalizing all with
  | nil => rfl
  | cons k rest ih =>
    simp only [forEach]
    rw [h k (by simp)]
    cases mergeStep all k (g k) with
    | none => rfl
    | some next => exact ih next (fun k2 hk2 => h k2 (by simp [hk2]))

/-- When every value converts to a property name, the loop over the body is the
loop over the names the values convert to. -/
theorem forEachBody_eq (body : Body) (l : List String) (all : Store)
    (h : ∀ k ∈ l, tierKeyOf body k ≠ none) :
    forEachBody body l all = forEach (fun k => (tierKeyOf body k).getD "") l all := by
  induction l generalizing all with
  | nil => rfl
  | cons k rest ih =>
    simp only [forEachBody, forEach]
    cases hk : tierKeyOf body k with
    | none => exact absurd hk (h k (by simp))
    | some tier =>
      simp only [Option.getD_some]
      cases mergeStep all k tier with
      | none => rfl
      | some next => exact ih next (fun k2 hk2 => h k2 (by simp [hk2]))

/-- When the conversion of one value throws, the loop throws. -/
theorem forEachBody_none (body : Body) (l : List String) (all : Store)
    (h : ∃ k ∈ l, tierKeyOf body k = none) : forEachBody body l all = none := by
  induction l generalizing all with
  | nil =>
    obtain ⟨k, hk, _⟩ := h
    simp at hk
  | cons k rest ih =>
    simp only [forEachBody]
    cases hk : tierKeyOf body k with
    | none => rfl
    | some tier =>
      dsimp only
      cases mergeStep all k tier with
      | none => rfl
      | some next =>
        dsimp only
        refine ih next ?_
        obtain ⟨k0, hk0, hnone⟩ := h
        rcases List.mem_cons.1 hk0 with rfl | hmem
        · rw [hk] at hnone
          cases hnone
        · exact ⟨k0, hmem, hnone⟩

theorem keys_converted (body : Body) : keys (converted body) = keys body := by
  simp [keys, converted, List.map_map, Function.comp_def]

theorem tierOf_converted (body : Body) (k : String) (hk : k ∈ keys body) :
    tierOf (converted body) k = (tierKeyOf body k).getD "" := by
  obtain ⟨v, hv⟩ := getOwn_isSome_of_mem body k hk
  unfold tierOf tierKeyOf converted
  rw [getOwn_map (fun v => (toPropertyKey v).getD "") body k, hv]
  rfl

/-- A body every value of which converts to a property name is handled as the
body of those names. -/
theorem submitBody_converted (doc : Store) (body : Body)
    (h : ∀ k ∈ keys body, tierKeyOf body k ≠ none) :
    submitBody doc (some body) = submit doc (some (converted body)) := by
  simp only [submitBody, submit, merge]
  rw [keys_converted, forEachBody_eq body (keys body) (parse doc) h,
    forEach_congr (tierOf (converted body)) (fun k => (tierKeyOf body k).getD "")
      (keys body) (parse doc) (fun k hk => tierOf_converted body k hk)]

/-- A body with a value whose conversion throws is answered with 500, and
nothing is written. -/
theorem submitBody_throws (doc : Store) (body : Body)
    (h : ∃ k ∈ keys body, tierKeyOf body k = none) :
    submitBody doc (some body) = (⟨500, false, none⟩, doc) := by
  have hlen : (keys body).length ≠ 0 := by
    obtain ⟨k, hk, _⟩ := h
    intro h0
    rw [List.length_eq_zero] at h0
    rw [h0] at hk
    simp at hk
  unfold submitBody
  simp only [hlen, if_false]
  rw [forEachBody_none body (keys body) (parse doc) h]

theorem converted_asBody (userRatings : Ratings) : converted (asBody userRatings) = userRatings := by
  unfold converted asBody
  rw [List.map_map]
  induction userRatings with
  | nil => rfl
  | cons p rest ih => simp [toPropertyKey] at ih ⊢; exact ih

theorem tierKeyOf_asBody (userRatings : Ratings) (k : String) :
    tierKeyOf (asBody userRatings) k ≠ none := by
  unfold tierKeyOf asBody
  rw [getOwn_map Json.str userRatings k]
  cases getOwn userRatings k <;> simp [toPropertyKey]

/-- On a body whose values are strings the handler is `submit`. -/
theorem submitBody_asBody (doc : Store) (userRatings : Ratings) :
    submitBody doc (some (asBody userRatings)) = submit doc (some userRatings) := by
  rw [submitBody_converted doc (asBody userRatings) (fun k _ => tierKeyOf_asBody userRatings k),
    converted_asBody]

/-- A submission of strings with at least one item is not answered with 400; it
is answered with 200 when no item name is found on `Object.prototype`; and an
item submitted with a tier outside the five symbols keeps its integer
counters. -/
theorem submit_keeps_counters (doc : Store) (userRatings : Ratings)
    (hne : userRatings ≠ []) :
    (submit doc (some userRatings)).1.status ≠ 400 ∧
    ((∀ p ∈ userRatings, ¬ inheritedName p.1) →
      (submit doc (some userRatings)).1 = ⟨200, true, none⟩) ∧
    ∀ X t r, (keys userRatings).Nodup → (X, t) ∈ userRatings → t ∉ tierSymbols →
      getOwn doc X = some r →
      ∃ r', getOwn (submit doc (some userRatings)).2 X = some r' ∧
        ∀ u ∈ tierSymbols, ∀ n : Int, getOwn r u = some (.num n) →
          getOwn r' u = some (.num n) := by
  cases hm : merge doc userRatings with
  | none =>
    rw [submit_throws doc userRatings hne hm]
    refine ⟨by simp, ?_, ?_⟩
    · intro hr
      obtain ⟨merged, hm2⟩ := merge_isSome_of_names doc userRatings hr
      rw [hm] at hm2
      cases hm2
    · intro X t r _ _ _ hg
      exact ⟨r, hg, fun u _ n hn => hn⟩
  | some merged =>
    rw [submit_nonempty doc merged userRatings hne hm]
    refine ⟨by simp, fun _ => rfl, ?_⟩
    intro X t r hnd h ht hg
    rw [getOwn_stringify, getOwn_merge_mem doc merged userRatings X t hm hnd h, hg]
    refine ⟨stringifyRecord (increment r t), rfl, ?_⟩
    intro u hu n hn
    have hut : u ≠ t := fun e => ht (e ▸ hu)
    rw [getOwn_stringifyRecord, getOwn_increment_ne r t u hut, hn]
    rfl

/-- C5 fails as stated: the submission `{"X":"Z"}` on the empty document is not
answered with 400 and the document does not stay as it was. -/
theorem submit_invalid_tier_counterexample :
    ¬ ((submitBody initData (some [("X", .str "Z")])).1.status = 400 ∧
       (submitBody initData (some [("X", .str "Z")])).2 = initData) := by
  decide

/-- C5 as amended: a tier outside the five symbols is not rejected.  For a
body of any JSON values with at least one item: the answer is never 400; it is
200 with success when no item name is a name found on `Object.prototype` and
every tier value converts to a property name; it is 500, with the document as
it was, when the conversion of a tier value throws; and an item that is
submitted (under distinct item names) with a value that converts to none of
the five symbols and already has a record keeps a record, with the integer
counters `S`, `A`, `B`, `C`, `D` at their values. -/
theorem submit_invalid_tier_accepted (doc : Store) (userRatings : Body)
    (hne : userRatings ≠ []) :
    (submitBody doc (some userRatings)).1.status ≠ 400 ∧
    ((∀ p ∈ userRatings, ¬ inheritedName p.1) →
      (∀ k ∈ keys userRatings, tierKeyOf userRatings k ≠ none) →
      (submitBody doc (some userRatings)).1 = ⟨200, true, none⟩) ∧
    ((∃ k ∈ keys userRatings, tierKeyOf userRatings k = none) →
      submitBody doc (some userRatings) = (⟨500, false, none⟩, doc)) ∧
    ∀ X v r, (keys userRatings).Nodup → (X, v) ∈ userRatings →
      (∀ t ∈ tierSymbols, toPropertyKey v ≠ some t) → getOwn doc X = some r →
      ∃ r', getOwn (submitBody doc (some userRatings)).2 X = some r' ∧
        ∀ u ∈ tierSymbols, ∀ n : Int, getOwn r u = some (.num n) →
          getOwn r' u = some (.num n) := by
  by_cases hall : ∀ k ∈ keys userRatings, tierKeyOf userRatings k ≠ none
  · have hne2 : converted userRatings ≠ [] := by
      cases userRatings with
      | nil => exact absurd rfl hne
      | cons p rest => simp [converted]
    obtain ⟨h1, h2, h3⟩ := submit_keeps_counters doc (converted userRatings) hne2
    rw [submitBody_converted doc userRatings hall]
    refine ⟨h1, ?_, ?_, ?_⟩
    · intro hnames _
      refine h2 ?_
      intro p hp
      obtain ⟨q, hq, rfl⟩ := List.mem_map.1 hp
      exact hnames q hq
    · rintro ⟨k, hk, hnone⟩
      exact absurd hnone (hall k hk)
    · intro X v r hnd hmem hv hg
      refine h3 X ((toPropertyKey v).getD "") r ?_ ?_ ?_ hg
      · rw [keys_converted]
        exact hnd
      · exact List.mem_map.2 ⟨(X, v), hmem, rfl⟩
      · intro ht
        have hsome : tierKeyOf userRatings X ≠ none :=
          hall X (List.mem_map.2 ⟨(X, v), hmem, rfl⟩)
        have hget : getOwn userRatings X = some v := getOwn_of_mem_nodup userRatings X v hnd hmem
        unfold tierKeyOf at hsome
        rw [hget] at hsome
        cases hc : toPropertyKey v with
        | none => exact hsome hc
        | some t =>
          rw [hc] at ht
          exact hv t ht hc
  · have hex : ∃ k ∈ keys userRatings, tierKeyOf userRatings k = none := by
      by_contra hno
      refine hall (fun k hk hnone => hno ⟨k, hk, hnone⟩)
    rw [submitBody_throws doc userRatings hex]
    refine ⟨by simp, ?_, fun _ => rfl, ?_⟩
    · intro _ h
      exact absurd h hall
    · intro X v r _ _ _ hg
      exact ⟨r, hg, fun u _ n hn => hn⟩

theorem submit_invalid_tier_accepted_witness :
    (submitBody [("X", zeroRecord)] (some [("X", .arr [.str "Z", .null])])).1.status ≠ 400 ∧
    (submitBody [("X", zeroRecord)] (some [("X", .arr [.str "Z", .null])])).1
      = ⟨200, true, none⟩ ∧
    ((∃ k ∈ keys [("X", Json.obj [("toString", .num "1")])],
        tierKeyOf [("X", Json.obj [("toString", .num "1")])] k = none) ∧
      submitBody [("X", zeroRecord)] (some [("X", .obj [("toString", .num "1")])])
        = (⟨500, false, none⟩, [("X", zeroRecord)])) ∧
    ∃ r', getOwn (submitBody [("X", zeroRecord)]
        (some [("X", .arr [.str "Z", .null])])).2 "X" = some r' ∧
      ∀ u ∈ tierSymbols, ∀ n : Int, getOwn zeroRecord u = some (.num n) →
        getOwn r' u = some (.num n) :=
  ⟨(submit_invalid_tier_accepted [("X", zeroRecord)] [("X", .arr [.str "Z", .null])]
      (List.cons_ne_nil _ _)).1,
   (submit_invalid_tier_accepted [("X", zeroRecord)] [("X", .arr [.str "Z", .null])]
      (List.cons_ne_nil _ _)).2.1 (by decide) (by decide),
   ⟨by decide,
    (submit_invalid_tier_accepted [("X", zeroRecord)] [("X", .obj [("toString", .num "1")])]
      (List.cons_ne_nil _ _)).2.2.1 (by decide)⟩,
   (submit_invalid_tier_accepted [("X", zeroRecord)] [("X", .arr [.str "Z", .null])]
      (List.cons_ne_nil _ _)).2.2.2
      "X" (.arr [.str "Z", .null]) zeroRecord (by decide) (List.mem_cons_self _ _) (by decide)
      (by decide)⟩

/-- A value that is no string counts under the name it converts to: the
submission `{"X":["S"]}` does what `{"X":"S"}` does. -/
theorem submitBody_array_tier :
    toPropertyKey (.arr [.str "S"]) = some "S" ∧
    submitBody [("X", zeroRecord)] (some [("X", .arr [.str "S"])])
      = submit [("X", zeroRecord)] (some [("X", "S")]) ∧
    (submit [("X", zeroRecord)] (some [("X", "S")])).2
      = [("X", [("S", .num 1), ("A", .num 0), ("B", .num 0), ("C", .num 0), ("D", .num 0)])] := by
  decide

/-! ## Empty submissions (C6) -/

/-- C6: a submit request without a body, or whose body has no keys, is answered
with status 400 and `success: false`, and the document stays as it was. -/
theorem submit_empty_rejected (doc : Store) :
    submit doc none = (⟨400, false, none⟩, doc) ∧
    ∀ userRatings : Ratings, keys userRatings = [] →
      submit doc (some userRatings) = (⟨400, false, none⟩, doc) := by
  refine ⟨rfl, ?_⟩
  intro userRatings h
  simp [submit, h]

theorem submit_empty_rejected_witness :
    submit [("X", zeroRecord)] none = (⟨400, false, none⟩, [("X", zeroRecord)]) ∧
    submit [("X", zeroRecord)] (some []) = (⟨400, false, none⟩, [("X", zeroRecord)]) :=
  ⟨(submit_empty_rejected [("X", zeroRecord)]).1,
   (submit_empty_rejected [("X", zeroRecord)]).2 [] rfl⟩

/-! ## Monotone counts (C9) -/

/-- C9: a submit request keeps every item the document has, with each of its
integer counters `S`, `A`, `B`, `C`, `D` at least as large as before; a
rankings request leaves the document as it is, so that only the clear request
lowers a counter or removes an item. -/
theorem submit_monotone (doc : Store) (body : Option Ratings) (X : String) (r : Record)
    (h : getOwn doc X = some r) :
    (∃ r', getOwn (submit doc body).2 X = some r' ∧
      ∀ t ∈ tierSymbols, ∀ n : Int, getOwn r t = some (.num n) →
        ∃ m : Int, getOwn r' t = some (.num m) ∧ n ≤ m) ∧
    (rankings doc).2 = doc := by
  constructor
  · obtain ⟨r', h1, g⟩ := grows_submit doc body X r h
    exact ⟨r', h1, fun t _ n hn => g t n hn⟩
  · unfold rankings
    split <;> rfl

theorem submit_monotone_witness :
    (∃ r', getOwn (submit [("X", zeroRecord)] (some [("X", "S"), ("Y", "Z")])).2 "X" = some r' ∧
      ∀ t ∈ tierSymbols, ∀ n : Int, getOwn zeroRecord t = some (.num n) →
        ∃ m : Int, getOwn r' t = some (.num m) ∧ n ≤ m) ∧
    (rankings [("X", zeroRecord)]).2 = [("X", zeroRecord)] :=
  submit_monotone [("X", zeroRecord)] (some [("X", "S"), ("Y", "Z")]) "X" zeroRecord (by decide)

/-! ## The leaderboard before sorting -/

theorem mapAll_some {α β : Type} (f : α → Option β) (g : α → β) (l : List α)
    (h : ∀ a ∈ l, f a = some (g a)) : mapAll f l = some (l.map g) := by
  induction l with
  | nil => rfl
  | cons a rest ih =>
    have h1 : f a = some (g a) := h a (by simp)
    have h2 : mapAll f rest = some (rest.map g) := ih (fun b hb => h b (by simp [hb]))
    simp [mapAll, h1, h2]

/-- The entry the callback builds for an item, with the empty record standing
in where the item has no record. -/
theorem rankingList_eq (all : Store) :
    rankingList all = some ((keys all).map (fun k =>
      (⟨k, totalScoreOf ((getOwn all k).getD []), (getOwn all k).getD []⟩ : Entry))) := by
  unfold rankingList
  apply mapAll_some
  intro k hk
  obtain ⟨r, hr⟩ := getOwn_isSome_of_mem all k hk
  simp [entryOf, hr]

theorem rankingList_spec (all : Store) :
    ∃ l, rankingList all = some l ∧ l.map Entry.skin = keys all ∧
      ∀ e ∈ l, getOwn all e.skin = some e.stats ∧ e.totalScore = totalScoreOf e.stats := by
  refine ⟨_, rankingList_eq all, ?_, ?_⟩
  · rw [List.map_map]
    exact List.map_id _
  · intro e he
    obtain ⟨k, hk, rfl⟩ := List.mem_map.1 he
    obtain ⟨r, hr⟩ := getOwn_isSome_of_mem all k hk
    simp [hr]

theorem rankings_eq (doc : Store) (l : List Entry) (h : rankingList doc = some l) :
    rankings doc = (⟨200, true, some (slice0 (sort compareFn l) 10)⟩, doc) := by
  simp [rankings, parse, h]

/-! ## Rounding -/

theorem overflowBound_eq : overflowBound = 2 ^ 1024 := by
  norm_num [overflowBound]

theorem roundToDouble_safe (m : Int) (h : m.natAbs < 2 ^ 53) : roundToDouble m = .int m := by
  unfold roundToDouble
  rw [if_pos h]

theorem dropCount_le (fuel a e : Nat) (h : 2 ^ e ≤ a) : 2 ^ dropCount fuel a e ≤ a := by
  induction fuel generalizing e with
  | zero => exact h
  | succ fuel ih =>
    simp only [dropCount]
    split
    · exact h
    · rename_i hlt
      apply ih
      have h1 : 2 ^ 53 ≤ a / 2 ^ e := Nat.le_of_not_lt hlt
      have h2 : 2 ≤ a / 2 ^ e := le_trans (by norm_num) h1
      have h3 := (Nat.le_div_iff_mul_le (Nat.two_pow_pos e)).1 h2
      rw [pow_succ]
      omega

theorem roundMagnitude_pos (a : Nat) (h : 0 < a) : 0 < roundMagnitude a := by
  unfold roundMagnitude roundAt
  have hpow := dropCount_le a a 0 (by simpa using h)
  have hq : 0 < a / 2 ^ dropCount a a 0 := Nat.div_pos hpow (Nat.two_pow_pos _)
  apply Nat.mul_pos _ (Nat.two_pow_pos _)
  split <;> omega

/-- Rounding keeps the sign. -/
theorem roundToDouble_positive (m : Int) :
    (roundToDouble m).positive = decide (0 < m) := by
  unfold roundToDouble
  by_cases h : m.natAbs < 2 ^ 53
  · rw [if_pos h]
    rfl
  · rw [if_neg h]
    have hm : m ≠ 0 := by
      intro e
      apply h
      rw [e]
      norm_num
    have hr := roundMagnitude_pos m.natAbs (Int.natAbs_pos.2 hm)
    have hr2 : (0 : Int) < Int.ofNat (roundMagnitude m.natAbs) := Int.ofNat_pos.2 hr
    by_cases hneg : m < 0
    · have hn2 : ¬ 0 < m := by omega
      split
      · simp [Num.positive, hneg, hn2]
      · simp only [Num.positive, if_pos hneg, hn2, decide_False, decide_eq_false_iff_not]
        omega
    · have hpos : 0 < m := by omega
      split
      · simp [Num.positive, hneg, hpos]
      · simp only [Num.positive, if_neg hneg, hpos, decide_True, decide_eq_true_eq]
        exact hr2

theorem roundToDouble_negative (m : Int) :
    (roundToDouble m).negative = decide (m < 0) := by
  unfold roundToDouble
  by_cases h : m.natAbs < 2 ^ 53
  · rw [if_pos h]
    rfl
  · rw [if_neg h]
    have hm : m ≠ 0 := by
      intro e
      apply h
      rw [e]
      norm_num
    have hr := roundMagnitude_pos m.natAbs (Int.natAbs_pos.2 hm)
    have hr2 : (0 : Int) < Int.ofNat (roundMagnitude m.natAbs) := Int.ofNat_pos.2 hr
    by_cases hneg : m < 0
    · split
      · simp [Num.negative, hneg]
      · simp only [Num.negative, if_pos hneg, hneg, decide_True, decide_eq_true_eq]
        omega
    · split
      · simp [Num.negative, hneg]
      · simp only [Num.negative, if_neg hneg, hneg, decide_False, decide_eq_false_iff_not]
        omega

theorem roundToDouble_isZero (m : Int) :
    (roundToDouble m).isZero = decide (m = 0) := by
  unfold roundToDouble
  by_cases h : m.natAbs < 2 ^ 53
  · rw [if_pos h]
    rfl
  · rw [if_neg h]
    have hm : m ≠ 0 := by
      intro e
      apply h
      rw [e]
      norm_num
    have hr := roundMagnitude_pos m.natAbs (Int.natAbs_pos.2 hm)
    have hr2 : (0 : Int) < Int.ofNat (roundMagnitude m.natAbs) := Int.ofNat_pos.2 hr
    split
    · simp [Num.isZero, hm]
    · simp only [Num.isZero, hm, decide_False, decide_eq_false_iff_not]
      split <;> omega

theorem roundToDouble_ne_nan (m : Int) : roundToDouble m ≠ Num.nan := by
  unfold roundToDouble
  split
  · exact fun c => by cases c
  · split <;> exact fun c => by cases c

/-- The score of a tally whose weighted magnitudes stay below `2^53` is
computed without rounding. -/
theorem totalScoreOf_eq (r : Record) (s a b c d : Int)
    (hS : getOwn r "S" = some (.num s)) (hA : getOwn r "A" = some (.num a))
    (hB : getOwn r "B" = some (.num b)) (hC : getOwn r "C" = some (.num c))
    (hD : getOwn r "D" = some (.num d))
    (hb : 5 * s.natAbs + 4 * a.natAbs + 3 * b.natAbs + 2 * c.natAbs + 1 * d.natAbs < 2 ^ 53) :
    totalScoreOf r = .int (5 * s + 4 * a + 3 * b + 2 * c + 1 * d) := by
  have w1 : weight "S" = .int 5 := by decide
  have w2 : weight "A" = .int 4 := by decide
  have w3 : weight "B" = .int 3 := by decide
  have w4 : weight "C" = .int 2 := by decide
  have w5 : weight "D" = .int 1 := by decide
  have hb2 : 5 * s.natAbs + 4 * a.natAbs + 3 * b.natAbs + 2 * c.natAbs + 1 * d.natAbs
      < 9007199254740992 := by
    have e : (2 : Nat) ^ 53 = 9007199254740992 := by norm_num
    omega
  have e53 : (2 : Nat) ^ 53 = 9007199254740992 := by norm_num
  have r1 : roundToDouble (s * 5) = .int (s * 5) :=
    roundToDouble_safe _ (by rw [e53]; omega)
  have r2 : roundToDouble (a * 4) = .int (a * 4) :=
    roundToDouble_safe _ (by rw [e53]; omega)
  have r3 : roundToDouble (b * 3) = .int (b * 3) :=
    roundToDouble_safe _ (by rw [e53]; omega)
  have r4 : roundToDouble (c * 2) = .int (c * 2) :=
    roundToDouble_safe _ (by rw [e53]; omega)
  have r5 : roundToDouble (d * 1) = .int (d * 1) :=
    roundToDouble_safe _ (by rw [e53]; omega)
  have r6 : roundToDouble (s * 5 + a * 4) = .int (s * 5 + a * 4) :=
    roundToDouble_safe _ (by rw [e53]; omega)
  have r7 : roundToDouble (s * 5 + a * 4 + b * 3) = .int (s * 5 + a * 4 + b * 3) :=
    roundToDouble_safe _ (by rw [e53]; omega)
  have r8 : roundToDouble (s * 5 + a * 4 + b * 3 + c * 2)
      = .int (s * 5 + a * 4 + b * 3 + c * 2) :=
    roundToDouble_safe _ (by rw [e53]; omega)
  have r9 : roundToDouble (s * 5 + a * 4 + b * 3 + c * 2 + d * 1)
      = .int (s * 5 + a * 4 + b * 3 + c * 2 + d * 1) :=
    roundToDouble_safe _ (by rw [e53]; omega)
  simp only [totalScoreOf, field, get_of_getOwn r _ _ hS, get_of_getOwn r _ _ hA,
    get_of_getOwn r _ _ hB, get_of_getOwn r _ _ hC, get_of_getOwn r _ _ hD, toNumber,
    w1, w2, w3, w4, w5, Num.mul, Num.add, r1, r2, r3, r4, r5, r6, r7, r8, r9]
  congr 1
  ring

/-! ## The sort -/

theorem insertSorted_perm {α : Type} (cmp : α → α → Num) (x : α) (l : List α) :
    List.Perm (insertSorted cmp x l) (x :: l) := by
  induction l with
  | nil => exact List.Perm.refl _
  | cons y ys ih =>
    simp only [insertSorted]
    split
    · exact ((List.Perm.cons y ih).trans (List.Perm.swap x y ys))
    · exact List.Perm.refl _

theorem stableSort_perm {α : Type} (cmp : α → α → Num) (l : List α) :
    List.Perm (stableSort cmp l) l := by
  induction l with
  | nil => exact List.Perm.refl _
  | cons x xs ih =>
    exact (insertSorted_perm cmp x (stableSort cmp xs)).trans (List.Perm.cons x ih)

theorem positive_compareFn (x y : Entry) (a b : Int) (hx : x.totalScore = .int a)
    (hy : y.totalScore = .int b) : (compareFn x y).positive = decide (a < b) := by
  simp only [compareFn, hx, hy, Num.sub, roundToDouble_positive]
  by_cases h : a < b
  · have : 0 < b - a := by omega
    simp [h, this]
  · have : ¬ 0 < b - a := by omega
    simp [h, this]

theorem negative_compareFn (x y : Entry) (a b : Int) (hx : x.totalScore = .int a)
    (hy : y.totalScore = .int b) : (compareFn x y).negative = decide (b < a) := by
  simp only [compareFn, hx, hy, Num.sub, roundToDouble_negative]
  by_cases h : b < a
  · have : b - a < 0 := by omega
    simp [h, this]
  · have : ¬ b - a < 0 := by omega
    simp [h, this]

theorem isZero_compareFn (x y : Entry) (a b : Int) (hx : x.totalScore = .int a)
    (hy : y.totalScore = .int b) : (compareFn x y).isZero = decide (a = b) := by
  simp only [compareFn, hx, hy, Num.sub, roundToDouble_isZero]
  by_cases h : a = b
  · have : b - a = 0 := by omega
    simp [h, this]
  · have : ¬ b - a = 0 := by omega
    simp [h, this]

theorem insertSorted_sorted (x : Entry) (l : List Entry) (hx : Scored x)
    (hl : ∀ y ∈ l, Scored y)
    (hs : l.Pairwise (fun a b => Num.le b.totalScore a.totalScore)) :
    (insertSorted compareFn x l).Pairwise (fun a b => Num.le b.totalScore a.totalScore) := by
  induction l with
  | nil => simp [insertSorted]
  | cons y ys ih =>
    obtain ⟨a, ha⟩ := hx
    obtain ⟨b, hb⟩ := hl y (by simp)
    rw [List.pairwise_cons] at hs
    simp only [insertSorted, positive_compareFn x y a b ha hb]
    by_cases hab : a < b
    · simp only [hab, decide_True, if_true]
      rw [List.pairwise_cons]
      refine ⟨?_, ih (fun z hz => hl z (by simp [hz])) hs.2⟩
      intro z hz
      rcases List.mem_cons.1 ((insertSorted_perm compareFn x ys).subset hz) with e | e
      · subst e
        simp only [ha, hb, Num.le]
        omega
      · exact hs.1 z e
    · simp only [hab, decide_False, Bool.false_eq_true, if_false]
      rw [List.pairwise_cons, List.pairwise_cons]
      refine ⟨?_, hs⟩
      intro z hz
      rcases List.mem_cons.1 hz with e | e
      · subst e
        simp only [ha, hb, Num.le]
        omega
      · obtain ⟨c, hc⟩ := hl z (by simp [e])
        have hyz := hs.1 z e
        simp only [hb, hc, Num.le] at hyz
        simp only [ha, hc, Num.le]
        omega

theorem stableSort_sorted (l : List Entry) (hl : ∀ y ∈ l, Scored y) :
    (stableSort compareFn l).Pairwise (fun a b => Num.le b.totalScore a.totalScore) := by
  induction l with
  | nil => simp [stableSort]
  | cons x xs ih =>
    have hxs : ∀ y ∈ xs, Scored y := fun y hy => hl y (by simp [hy])
    exact insertSorted_sorted x (stableSort compareFn xs) (hl x (by simp))
      (fun y hy => hxs y ((stableSort_perm compareFn xs).subset hy)) (ih hxs)

/-- A list that is already in descending order is left as it is. -/
theorem stableSort_of_sorted (l : List Entry) (hl : ∀ y ∈ l, Scored y)
    (hs : l.Pairwise (fun a b => Num.le b.totalScore a.totalScore)) :
    stableSort compareFn l = l := by
  induction l with
  | nil => rfl
  | cons x xs ih =>
    rw [List.pairwise_cons] at hs
    have hxs : stableSort compareFn xs = xs := ih (fun y hy => hl y (by simp [hy])) hs.2
    show insertSorted compareFn x (stableSort compareFn xs) = x :: xs
    rw [hxs]
    cases xs with
    | nil => rfl
    | cons y ys =>
      obtain ⟨a, ha⟩ := hl x (by simp)
      obtain ⟨b, hb⟩ := hl y (by simp)
      have hxy := hs.1 y (by simp)
      simp only [ha, hb, Num.le] at hxy
      have : ¬ a < b := by omega
      simp [insertSorted, positive_compareFn x y a b ha hb, this]

theorem not_positive_of_eq (x y : Entry) (h : x.totalScore = y.totalScore) :
    (compareFn x y).positive = false := by
  unfold compareFn
  rw [h]
  cases y.totalScore with
  | int n => simp [Num.sub, roundToDouble_positive]
  | inf s => simp [Num.sub, Num.positive]
  | nan => simp [Num.sub, Num.positive]

/-- Stability: the entries with a given score keep their order. -/
theorem insertSorted_filter (v : Num) (x : Entry) (l : List Entry) :
    (insertSorted compareFn x l).filter (fun e => decide (e.totalScore = v))
      = (x :: l).filter (fun e => decide (e.totalScore = v)) := by
  induction l with
  | nil => rfl
  | cons y ys ih =>
    simp only [insertSorted]
    by_cases hp : (compareFn x y).positive = true
    · simp only [hp, if_true]
      by_cases hx : x.totalScore = v
      · by_cases hy : y.totalScore = v
        · rw [not_positive_of_eq x y (hx.trans hy.symm)] at hp
          exact absurd hp (by simp)
        · rw [List.filter_cons_of_neg (by simpa using hy), ih]
          simp [List.filter_cons, hx, hy]
      · rw [List.filter_cons, ih]
        simp [List.filter_cons, hx]
    · simp [hp]

theorem stableSort_filter (v : Num) (l : List Entry) :
    (stableSort compareFn l).filter (fun e => decide (e.totalScore = v))
      = l.filter (fun e => decide (e.totalScore = v)) := by
  induction l with
  | nil => rfl
  | cons x xs ih =>
    show (insertSorted compareFn x (stableSort compareFn xs)).filter _ = _
    rw [insertSorted_filter, List.filter_cons, List.filter_cons, ih]

/-- With finite scores the comparator is a consistent one. -/
theorem consistentOn_of_scored (l : List Entry) (hl : ∀ y ∈ l, Scored y) :
    ConsistentOn compareFn l := by
  intro x hx y hy z hz
  obtain ⟨a, ha⟩ := hl x hx
  obtain ⟨b, hb⟩ := hl y hy
  obtain ⟨c, hc⟩ := hl z hz
  refine ⟨?_, ?_, ?_, ?_, ?_, ?_⟩
  · simp only [compareFn, ha, hb, Num.sub]
    exact roundToDouble_ne_nan _
  · simp [isZero_compareFn x x a a ha ha]
  · simp only [isZero_compareFn x y a b ha hb, isZero_compareFn y x b a hb ha,
      decide_eq_true_eq]
    exact fun h => h.symm
  · simp only [isZero_compareFn x y a b ha hb, isZero_compareFn y z b c hb hc,
      isZero_compareFn x z a c ha hc, decide_eq_true_eq]
    exact fun h1 h2 => h1.trans h2
  · simp only [negative_compareFn x y a b ha hb, negative_compareFn y z b c hb hc,
      negative_compareFn x z a c ha hc, decide_eq_true_eq]
    omega
  · simp only [positive_compareFn x y a b ha hb, positive_compareFn y z b c hb hc,
      positive_compareFn x z a c ha hc, decide_eq_true_eq]
    omega

theorem sort_of_scored (l : List Entry) (hl : ∀ y ∈ l, Scored y) :
    sort compareFn l = stableSort compareFn l := by
  unfold sort
  rw [if_pos (consistentOn_of_scored l hl)]

theorem binaryInsert_perm {α : Type} (cmp : α → α → Num) (sorted : List α) (pivot : α) :
    List.Perm (binaryInsert cmp sorted pivot) (pivot :: sorted) := by
  unfold binaryInsert
  refine List.perm_middle.trans (List.Perm.cons _ ?_)
  rw [List.take_append_drop]

theorem foldl_binaryInsert_perm {α : Type} (cmp : α → α → Num) (rest sorted : List α) :
    List.Perm (rest.foldl (binaryInsert cmp) sorted) (sorted ++ rest) := by
  induction rest generalizing sorted with
  | nil => simp
  | cons x xs ih =>
    rw [List.foldl_cons]
    refine (ih _).trans ?_
    refine ((binaryInsert_perm cmp sorted x).append_right xs).trans ?_
    have h : List.Perm (sorted ++ x :: xs) (x :: (sorted ++ xs)) := List.perm_middle
    exact h.symm

theorem engineSort_perm {α : Type} (cmp : α → α → Num) (l : List α) :
    List.Perm (engineSort cmp l) l := by
  unfold engineSort
  refine (foldl_binaryInsert_perm cmp _ _).trans ?_
  have h : List.Perm (if runDescending cmp l then (l.take (countRun cmp l)).reverse
      else l.take (countRun cmp l)) (l.take (countRun cmp l)) := by
    split
    · exact List.reverse_perm _
    · exact List.Perm.refl _
  refine (h.append_right _).trans ?_
  rw [List.take_append_drop]

/-- Whatever the comparator, the sort rearranges the array. -/
theorem sort_perm {α : Type} (cmp : α → α → Num) (l : List α) :
    List.Perm (sort cmp l) l := by
  unfold sort
  split
  · exact stableSort_perm cmp l
  · exact engineSort_perm cmp l

theorem sort_length {α : Type} (cmp : α → α → Num) (l : List α) :
    (sort cmp l).length = l.length := (sort_perm cmp l).length_eq

/-! ## The rankings handler (C2, C3, C4, C10) -/

theorem rankingList_entries (doc : Store) : rankingList doc = some (entries doc) := by
  unfold entries parse
  rw [rankingList_eq]
  rfl

theorem rankings_data (doc : Store) :
    rankings doc = (⟨200, true, some (top10 doc)⟩, doc) ∧
    top10 doc = (sort compareFn (entries doc)).take 10 := by
  have h := rankings_eq doc (entries doc) (rankingList_entries doc)
  have h2 : top10 doc = (sort compareFn (entries doc)).take 10 := by
    unfold top10
    rw [h]
    rfl
  rw [h2]
  exact ⟨h, rfl⟩

theorem entries_spec (doc : Store) :
    (entries doc).map Entry.skin = keys doc ∧
    ∀ e ∈ entries doc, getOwn doc e.skin = some e.stats ∧ e.totalScore = totalScoreOf e.stats := by
  obtain ⟨l, h1, h2, h3⟩ := rankingList_spec doc
  have : l = entries doc := by
    have := rankingList_entries doc
    rw [h1] at this
    exact Option.some.inj this
  subst this
  exact ⟨h2, h3⟩

theorem mem_entries_of_mem_top10 (doc : Store) (e : Entry) (h : e ∈ top10 doc) :
    e ∈ entries doc := by
  rw [(rankings_data doc).2] at h
  exact (sort_perm compareFn (entries doc)).subset (List.mem_of_mem_take h)

/-- C2 fails as stated: for the item `X` with `S` at 1801439850948199 the
product `5 * S` is 9007199254740995, which is no double, and the `totalScore`
returned is the double next to it, 9007199254740996. -/
theorem rankings_score_counterexample :
    top10 roundingDoc = [⟨"X", .int 9007199254740996, tally 1801439850948199 0 0 0 0⟩] ∧
    getOwn (tally 1801439850948199 0 0 0 0) "S" = some (.num 1801439850948199) ∧
    Num.int 9007199254740996
      ≠ .int (5 * 1801439850948199 + 4 * 0 + 3 * 0 + 2 * 0 + 1 * 0) := by
  decide

/-- C2 as amended: the rankings request is answered with success, and every
entry of its `data` carries the name of an item of the document as `skin`,
that item's record as `stats`, and, when the record is the tally `{S:s, A:a,
B:b, C:c, D:d}` of integers with `5|s| + 4|a| + 3|b| + 2|c| + |d|` below
`2^53`, the number `5*s + 4*a + 3*b + 2*c + 1*d` as `totalScore`. -/
theorem rankings_score (doc : Store) :
    (rankings doc).1 = ⟨200, true, some (top10 doc)⟩ ∧
    ∀ e ∈ top10 doc, e.skin ∈ keys doc ∧ getOwn doc e.skin = some e.stats ∧
      ∀ s a b c d : Int,
        getOwn e.stats "S" = some (.num s) → getOwn e.stats "A" = some (.num a) →
        getOwn e.stats "B" = some (.num b) → getOwn e.stats "C" = some (.num c) →
        getOwn e.stats "D" = some (.num d) →
        5 * s.natAbs + 4 * a.natAbs + 3 * b.natAbs + 2 * c.natAbs + 1 * d.natAbs < 2 ^ 53 →
        e.totalScore = .int (5 * s + 4 * a + 3 * b + 2 * c + 1 * d) := by
  refine ⟨by rw [(rankings_data doc).1], ?_⟩
  intro e he
  have hmem := mem_entries_of_mem_top10 doc e he
  obtain ⟨h1, h2⟩ := (entries_spec doc).2 e hmem
  refine ⟨?_, h1, ?_⟩
  · exact mem_keys_of_mem doc _ _ (mem_of_getOwn doc _ _ h1)
  · intro s a b c d hS hA hB hC hD hb
    rw [h2]
    exact totalScoreOf_eq e.stats s a b c d hS hA hB hC hD hb

theorem rankings_score_witness :
    (⟨"X", .int 14, [("S", .num 2), ("A", .num 1), ("B", .num 0), ("C", .num 0),
        ("D", .num 0)]⟩ : Entry) ∈
      top10 [("X", [("S", .num 2), ("A", .num 1), ("B", .num 0), ("C", .num 0),
        ("D", .num 0)])] ∧
    Num.int 14 = .int (5 * 2 + 4 * 1 + 3 * 0 + 2 * 0 + 1 * 0) :=
  ⟨by decide,
   ((rankings_score [("X", [("S", .num 2), ("A", .num 1), ("B", .num 0), ("C", .num 0),
      ("D", .num 0)])]).2
      ⟨"X", .int 14, [("S", .num 2), ("A", .num 1), ("B", .num 0), ("C", .num 0),
        ("D", .num 0)]⟩ (by decide)).2.2 2 1 0 0 0 (by decide) (by decide) (by decide)
      (by decide) (by decide) (by decide)⟩

theorem scored_of_isFinite (e : Entry) (h : e.totalScore.isFinite = true) : Scored e := by
  cases hs : e.totalScore with
  | int n => exact ⟨n, hs⟩
  | inf s => rw [hs] at h; cases h
  | nan => rw [hs] at h; cases h

theorem scored_entries (doc : Store) (hfin : FiniteScores doc) :
    ∀ e ∈ entries doc, Scored e :=
  fun e he => scored_of_isFinite e (hfin e he)

theorem top10_of_finite (doc : Store) (hfin : FiniteScores doc) :
    top10 doc = (stableSort compareFn (entries doc)).take 10 := by
  rw [(rankings_data doc).2, sort_of_scored (entries doc) (scored_entries doc hfin)]

set_option exponentiation.threshold 2000 in
set_option maxRecDepth 100000 in
/-- C3 fails as stated: the document `overflowDoc` has integer counters, the
score of its item `b` is `Infinity + -Infinity`, that is `NaN`, and the
`data` returned has the scores 1, `NaN`, 5 in this order, which is not
descending. -/
theorem rankings_descending_counterexample :
    IntegerCounters overflowDoc ∧
    (top10 overflowDoc).map Entry.skin = ["a", "b", "c"] ∧
    (top10 overflowDoc).map Entry.totalScore = [.int 1, .nan, .int 5] ∧
    ¬ Num.le (.int 5) (.int 1) := by
  decide

/-- C3 as amended: when every item of the document gets a finite `totalScore`
(as with integer counters none of whose products and sums overflows), the
rankings request is answered with success and its `data` is in descending
order of `totalScore`: for positions `i < j`, the score at `i` is greater than
or equal to the one at `j`. -/
theorem rankings_descending (doc : Store) (hfin : FiniteScores doc) :
    (rankings doc).1 = ⟨200, true, some (top10 doc)⟩ ∧
    ∀ (i j : Nat) (a b : Entry), i < j → (top10 doc)[i]? = some a →
      (top10 doc)[j]? = some b → Num.le b.totalScore a.totalScore := by
  refine ⟨by rw [(rankings_data doc).1], ?_⟩
  have hs : (top10 doc).Pairwise (fun a b => Num.le b.totalScore a.totalScore) := by
    rw [top10_of_finite doc hfin]
    exact (stableSort_sorted (entries doc) (scored_entries doc hfin)).sublist
      (List.take_sublist _ _)
  intro i j a b hij hi hj
  rw [List.pairwise_iff_getElem] at hs
  obtain ⟨hi', rfl⟩ := List.getElem?_eq_some.1 hi
  obtain ⟨hj', rfl⟩ := List.getElem?_eq_some.1 hj
  exact hs i j hi' hj' hij

theorem rankings_descending_witness :
    FiniteScores tiedItems ∧
    (top10 tiedItems)[0]? = some ⟨"top", .int 5, tally 1 0 0 0 0⟩ ∧
    (top10 tiedItems)[1]? = some ⟨"p", .int 1, tally 0 0 0 0 1⟩ ∧
    Num.le (.int 1) (.int 5) :=
  ⟨by decide, by decide, by decide,
   (rankings_descending tiedItems (by decide)).2 0 1
      ⟨"top", .int 5, tally 1 0 0 0 0⟩ ⟨"p", .int 1, tally 0 0 0 0 1⟩
      (by decide) (by decide) (by decide)⟩

theorem Num.lt_of_le_of_ne (a b : Num) (h1 : Num.le a b) (h2 : a ≠ b) : Num.lt a b := by
  cases a with
  | int x =>
    cases b with
    | int y =>
      simp only [Num.le, Num.lt] at *
      have : x ≠ y := fun e => h2 (by rw [e])
      omega
    | inf t => exact h1
    | nan => exact h1
  | inf s =>
    cases b with
    | int y => exact h1
    | inf t =>
      simp only [Num.le, Num.lt] at *
      have hst : s ≠ t := fun e => h2 (by rw [e])
      cases s <;> cases t <;> simp_all
    | nan => exact h1
  | nan => cases b <;> exact h1

theorem Num.le_of_lt (a b : Num) (h : Num.lt a b) : Num.le a b := by
  cases a with
  | int x =>
    cases b with
    | int y =>
      simp only [Num.le, Num.lt] at *
      omega
    | inf t => exact h
    | nan => exact h
  | inf s =>
    cases b with
    | int y => exact h
    | inf t => exact Or.inl h.1
    | nan => exact h
  | nan => cases b <;> exact h

theorem sort_take_drop (doc : Store) :
    sort compareFn (entries doc) = top10 doc ++ leftOut doc := by
  rw [(rankings_data doc).2, leftOut, List.take_append_drop]

/-- C4 fails as stated: in the document `nanDoc` of eleven items the item `j`
has the score `NaN`; the array is returned in the order of the keys, so that
`k`, with the score 5, is left out while items with the score 0 are in
`data`. -/
theorem rankings_top10_counterexample :
    (top10 nanDoc).map Entry.skin = ["a", "b", "c", "d", "e", "f", "g", "h", "i", "j"] ∧
    (⟨"k", .int 5, tally 1 0 0 0 0⟩ : Entry) ∈ leftOut nanDoc ∧
    (⟨"a", .int 0, tally 0 0 0 0 0⟩ : Entry) ∈ top10 nanDoc ∧
    Num.lt (.int 0) (.int 5) := by
  decide

/-- C4 as amended: the `data` of the rankings response has `min(n, 10)`
entries for a document of `n` items.  When every item gets a finite
`totalScore`, the entries in `data` and the entries left out are together the
entries of all items, no entry left out has a score above the score of an
entry in `data`; if no two items have the same score every entry left out has
a score strictly below every entry in `data`, and if the items stand in
strictly decreasing order of score, `data` is the first ten of them, in that
order. -/
theorem rankings_top10 (doc : Store) :
    (top10 doc).length = min (keys doc).length 10 ∧
    (FiniteScores doc →
      List.Perm (entries doc) (top10 doc ++ leftOut doc) ∧
      (∀ x ∈ leftOut doc, ∀ y ∈ top10 doc, Num.le x.totalScore y.totalScore) ∧
      ((entries doc).Pairwise (fun a b => a.totalScore ≠ b.totalScore) →
        ∀ x ∈ leftOut doc, ∀ y ∈ top10 doc, Num.lt x.totalScore y.totalScore) ∧
      ((entries doc).Pairwise (fun a b => Num.lt b.totalScore a.totalScore) →
        top10 doc = (entries doc).take 10)) := by
  constructor
  · rw [(rankings_data doc).2, List.length_take, sort_length, ← (entries_spec doc).1,
      List.length_map, Nat.min_comm]
  · intro hfin
    have hperm : List.Perm (entries doc) (top10 doc ++ leftOut doc) := by
      rw [← sort_take_drop]
      exact (sort_perm compareFn (entries doc)).symm
    have hsorted := stableSort_sorted (entries doc) (scored_entries doc hfin)
    rw [← sort_of_scored (entries doc) (scored_entries doc hfin), sort_take_drop,
      List.pairwise_append] at hsorted
    refine ⟨hperm, fun x hx y hy => hsorted.2.2 y hy x hx, ?_, ?_⟩
    · intro hne x hx y hy
      have hne2 : (top10 doc ++ leftOut doc).Pairwise
          (fun a b => a.totalScore ≠ b.totalScore) :=
        (hperm.pairwise_iff (fun {a b} (h : a.totalScore ≠ b.totalScore) => h.symm)).1 hne
      rw [List.pairwise_append] at hne2
      exact Num.lt_of_le_of_ne _ _ (hsorted.2.2 y hy x hx) (fun e => hne2.2.2 y hy x hx e.symm)
    · intro hdec
      rw [top10_of_finite doc hfin, stableSort_of_sorted (entries doc) (scored_entries doc hfin)
        (hdec.imp (fun {a b} h => Num.le_of_lt _ _ h))]

theorem rankings_top10_witness :
    (top10 fifteenItems).length = min (keys fifteenItems).length 10 ∧
    FiniteScores fifteenItems ∧
    (entries fifteenItems).Pairwise (fun a b => Num.lt b.totalScore a.totalScore) ∧
    top10 fifteenItems = (entries fifteenItems).take 10 ∧
    (⟨"k", .int 25, tally 5 0 0 0 0⟩ : Entry) ∈ leftOut fifteenItems ∧
    (⟨"j", .int 30, tally 6 0 0 0 0⟩ : Entry) ∈ top10 fifteenItems ∧
    Num.le (.int 25) (.int 30) ∧ Num.lt (.int 25) (.int 30) :=
  ⟨(rankings_top10 fifteenItems).1, by decide, by decide,
   ((rankings_top10 fifteenItems).2 (by decide)).2.2.2 (by decide),
   by decide, by decide,
   ((rankings_top10 fifteenItems).2 (by decide)).2.1
      ⟨"k", .int 25, tally 5 0 0 0 0⟩ (by decide) ⟨"j", .int 30, tally 6 0 0 0 0⟩ (by decide),
   ((rankings_top10 fifteenItems).2 (by decide)).2.2.1 (by decide)
      ⟨"k", .int 25, tally 5 0 0 0 0⟩ (by decide) ⟨"j", .int 30, tally 6 0 0 0 0⟩ (by decide)⟩

/-- With a score that is `NaN` the array is not sorted: for the items `a`, `d`,
`b`, `c` in this order with the scores 0, 1, `NaN`, 2 the `data` returned is
`c`, `d`, `a`, `b`. -/
theorem rankings_inconsistent_example :
    (top10 [("a", tally 0 0 0 0 0), ("d", tally 0 0 0 0 1), ("b", []),
      ("c", tally 0 0 0 0 2)]).map Entry.skin = ["c", "d", "a", "b"] := by
  decide

/-- C10 fails as stated: in the document `unstableDoc` the items `e` and `g`
both have the score 5 and `e` comes first in the key order, the item `d` has
the score `NaN`, and in the `data` returned `g` stands before `e`. -/
theorem rankings_stable_counterexample :
    (entries unstableDoc).map Entry.skin = ["a", "b", "c", "d", "e", "f", "g"] ∧
    (entries unstableDoc).map Entry.totalScore
      = [.int 9, .int 8, .int 0, .nan, .int 5, .int 7, .int 5] ∧
    (top10 unstableDoc).map Entry.skin = ["a", "b", "f", "g", "c", "d", "e"] := by
  decide

/-- C10 as amended: when every item of the document gets a finite
`totalScore`, for every score the entries of `data` that have this score are,
in their order, the first of the items with this score in the key order of
the document (so that entries with equal scores keep the relative order of
their keys, and a group cut by the limit of ten keeps its earliest items); a
rankings request leaves the document as it is and a second one gives the same
response. -/
theorem rankings_stable (doc : Store) (hfin : FiniteScores doc) :
    (entries doc).map Entry.skin = keys doc ∧
    (∀ v : Num, (top10 doc).filter (fun e => decide (e.totalScore = v))
        <+: (entries doc).filter (fun e => decide (e.totalScore = v))) ∧
    rankings (rankings doc).2 = rankings doc := by
  refine ⟨(entries_spec doc).1, ?_, ?_⟩
  · intro v
    rw [← stableSort_filter v (entries doc), top10_of_finite doc hfin]
    exact List.IsPrefix.filter _ (List.take_prefix 10 _)
  · have h2 : (rankings doc).2 = doc := by rw [(rankings_data doc).1]
    rw [h2]

theorem rankings_stable_witness :
    FiniteScores tiedItems ∧
    (top10 tiedItems).map Entry.skin
      = ["top", "p", "q", "r", "s", "t", "u", "v", "w", "x"] ∧
    ((entries tiedItems).map Entry.skin = keys tiedItems ∧
    (∀ v : Num, (top10 tiedItems).filter (fun e => decide (e.totalScore = v))
        <+: (entries tiedItems).filter (fun e => decide (e.totalScore = v))) ∧
    rankings (rankings tiedItems).2 = rankings tiedItems) :=
  ⟨by decide, by decide, rankings_stable tiedItems (by decide)⟩

/-! ## Clearing (C7) -/

/-- The clear request is answered with success and leaves the empty document,
on which the rankings request returns the empty list. -/
theorem clearTest_empties (doc : Store) :
    clearTest doc = (⟨200, true, none⟩, []) ∧
    (rankings (clearTest doc).2).1 = ⟨200, true, some []⟩ := by
  refine ⟨rfl, ?_⟩
  show (rankings []).1 = ⟨200, true, some []⟩
  decide

theorem incrementIn_intact (r : Record) (tier : String) :
    incrementIn [] r tier = some (increment r tier) := by
  unfold incrementIn increment get
  cases getOwn r tier with
  | some v => rfl
  | none =>
    simp only [getOwn]
    cases protoFunction tier with
    | some f => rfl
    | none =>
      by_cases h : tier = "__proto__"
      · simp [h]
      · simp [h]

/-- While no vote has written to `Object.prototype`, a vote for an item that
is not named `__proto__` does to the document what `mergeStep` says and
writes nothing to the prototype. -/
theorem mergeStepIn_intact (broken : Bool) (all : Store) (k t : String)
    (hk : k ≠ "__proto__") :
    (mergeStepIn [] broken all k t).map (fun x => (x.1, x.2.2))
      = (mergeStep all k t).map (fun next => ([], next)) := by
  unfold mergeStepIn mergeStep get
  cases getOwn all k with
  | some r => simp [incrementIn_intact]
  | none =>
    simp only [getOwn]
    cases protoFunction k with
    | some f =>
      by_cases ht : restrictedName t
      · simp [ht]
      · simp [ht]
    | none => simp [hk, incrementIn_intact]

theorem forEachIn_intact (f : String → String) (l : List String) (broken : Bool)
    (all : Store) (hl : ∀ k ∈ l, k ≠ "__proto__") :
    (forEachIn f [] broken l all).1 = [] ∧
      (forEachIn f [] broken l all).2.2 = forEach f l all := by
  induction l generalizing all broken with
  | nil => exact ⟨rfl, rfl⟩
  | cons k rest ih =>
    have hstep := mergeStepIn_intact broken all k (f k) (hl k (by simp))
    simp only [forEachIn, forEach]
    cases hs : mergeStepIn [] broken all k (f k) with
    | none =>
      rw [hs] at hstep
      cases hm : mergeStep all k (f k) with
      | none => exact ⟨rfl, rfl⟩
      | some next => rw [hm] at hstep; cases hstep
    | some x =>
      obtain ⟨props2, broken2, next⟩ := x
      rw [hs] at hstep
      cases hm : mergeStep all k (f k) with
      | none => rw [hm] at hstep; cases hstep
      | some next2 =>
        rw [hm] at hstep
        simp only [Option.map_some', Option.some.injEq, Prod.mk.injEq] at hstep
        obtain ⟨h1, h2⟩ := hstep
        subst h1
        subst h2
        exact ih broken2 next (fun k2 hk2 => hl k2 (by simp [hk2]))

/-- While no vote has written to the built-in objects, a submission without an
item named `__proto__` is answered as `submit` says and leaves the document
`submit` says, and the prototype as it is. -/
theorem submitIn_intact (doc : Store) (body : Option Ratings)
    (hb : ∀ u, body = some u → ∀ k ∈ keys u, k ≠ "__proto__") :
    (submitIn ⟨[], false, doc⟩ body).1 = (submit doc body).1 ∧
    (submitIn ⟨[], false, doc⟩ body).2.doc = (submit doc body).2 ∧
    (submitIn ⟨[], false, doc⟩ body).2.prototypeProps = [] := by
  cases body with
  | none => exact ⟨rfl, rfl, rfl⟩
  | some u =>
    unfold submitIn submit merge
    by_cases hlen : (keys u).length = 0
    · simp [hlen]
    · obtain ⟨h1, h2⟩ := forEachIn_intact (tierOf u) (keys u) false (parse doc) (hb u rfl)
      simp only [hlen, if_false, Bool.false_eq_true]
      rcases hfe : forEachIn (tierOf u) [] false (keys u) (parse doc) with ⟨props, broken, res⟩
      rw [hfe] at h1 h2
      simp only at h1 h2
      subst h1
      rw [← h2]
      cases res with
      | none => exact ⟨rfl, rfl, rfl⟩
      | some merged => exact ⟨rfl, rfl, rfl⟩

/-- The clear request leaves what votes have written to the built-in objects
as it is. -/
theorem clearIn_keeps (s : Process) :
    (clearIn s).2.doc = [] ∧ (clearIn s).2.prototypeProps = s.prototypeProps ∧
    (clearIn s).2.keysOverwritten = s.keysOverwritten :=
  ⟨rfl, rfl, rfl⟩

/-- C7 fails in the code.  On a freshly started server the submission
`{"__proto__":"valueOf"}` is answered with 200 and replaces
`Object.prototype.valueOf` by the text of that function followed by `1`; the
clear request empties the document and leaves that property; the submission
`{"X":"valueOf"}` then stores for `X` the text followed by `11`, where on the
initial empty store it stores the text followed by `1`. -/
theorem clear_keeps_prototype_writes :
    submitIn started (some [("__proto__", "valueOf")])
      = (⟨200, true, none⟩, ⟨[("valueOf", .fnText "valueOf" 1)], false, []⟩) ∧
    clearIn ⟨[("valueOf", .fnText "valueOf" 1)], false, []⟩
      = (⟨200, true, none⟩, ⟨[("valueOf", .fnText "valueOf" 1)], false, []⟩) ∧
    (submitIn ⟨[("valueOf", .fnText "valueOf" 1)], false, []⟩ (some [("X", "valueOf")])).2.doc
      = [("X", zeroRecord ++ [("valueOf", .fnText "valueOf" 2)])] ∧
    (submitIn started (some [("X", "valueOf")])).2.doc
      = [("X", zeroRecord ++ [("valueOf", .fnText "valueOf" 1)])] ∧
    (submit initData (some [("X", "valueOf")])).2
      = [("X", zeroRecord ++ [("valueOf", .fnText "valueOf" 1)])] := by
  decide

/-- A second run of the same kind: the submission `{"constructor":"keys"}` is
answered with 200, writes nothing to the document and replaces `Object.keys`;
after the clear request the submission `{"X":"S"}` is answered with 500 and
nothing is stored, where on a freshly started server it is answered with 200
and stores the record of `X`. -/
theorem clear_keeps_overwritten_keys :
    submitIn started (some [("constructor", "keys")])
      = (⟨200, true, none⟩, ⟨[], true, []⟩) ∧
    clearIn ⟨[], true, []⟩ = (⟨200, true, none⟩, ⟨[], true, []⟩) ∧
    submitIn ⟨[], true, []⟩ (some [("X", "S")]) = (⟨500, false, none⟩, ⟨[], true, []⟩) ∧
    submitIn started (some [("X", "S")])
      = (⟨200, true, none⟩, ⟨[], false, [("X", tally 1 0 0 0 0)]⟩) := by
  decide

/-! ## The shape of the records (C8) -/

theorem mem_replaceOwn {α : Type} (o : Obj α) (k : String) (v : α) (p : String × α)
    (h : p ∈ replaceOwn o k v) : p ∈ o ∨ p.2 = v := by
  induction o with
  | nil => simp [replaceOwn] at h
  | cons q rest ih =>
    obtain ⟨a, b⟩ := q
    by_cases hk : k = a
    · simp only [replaceOwn, hk, if_true, List.mem_cons] at h
      rcases h with e | e
      · right; rw [e]
      · left; exact List.mem_cons_of_mem _ e
    · simp only [replaceOwn, hk, if_false, List.mem_cons] at h
      rcases h with e | e
      · left; rw [e]; exact List.mem_cons_self _ _
      · rcases ih e with e2 | e2
        · left; exact List.mem_cons_of_mem _ e2
        · right; exact e2

theorem insertIndex_perm {α : Type} (n : Nat) (k : String) (v : α) (o : Obj α) :
    List.Perm (insertIndex n k v o) ((k, v) :: o) := by
  induction o with
  | nil => exact List.Perm.refl _
  | cons q rest ih =>
    obtain ⟨a, b⟩ := q
    simp only [insertIndex]
    split
    · split
      · exact List.Perm.refl _
      · exact (List.Perm.cons _ ih).trans (List.Perm.swap _ _ _)
    · exact List.Perm.refl _

theorem insertKey_perm {α : Type} (k : String) (v : α) (o : Obj α) :
    List.Perm (insertKey k v o) ((k, v) :: o) := by
  unfold insertKey
  split
  · exact insertIndex_perm _ k v o
  · exact List.perm_append_singleton _ _

theorem shape_increment (r : Record) (t : String) (hr : RecordShape r)
    (ht : t ∈ tierSymbols) : RecordShape (increment r t) := by
  obtain ⟨hk, hv⟩ := hr
  obtain ⟨v, hg⟩ := getOwn_isSome_of_mem r t (hk ▸ ht)
  have hc := hv (t, v) (mem_of_getOwn r t v hg)
  unfold increment
  rw [get_of_getOwn r t v hg]
  refine ⟨by rw [keys_replaceOwn]; exact hk, ?_⟩
  intro q hq
  rcases mem_replaceOwn r t _ q hq with e | e
  · exact hv q e
  · rw [e]
    cases v with
    | num n =>
      simp only [isCount, decide_eq_true_eq] at hc
      simp only [plusOne, isCount, decide_eq_true_eq]
      omega
    | inf s => simp [isCount] at hc
    | nan => simp [isCount] at hc
    | null => simp [isCount] at hc
    | fnText f k => simp [isCount] at hc

theorem shape_stringifyRecord (r : Record) (hr : RecordShape r) :
    RecordShape (stringifyRecord r) := by
  obtain ⟨hk, hv⟩ := hr
  constructor
  · rw [← hk]
    simp [stringifyRecord, keys, List.map_map, Function.comp_def]
  · intro q hq
    obtain ⟨q0, hq0, rfl⟩ := List.mem_map.1 hq
    have hc := hv q0 hq0
    cases hval : q0.2 with
    | num n => simpa [stringifyVal, hval] using hc
    | inf s => simp [hval, isCount] at hc
    | nan => simp [hval, isCount] at hc
    | null => simp [hval, isCount] at hc
    | fnText f k => simp [hval, isCount] at hc

theorem shape_mergeStep (all next : Store) (k t : String)
    (hs : mergeStep all k t = some next) (hall : ∀ p ∈ all, RecordShape p.2)
    (ht : t ∈ tierSymbols) : ∀ p ∈ next, RecordShape p.2 := by
  rcases mergeStep_cases all next k t hs with ⟨r, hr, e⟩ | ⟨_, _, e⟩ | ⟨_, _, e⟩
  · intro p hp
    rw [e] at hp
    rcases mem_replaceOwn all k _ p hp with e2 | e2
    · exact hall p e2
    · rw [e2]
      exact shape_increment r t (hall (k, r) (mem_of_getOwn all k r hr)) ht
  · intro p hp
    rw [e] at hp
    rcases List.mem_cons.1 ((insertKey_perm k _ all).subset hp) with e2 | e2
    · rw [e2]
      exact shape_increment zeroRecord t (by decide) ht
    · exact hall p e2
  · rw [e]
    exact hall

theorem tierOf_mem (userRatings : Ratings) (k : String)
    (hv : ∀ p ∈ userRatings, p.2 ∈ tierSymbols) (hk : k ∈ keys userRatings) :
    tierOf userRatings k ∈ tierSymbols :=
  hv _ (tierOf_mem_values userRatings k hk)

theorem shape_forEach (f : String → String) (l : List String) (all merged : Store)
    (hm : forEach f l all = some merged)
    (hall : ∀ p ∈ all, RecordShape p.2) (hf : ∀ k ∈ l, f k ∈ tierSymbols) :
    ∀ p ∈ merged, RecordShape p.2 := by
  induction l generalizing all with
  | nil =>
    simp only [forEach] at hm
    rw [← Option.some.inj hm]
    exact hall
  | cons k rest ih =>
    obtain ⟨next, hn, hr⟩ := forEach_cons f k rest all merged hm
    exact ih next hr (shape_mergeStep all next k (f k) hn hall (hf k (by simp)))
      (fun k2 hk2 => hf k2 (by simp [hk2]))

theorem shape_stringify (all : Store) (hall : ∀ p ∈ all, RecordShape p.2) :
    ∀ p ∈ stringify all, RecordShape p.2 := by
  intro p hp
  obtain ⟨p0, hp0, rfl⟩ := List.mem_map.1 hp
  exact shape_stringifyRecord p0.2 (hall p0 hp0)

theorem shape_handle (doc : Store) (req : Request) (hdoc : ∀ p ∈ doc, RecordShape p.2)
    (hreq : ValidTiers req) : ∀ p ∈ handle doc req, RecordShape p.2 := by
  cases req with
  | submit body =>
    cases body with
    | none => exact hdoc
    | some userRatings =>
      by_cases he : userRatings = []
      · subst he
        exact hdoc
      · show ∀ p ∈ (submit doc (some userRatings)).2, RecordShape p.2
        cases hm : merge doc userRatings with
        | none =>
          rw [submit_throws doc userRatings he hm]
          exact hdoc
        | some merged =>
          rw [submit_nonempty doc merged userRatings he hm]
          exact shape_stringify _ (shape_forEach (tierOf userRatings) (keys userRatings) doc
            merged hm hdoc (fun k hk => tierOf_mem userRatings k hreq hk))
  | rankings =>
    show ∀ p ∈ (rankings doc).2, RecordShape p.2
    rw [(rankings_data doc).1]
    exact hdoc
  | clearTest =>
    intro p hp
    simp [handle, clearTest] at hp

theorem shape_foldl_handle (reqs : List Request) (doc : Store)
    (hdoc : ∀ p ∈ doc, RecordShape p.2) (hreqs : ∀ req ∈ reqs, ValidTiers req) :
    ∀ p ∈ reqs.foldl handle doc, RecordShape p.2 := by
  induction reqs generalizing doc with
  | nil => exact hdoc
  | cons req rest ih =>
    rw [List.foldl_cons]
    exact ih _ (shape_handle doc req hdoc (hreqs req (by simp)))
      (fun q hq => hreqs q (by simp [hq]))

/-- C8 fails as stated: after the single request `submit {"X":"Z"}` to a
freshly started server the record of `X` has a sixth key, `Z`, holding `null`. -/
theorem shape_counterexample :
    ¬ (∀ p ∈ run [.submit (some [("X", "Z")])], RecordShape p.2) := by
  decide

/-- C8 as amended: in every document reached from the initial empty document
by submit, rankings and clear requests whose submissions name no tier outside
the five symbols, every record has exactly the keys `S`, `A`, `B`, `C`, `D`,
each holding a non-negative integer. -/
theorem shape_invariant (reqs : List Request) (hreqs : ∀ req ∈ reqs, ValidTiers req) :
    ∀ p ∈ run reqs, RecordShape p.2 := by
  unfold run
  exact shape_foldl_handle reqs initData (by intro p hp; simp [initData] at hp) hreqs

theorem shape_invariant_witness :
    (∀ req ∈ [Request.submit (some [("X", "S"), ("toString", "A")]), Request.rankings,
        Request.clearTest, Request.submit (some [("Y", "D")]), Request.submit (some [("Y", "D")])],
      ValidTiers req) ∧
    run [Request.submit (some [("X", "S"), ("toString", "A")]), Request.rankings,
        Request.clearTest, Request.submit (some [("Y", "D")]), Request.submit (some [("Y", "D")])]
      = [("Y", tally 0 0 0 0 2)] ∧
    RecordShape (tally 0 0 0 0 2) :=
  ⟨by decide, by decide,
   shape_invariant [Request.submit (some [("X", "S"), ("toString", "A")]), Request.rankings,
        Request.clearTest, Request.submit (some [("Y", "D")]), Request.submit (some [("Y", "D")])]
      (by decide) ("Y", tally 0 0 0 0 2) (by decide)⟩

/-! ## Round trip through the document (C11) -/

theorem stringifyRecord_of_finite (r : Record) (h : ∀ q ∈ r, stringifyVal q.2 = q.2) :
    stringifyRecord r = r := by
  unfold stringifyRecord
  induction r with
  | nil => rfl
  | cons q rest ih =>
    obtain ⟨k, v⟩ := q
    have hs : stringifyVal v = v := h (k, v) (by simp)
    simp only [List.map_cons, hs]
    rw [ih (fun q hq => h q (List.mem_cons_of_mem _ hq))]

theorem stringify_of_finite (all : Store) (h : FiniteValues all) : stringify all = all := by
  unfold stringify
  induction all with
  | nil => rfl
  | cons p rest ih =>
    have hp : stringifyRecord p.2 = p.2 := stringifyRecord_of_finite p.2 (h p (by simp))
    simp only [List.map_cons, hp]
    rw [ih (fun x hx => h x (List.mem_cons_of_mem _ hx))]

theorem increment_of_counter (r : Record) (t : String) (n : Int)
    (h : getOwn r t = some (.num n)) : increment r t = replaceOwn r t (.num (n + 1)) := by
  unfold increment
  rw [get_of_getOwn r t _ h]
  rfl

theorem hasCounters_getOwn (r : Record) (h : HasCounters r) (t : String)
    (ht : t ∈ tierSymbols) : ∃ n : Int, getOwn r t = some (.num n) :=
  (isInteger_iff _).1 (h t ht)

theorem hasCounters_increment (r : Record) (t : String) (h : HasCounters r)
    (ht : t ∈ tierSymbols) : HasCounters (increment r t) := by
  intro u hu
  obtain ⟨n, hn⟩ := hasCounters_getOwn r h u hu
  by_cases e : u = t
  · subst e
    rw [getOwn_increment_self r u _ hn]
    rfl
  · rw [getOwn_increment_ne r t u e]
    exact h u hu

/-! ## Reading back what was written -/

theorem toNat_digitChar (d : Nat) (h : d < 10) : (digitChar d).toNat = 48 + d := by
  interval_cases d <;> decide

theorem isDigit_digitChar (d : Nat) (h : d < 10) : isDigit (digitChar d) = true := by
  interval_cases d <;> decide

theorem parseDigits_append (xs ys : List Char) (acc : Nat) :
    parseDigits (xs ++ ys) acc = (parseDigits xs acc).bind (fun m => parseDigits ys m) := by
  induction xs generalizing acc with
  | nil => rfl
  | cons c cs ih =>
    simp only [List.cons_append, parseDigits]
    split
    · exact ih _
    · rfl

theorem parseDigits_digitChar (d acc : Nat) (h : d < 10) :
    parseDigits [digitChar d] acc = some (acc * 10 + d) := by
  simp only [parseDigits, toNat_digitChar d h]
  rw [if_pos (by omega)]
  congr 1
  omega

theorem parseDigits_natDigits (fuel n : Nat) (h : n < fuel) :
    parseDigits (natDigits fuel n) 0 = some n := by
  induction fuel generalizing n with
  | zero => omega
  | succ fuel ih =>
    simp only [natDigits]
    split
    · rename_i hlt
      rw [parseDigits_digitChar n 0 hlt]
      simp
    · rename_i hge
      rw [parseDigits_append, ih (n / 10) (by omega)]
      show parseDigits [digitChar (n % 10)] (n / 10) = some n
      rw [parseDigits_digitChar (n % 10) (n / 10) (Nat.mod_lt n (by decide))]
      congr 1
      omega

theorem isDigit_natDigits (fuel n : Nat) : ∀ c ∈ natDigits fuel n, isDigit c = true := by
  induction fuel generalizing n with
  | zero => intro c hc; simp [natDigits] at hc
  | succ fuel ih =>
    intro c hc
    simp only [natDigits] at hc
    split at hc
    · rename_i hlt
      simp only [List.mem_singleton] at hc
      rw [hc]
      exact isDigit_digitChar n hlt
    · rcases List.mem_append.1 hc with h | h
      · exact ih _ c h
      · simp only [List.mem_singleton] at h
        rw [h]
        exact isDigit_digitChar _ (Nat.mod_lt n (by decide))

theorem digitChar_eq_zero (d : Nat) (h : d < 10) (hz : digitChar d = '0') : d = 0 := by
  interval_cases d <;> first | rfl | (exact absurd hz (by decide))

/-- The digits of a number start with `0` only for the number 0, which is
written with one digit. -/
theorem natDigits_head (fuel n : Nat) (h : n < fuel) :
    ∃ c ds, natDigits fuel n = c :: ds ∧ (c = '0' → ds = []) := by
  induction fuel generalizing n with
  | zero => omega
  | succ fuel ih =>
    simp only [natDigits]
    split
    · exact ⟨_, [], rfl, fun _ => rfl⟩
    · rename_i hge
      obtain ⟨c, ds, he, hz⟩ := ih (n / 10) (by omega)
      refine ⟨c, ds ++ [digitChar (n % 10)], by rw [he]; rfl, ?_⟩
      intro hc
      exfalso
      have hds := hz hc
      rw [hds, hc] at he
      have hp := parseDigits_natDigits fuel (n / 10) (by omega)
      rw [he] at hp
      have : n / 10 = 0 := by
        simp [parseDigits] at hp
        omega
      omega

theorem takeWhile_append_of_all (p : Char → Bool) (ds rest : List Char)
    (hds : ∀ c ∈ ds, p c = true) (hrest : ∀ x r, rest = x :: r → p x = false) :
    (ds ++ rest).takeWhile p = ds ∧ (ds ++ rest).dropWhile p = rest := by
  induction ds with
  | nil =>
    cases rest with
    | nil => exact ⟨rfl, rfl⟩
    | cons x r =>
      have := hrest x r rfl
      simp [List.takeWhile, List.dropWhile, this]
  | cons c cs ih =>
    have hc := hds c (by simp)
    obtain ⟨h1, h2⟩ := ih (fun c hc => hds c (by simp [hc]))
    simp [List.takeWhile, List.dropWhile, hc, h1, h2]

theorem parseNat_natDigits (n : Nat) (rest : List Char) (hrest : EndsNumber rest) :
    parseNat (natDigits (n + 1) n ++ rest) = some (n, rest) := by
  obtain ⟨c, ds, he, hz⟩ := natDigits_head (n + 1) n (by omega)
  have hall := isDigit_natDigits (n + 1) n
  have hp := parseDigits_natDigits (n + 1) n (by omega)
  obtain ⟨h1, h2⟩ := takeWhile_append_of_all isDigit (natDigits (n + 1) n) rest hall
    (fun x r e => (hrest x r e).1)
  unfold parseNat
  rw [h1, h2]
  rw [he] at hp ⊢
  simp only []
  have hnz : ¬ (c = '0' ∧ ds ≠ []) := fun h => h.2 (hz h.1)
  rw [if_neg hnz]
  cases rest with
  | nil => simp [hp]
  | cons x r =>
    obtain ⟨_, ha, hb, hc⟩ := hrest x r rfl
    simp [ha, hb, hc, hp]

theorem numVal_safe (n : Int) (h : n.natAbs < 2 ^ 53) : numVal n = .num n := by
  unfold numVal roundToDouble
  rw [if_pos h]

theorem parseValue_cons (c : Char) (rest : List Char) :
    parseValue (c :: rest) =
      if c = 'n' then
        match rest with
        | x1 :: x2 :: x3 :: rest2 =>
            if x1 = 'u' ∧ x2 = 'l' ∧ x3 = 'l' then some (.null, rest2) else none
        | _ => none
      else if c = '"' then
        match parseString rest with
        | some (s, rest2) => (asFnText s).map (fun v => (v, rest2))
        | none => none
      else if c = '-' then (parseNat rest).map (fun r => (numVal (-(Int.ofNat r.1)), r.2))
      else (parseNat (c :: rest)).map (fun r => (numVal (Int.ofNat r.1), r.2)) := rfl

theorem parseChars_cons (fuel : Nat) (c : Char) (rest : List Char) :
    parseChars (fuel + 1) (c :: rest) =
      if c = '"' then some ([], rest)
      else if c = '\\' then
        match rest with
        | [] => none
        | e :: rest2 =>
            if e = 'u' then
              match rest2 with
              | x3 :: x2 :: x1 :: x0 :: rest3 =>
                  match hexValue x3, hexValue x2, hexValue x1, hexValue x0 with
                  | some h3, some h2, some h1, some h0 =>
                      if 55296 ≤ ((h3 * 16 + h2) * 16 + h1) * 16 + h0 ∧
                          ((h3 * 16 + h2) * 16 + h1) * 16 + h0 < 57344 then
                        match lowSurrogate rest3 with
                        | some (low, rest4) =>
                            if ((h3 * 16 + h2) * 16 + h1) * 16 + h0 < 56320 then
                              (parseChars fuel rest4).map
                                (fun r => (Char.ofNat (65536 +
                                  (((h3 * 16 + h2) * 16 + h1) * 16 + h0 - 55296) * 1024 +
                                  (low - 56320)) :: r.1, r.2))
                            else none
                        | none => none
                      else (parseChars fuel rest3).map
                        (fun r => (Char.ofNat (((h3 * 16 + h2) * 16 + h1) * 16 + h0) :: r.1, r.2))
                  | _, _, _, _ => none
              | _ => none
            else
              match unescape e with
              | some x => (parseChars fuel rest2).map (fun r => (x :: r.1, r.2))
              | none => none
      else if c.toNat < 32 then none
      else (parseChars fuel rest).map (fun r => (c :: r.1, r.2)) := by
  simp only [parseChars]

theorem parseValue_renderInt (n : Int) (rest : List Char) (hrest : EndsNumber rest) :
    parseValue (renderInt n ++ rest) = some (numVal n, rest) := by
  unfold renderInt
  by_cases hn : n < 0
  · rw [if_pos hn]
    have hm : -(Int.ofNat n.natAbs) = n := by
      show -((n.natAbs : Nat) : Int) = n
      omega
    show parseValue ('-' :: (natDigits (n.natAbs + 1) n.natAbs ++ rest)) = _
    rw [parseValue_cons, if_neg (by decide), if_neg (by decide), if_pos rfl,
      parseNat_natDigits n.natAbs rest hrest]
    simp only [Option.map_some']
    rw [hm]
  · rw [if_neg hn]
    have hm : Int.ofNat n.natAbs = n := by
      show ((n.natAbs : Nat) : Int) = n
      omega
    obtain ⟨c, ds, he, _⟩ := natDigits_head (n.natAbs + 1) n.natAbs (by omega)
    have hc : isDigit c = true := isDigit_natDigits (n.natAbs + 1) n.natAbs c (by rw [he]; simp)
    have hp := parseNat_natDigits n.natAbs rest hrest
    rw [he] at hp ⊢
    rw [List.cons_append] at hp ⊢
    rw [parseValue_cons]
    have h1 : c ≠ 'n' := fun e => by rw [e] at hc; exact absurd hc (by decide)
    have h2 : c ≠ '"' := fun e => by rw [e] at hc; exact absurd hc (by decide)
    have h3 : c ≠ '-' := fun e => by rw [e] at hc; exact absurd hc (by decide)
    rw [if_neg h1, if_neg h2, if_neg h3, hp]
    simp only [Option.map_some']
    rw [hm]

theorem parseValue_null (rest : List Char) :
    parseValue ("null".data ++ rest) = some (.null, rest) := by
  simp [parseValue]

theorem hexValue_hexChar (d : Nat) (h : d < 16) : hexValue (hexChar d) = some d := by
  interval_cases d <;> decide

theorem char_eq_of_toNat (c : Char) (n : Nat) (h : c.toNat = n) : c = Char.ofNat n := by
  rw [← h]
  exact (Char.ofNat_toNat c).symm

/-- One character written is read back as itself. -/
theorem parseChars_quoteChar (fuel : Nat) (c : Char) (tail : List Char) :
    parseChars (fuel + 1) (quoteChar c ++ tail)
      = (parseChars fuel tail).map (fun r => (c :: r.1, r.2)) := by
  unfold quoteChar
  by_cases h1 : c = '"'
  · subst h1
    simp [parseChars, unescape]
  rw [if_neg h1]
  by_cases h2 : c = '\\'
  · subst h2
    simp [parseChars, unescape]
  rw [if_neg h2]
  by_cases h3 : c.toNat = 8
  · rw [if_pos h3, char_eq_of_toNat c 8 h3]
    simp [parseChars, unescape]
  rw [if_neg h3]
  by_cases h4 : c.toNat = 9
  · rw [if_pos h4, char_eq_of_toNat c 9 h4]
    simp [parseChars, unescape]
  rw [if_neg h4]
  by_cases h5 : c.toNat = 10
  · rw [if_pos h5, char_eq_of_toNat c 10 h5]
    simp [parseChars, unescape]
  rw [if_neg h5]
  by_cases h6 : c.toNat = 12
  · rw [if_pos h6, char_eq_of_toNat c 12 h6]
    simp [parseChars, unescape]
  rw [if_neg h6]
  by_cases h7 : c.toNat = 13
  · rw [if_pos h7, char_eq_of_toNat c 13 h7]
    simp [parseChars, unescape]
  rw [if_neg h7]
  by_cases h8 : c.toNat < 32
  · rw [if_pos h8]
    have hq : c.toNat / 16 < 16 := by omega
    have hr : c.toNat % 16 < 16 := by omega
    have h0 : hexValue '0' = some 0 := by decide
    have hv : ((0 * 16 + 0) * 16 + c.toNat / 16) * 16 + c.toNat % 16 = c.toNat := by omega
    have hs : ¬ (55296 ≤ c.toNat ∧ c.toNat < 57344) := by omega
    show parseChars (fuel + 1) ('\\' :: 'u' :: '0' :: '0' :: hexChar (c.toNat / 16) ::
      hexChar (c.toNat % 16) :: tail) = _
    rw [parseChars_cons, if_neg (by decide), if_pos rfl]
    dsimp only
    rw [if_pos rfl, h0, hexValue_hexChar _ hq, hexValue_hexChar _ hr]
    dsimp only
    rw [hv, if_neg hs, Char.ofNat_toNat]
  rw [if_neg h8]
  show parseChars (fuel + 1) (c :: tail) = _
  rw [parseChars_cons, if_neg h1, if_neg h2, if_neg h8]

theorem length_quoteChar_pos (c : Char) : 1 ≤ (quoteChar c).length := by
  unfold quoteChar
  repeat' split
  all_goals simp

theorem parseChars_quoteChars (s : List Char) (fuel : Nat) (rest : List Char)
    (h : s.length < fuel) : parseChars fuel (quoteChars s ++ rest) = some (s, rest) := by
  induction s generalizing fuel with
  | nil =>
    cases fuel with
    | zero => simp at h
    | succ fuel => simp [quoteChars, parseChars]
  | cons c cs ih =>
    cases fuel with
    | zero => simp at h
    | succ fuel =>
      simp only [quoteChars, List.append_assoc]
      rw [parseChars_quoteChar, ih fuel (by simpa using h)]
      rfl

theorem length_le_quoteChars (s : List Char) : s.length + 1 ≤ (quoteChars s).length := by
  induction s with
  | nil => simp [quoteChars]
  | cons c cs ih =>
    simp only [quoteChars, List.length_append, List.length_cons]
    have := length_quoteChar_pos c
    omega

/-- A string literal written is read back as the string. -/
theorem parseString_quoteChars (s rest : List Char) :
    parseString (quoteChars s ++ rest) = some (s, rest) := by
  unfold parseString
  refine parseChars_quoteChars s _ rest ?_
  have := length_le_quoteChars s
  simp only [List.length_append]
  omega

theorem endsNumber_of_endsValue (tail : List Char) (h : EndsValue tail) : EndsNumber tail := by
  obtain ⟨r, h | h⟩ := h
  · intro x r2 e
    rw [h] at e
    injection e with e1 _
    rw [← e1]
    decide
  · intro x r2 e
    rw [h] at e
    injection e with e1 _
    rw [← e1]
    decide

theorem skipWs_cons_of_ws (c : Char) (rest : List Char) (h : isWs c = true) :
    skipWs (c :: rest) = skipWs rest := by
  simp [skipWs, h]

theorem skipWs_cons_of_not_ws (c : Char) (rest : List Char) (h : isWs c = false) :
    skipWs (c :: rest) = c :: rest := by
  simp [skipWs, h]

theorem skipWs_indentation (d : Nat) (rest : List Char) :
    skipWs (indentation d ++ rest) = skipWs rest := by
  unfold indentation
  induction (2 * d) with
  | zero => rfl
  | succ n ih =>
    rw [List.replicate_succ, List.cons_append, skipWs_cons_of_ws _ _ (by decide)]
    exact ih

theorem length_skipWs_le (l : List Char) : (skipWs l).length ≤ l.length := by
  induction l with
  | nil => exact Nat.le_refl _
  | cons c rest ih =>
    simp only [skipWs]
    split
    · simp only [List.length_cons]
      omega
    · exact Nat.le_refl _

theorem parseMembers_succ {α : Type} (parseItem : List Char → Option (α × List Char))
    (fuel : Nat) (acc : Obj α) (input : List Char) :
    parseMembers parseItem (fuel + 1) acc input =
      match input with
      | [] => none
      | c :: rest =>
          if c = '"' then
            match parseString rest with
            | none => none
            | some (k, rest2) =>
                match skipWs rest2 with
                | [] => none
                | c2 :: rest3 =>
                    if c2 = ':' then
                      match parseItem (skipWs rest3) with
                      | none => none
                      | some (v, rest4) =>
                          match skipWs rest4 with
                          | [] => none
                          | c3 :: rest5 =>
                              if c3 = ',' then
                                parseMembers parseItem fuel (defineOwn acc (String.mk k) v)
                                  (skipWs rest5)
                              else if c3 = '\x7d' then
                                some (defineOwn acc (String.mk k) v, rest5)
                              else none
                    else none
          else none := by
  simp only [parseMembers]

/-- One member written, read: the name, the colon, the value, and what comes
after the value. -/
theorem parseMembers_member {α : Type} (parseItem : List Char → Option (α × List Char))
    (fuel : Nat) (acc : Obj α) (k : String) (itemText tail : List Char) (v : α)
    (hitem : parseItem (skipWs (itemText ++ tail)) = some (v, tail)) :
    parseMembers parseItem (fuel + 1) acc (quote k.data ++ ':' :: ' ' :: (itemText ++ tail)) =
      match skipWs tail with
      | [] => none
      | c3 :: rest5 =>
          if c3 = ',' then parseMembers parseItem fuel (defineOwn acc k v) (skipWs rest5)
          else if c3 = '\x7d' then some (defineOwn acc k v, rest5)
          else none := by
  show parseMembers parseItem (fuel + 1) acc
    ('"' :: (quoteChars k.data ++ ':' :: ' ' :: (itemText ++ tail))) = _
  rw [parseMembers_succ]
  dsimp only
  rw [if_pos rfl, parseString_quoteChars]
  dsimp only
  rw [skipWs_cons_of_not_ws ':' _ (by decide)]
  dsimp only
  rw [if_pos rfl, skipWs_cons_of_ws ' ' _ (by decide), hitem]

theorem renderMembers_single {α : Type} (renderItem : α → List Char) (d : Nat)
    (p : String × α) :
    renderMembers renderItem d [p] =
      indentation (d + 1) ++ (quote p.1.data ++ ':' :: ' ' :: (renderItem p.2 ++
        '\n' :: (indentation d ++ ['\x7d']))) := by
  simp [renderMembers]

theorem renderMembers_cons {α : Type} (renderItem : α → List Char) (d : Nat)
    (p q : String × α) (rest : Obj α) :
    renderMembers renderItem d (p :: q :: rest) =
      indentation (d + 1) ++ (quote p.1.data ++ ':' :: ' ' :: (renderItem p.2 ++
        ',' :: '\n' :: renderMembers renderItem d (q :: rest))) := by
  simp [renderMembers]

/-- The members written for a non-empty object are read back one after the
other, each defined on the object read so far. -/
theorem parseMembers_renderMembers {α β : Type}
    (parseItem : List Char → Option (β × List Char)) (renderItem : α → List Char)
    (g : α → β) (d : Nat) (o : Obj α) (p : String × α)
    (hitem : ∀ q ∈ p :: o, ∀ tail, EndsValue tail →
      parseItem (skipWs (renderItem q.2 ++ tail)) = some (g q.2, tail))
    (fuel : Nat) (hfuel : (p :: o).length ≤ fuel) (acc : Obj β) (rest : List Char) :
    parseMembers parseItem fuel acc (skipWs (renderMembers renderItem d (p :: o) ++ rest))
      = some ((p :: o).foldl (fun a q => defineOwn a q.1 (g q.2)) acc, rest) := by
  induction o generalizing p fuel acc with
  | nil =>
    cases fuel with
    | zero => simp at hfuel
    | succ fuel =>
      rw [renderMembers_single, List.append_assoc, skipWs_indentation]
      simp only [List.append_assoc, List.cons_append]
      rw [show quote p.1.data = '"' :: quoteChars p.1.data from rfl, List.cons_append,
        skipWs_cons_of_not_ws '"' _ (by decide)]
      have h := parseMembers_member parseItem fuel acc p.1 (renderItem p.2)
        ('\n' :: (indentation d ++ ('\x7d' :: rest))) (g p.2)
        (hitem p (by simp) _ ⟨_, Or.inr rfl⟩)
      rw [skipWs_cons_of_ws '\n' _ (by decide), skipWs_indentation,
        skipWs_cons_of_not_ws '\x7d' _ (by decide)] at h
      dsimp only at h
      rw [if_neg (by decide), if_pos rfl] at h
      simp only [List.nil_append]
      exact h
  | cons q o ih =>
    cases fuel with
    | zero => simp at hfuel
    | succ fuel =>
      rw [renderMembers_cons, List.append_assoc, skipWs_indentation]
      simp only [List.append_assoc, List.cons_append]
      rw [show quote p.1.data = '"' :: quoteChars p.1.data from rfl, List.cons_append,
        skipWs_cons_of_not_ws '"' _ (by decide)]
      have h := parseMembers_member parseItem fuel acc p.1 (renderItem p.2)
        (',' :: '\n' :: (renderMembers renderItem d (q :: o) ++ rest)) (g p.2)
        (hitem p (by simp) _ ⟨_, Or.inl rfl⟩)
      rw [skipWs_cons_of_not_ws ',' _ (by decide)] at h
      dsimp only at h
      rw [if_pos rfl, skipWs_cons_of_ws '\n' _ (by decide)] at h
      rw [ih q (fun x hx => hitem x (List.mem_cons_of_mem _ hx)) fuel
        (by simp only [List.length_cons] at hfuel ⊢; omega)] at h
      exact h

theorem skipWs_renderMembers {α : Type} (renderItem : α → List Char) (d : Nat)
    (p : String × α) (o : Obj α) (rest : List Char) :
    ∃ T, skipWs (renderMembers renderItem d (p :: o) ++ rest) = '"' :: T := by
  cases o with
  | nil =>
    rw [renderMembers_single, List.append_assoc, skipWs_indentation]
    exact ⟨_, skipWs_cons_of_not_ws '"' _ (by decide)⟩
  | cons q o =>
    rw [renderMembers_cons, List.append_assoc, skipWs_indentation]
    exact ⟨_, skipWs_cons_of_not_ws '"' _ (by decide)⟩

theorem length_le_renderMembers {α : Type} (renderItem : α → List Char) (d : Nat)
    (p : String × α) (o : Obj α) (rest : List Char) :
    (p :: o).length ≤ (skipWs (renderMembers renderItem d (p :: o) ++ rest)).length := by
  induction o generalizing p with
  | nil =>
    obtain ⟨T, hT⟩ := skipWs_renderMembers renderItem d p [] rest
    rw [hT]
    simp
  | cons q o ih =>
    have h := ih q
    have h2 := length_skipWs_le (renderMembers renderItem d (q :: o) ++ rest)
    rw [renderMembers_cons, List.append_assoc, skipWs_indentation]
    rw [show quote p.1.data = '"' :: quoteChars p.1.data from rfl, List.cons_append,
      List.cons_append, skipWs_cons_of_not_ws '"' _ (by decide)]
    simp only [List.length_cons, List.length_append] at h h2 ⊢
    omega

/-- An object written is read back as its members defined one after the
other on the empty object. -/
theorem parseObject_renderObject {α β : Type}
    (parseItem : List Char → Option (β × List Char)) (renderItem : α → List Char)
    (g : α → β) (d : Nat) (o : Obj α)
    (hitem : ∀ q ∈ o, ∀ tail, EndsValue tail →
      parseItem (skipWs (renderItem q.2 ++ tail)) = some (g q.2, tail))
    (rest : List Char) :
    parseObject parseItem (renderObject renderItem d o ++ rest)
      = some (o.foldl (fun a q => defineOwn a q.1 (g q.2)) [], rest) := by
  cases o with
  | nil =>
    show parseObject parseItem ('\x7b' :: '\x7d' :: rest) = _
    unfold parseObject
    dsimp only
    rw [if_pos rfl, skipWs_cons_of_not_ws '\x7d' _ (by decide)]
    dsimp only
    rw [if_pos rfl]
    rfl
  | cons p o =>
    show parseObject parseItem
      ('\x7b' :: '\n' :: (renderMembers renderItem d (p :: o) ++ rest)) = _
    unfold parseObject
    dsimp only
    rw [if_pos rfl, skipWs_cons_of_ws '\n' _ (by decide)]
    have hlen := length_le_renderMembers renderItem d p o rest
    have hmem := parseMembers_renderMembers parseItem renderItem g d o p hitem
      (skipWs (renderMembers renderItem d (p :: o) ++ rest)).length hlen [] rest
    obtain ⟨T, hT⟩ := skipWs_renderMembers renderItem d p o rest
    rw [hT] at hmem ⊢
    dsimp only
    rw [if_neg (by decide)]
    exact hmem

theorem keyBefore_ne (a b : String) (h : keyBefore a b = true) : a ≠ b := by
  unfold keyBefore at h
  intro e
  simp [e] at h

theorem keyBefore_index (a b : String) (m : Nat) (h : keyBefore a b = true)
    (hb : arrayIndex b = some m) : ∃ n, arrayIndex a = some n ∧ n ≤ m := by
  unfold keyBefore at h
  rw [hb] at h
  cases ha : arrayIndex a with
  | none => simp [ha] at h
  | some n =>
    refine ⟨n, rfl, ?_⟩
    have h2 : ¬ a = b ∧ n ≤ m := by simpa [ha] using h
    exact h2.2

theorem getOwn_none_of_before {α : Type} (acc : Obj α) (k : String)
    (h : ∀ p ∈ acc, keyBefore p.1 k = true) : getOwn acc k = none := by
  induction acc with
  | nil => rfl
  | cons p rest ih =>
    obtain ⟨a, b⟩ := p
    have hne : k ≠ a := fun e => keyBefore_ne a k (h (a, b) (by simp)) e.symm
    simp only [getOwn, hne, if_false]
    exact ih (fun q hq => h q (List.mem_cons_of_mem _ hq))

theorem insertIndex_of_before {α : Type} (n : Nat) (k : String) (v : α) (acc : Obj α)
    (h : ∀ p ∈ acc, ∃ m, arrayIndex p.1 = some m ∧ m ≤ n) :
    insertIndex n k v acc = acc ++ [(k, v)] := by
  induction acc with
  | nil => rfl
  | cons p rest ih =>
    obtain ⟨a, b⟩ := p
    obtain ⟨m, hm, hle⟩ := h (a, b) (by simp)
    simp only [insertIndex]
    simp only [] at hm
    rw [hm]
    dsimp only
    rw [if_neg (by omega), ih (fun q hq => h q (List.mem_cons_of_mem _ hq))]
    rfl

/-- A name that may stand after all names of the object is created at its
end. -/
theorem defineOwn_of_before {α : Type} (acc : Obj α) (k : String) (v : α)
    (h : ∀ p ∈ acc, keyBefore p.1 k = true) : defineOwn acc k v = acc ++ [(k, v)] := by
  unfold defineOwn
  rw [getOwn_none_of_before acc k h]
  dsimp only
  unfold insertKey
  cases hk : arrayIndex k with
  | none => rfl
  | some n =>
    exact insertIndex_of_before n k v acc (fun p hp => keyBefore_index p.1 k n (h p hp) hk)

theorem foldl_defineOwn {α β : Type} (g : α → β) (l : Obj α) (acc : Obj β)
    (hl : Ordered l) (hacc : ∀ p ∈ acc, ∀ q ∈ l, keyBefore p.1 q.1 = true) :
    l.foldl (fun a q => defineOwn a q.1 (g q.2)) acc
      = acc ++ l.map (fun q => (q.1, g q.2)) := by
  induction l generalizing acc with
  | nil => simp
  | cons q rest ih =>
    unfold Ordered at hl
    rw [List.pairwise_cons] at hl
    rw [List.foldl_cons, defineOwn_of_before acc q.1 (g q.2) (fun p hp => hacc p hp q (by simp)),
      ih (acc ++ [(q.1, g q.2)]) hl.2 ?_]
    · simp
    · intro p hp x hx
      rcases List.mem_append.1 hp with h | h
      · exact hacc p h x (List.mem_cons_of_mem _ hx)
      · simp only [List.mem_singleton] at h
        rw [h]
        exact hl.1 x hx

/-- An object whose properties stand as in an object is read back as it was
written, each value as its item is read. -/
theorem parseObject_ordered {α β : Type}
    (parseItem : List Char → Option (β × List Char)) (renderItem : α → List Char)
    (g : α → β) (d : Nat) (o : Obj α) (ho : Ordered o)
    (hitem : ∀ q ∈ o, ∀ tail, EndsValue tail →
      parseItem (skipWs (renderItem q.2 ++ tail)) = some (g q.2, tail))
    (rest : List Char) :
    parseObject parseItem (renderObject renderItem d o ++ rest)
      = some (o.map (fun q => (q.1, g q.2)), rest) := by
  rw [parseObject_renderObject parseItem renderItem g d o hitem rest,
    foldl_defineOwn g o [] ho (fun p hp => by simp at hp)]
  rfl

theorem numVal_exact (n : Int) (h : n.natAbs ≤ 2 ^ 53) : numVal n = .num n := by
  by_cases hlt : n.natAbs < 2 ^ 53
  · exact numVal_safe n hlt
  · have hn : n = 9007199254740992 ∨ n = -9007199254740992 := by omega
    rcases hn with e | e <;> rw [e] <;> decide

theorem dropChars_append (p ones : List Char) : dropChars p (p ++ ones) = some ones := by
  induction p with
  | nil => cases ones <;> rfl
  | cons a p ih => simp [dropChars, ih]

theorem asFnTextOf_self (f : String) (k : Nat) :
    asFnTextOf (fnTextChars f k) f = some (.fnText f k) := by
  unfold asFnTextOf fnTextChars
  rw [dropChars_append]
  simp

theorem asFnText_fnTextChars (f : String) (hf : f ∈ functionNames) (k : Nat) :
    asFnText (fnTextChars f k) = some (.fnText f k) := by
  have hself := asFnTextOf_self f k
  unfold functionNames at hf
  simp only [List.mem_cons, List.mem_singleton, List.not_mem_nil, or_false] at hf
  rcases hf with rfl | rfl | rfl | rfl | rfl | rfl | rfl | rfl | rfl | rfl | rfl
  · simp only [asFnText, functionNames, List.findSome?, hself]
  · have h0 : asFnTextOf (fnTextChars "hasOwnProperty" k) "Object" = none := rfl
    simp only [asFnText, functionNames, List.findSome?, h0, hself]
  · have h0 : asFnTextOf (fnTextChars "isPrototypeOf" k) "Object" = none := rfl
    have h1 : asFnTextOf (fnTextChars "isPrototypeOf" k) "hasOwnProperty" = none := rfl
    simp only [asFnText, functionNames, List.findSome?, h0, h1, hself]
  · have h0 : asFnTextOf (fnTextChars "propertyIsEnumerable" k) "Object" = none := rfl
    have h1 : asFnTextOf (fnTextChars "propertyIsEnumerable" k) "hasOwnProperty" = none := rfl
    have h2 : asFnTextOf (fnTextChars "propertyIsEnumerable" k) "isPrototypeOf" = none := rfl
    simp only [asFnText, functionNames, List.findSome?, h0, h1, h2, hself]
  · have h0 : asFnTextOf (fnTextChars "toLocaleString" k) "Object" = none := rfl
    have h1 : asFnTextOf (fnTextChars "toLocaleString" k) "hasOwnProperty" = none := rfl
    have h2 : asFnTextOf (fnTextChars "toLocaleString" k) "isPrototypeOf" = none := rfl
    have h3 : asFnTextOf (fnTextChars "toLocaleString" k) "propertyIsEnumerable" = none := rfl
    simp only [asFnText, functionNames, List.findSome?, h0, h1, h2, h3, hself]
  · have h0 : asFnTextOf (fnTextChars "toString" k) "Object" = none := rfl
    have h1 : asFnTextOf (fnTextChars "toString" k) "hasOwnProperty" = none := rfl
    have h2 : asFnTextOf (fnTextChars "toString" k) "isPrototypeOf" = none := rfl
    have h3 : asFnTextOf (fnTextChars "toString" k) "propertyIsEnumerable" = none := rfl
    have h4 : asFnTextOf (fnTextChars "toString" k) "toLocaleString" = none := rfl
    simp only [asFnText, functionNames, List.findSome?, h0, h1, h2, h3, h4, hself]
  · have h0 : asFnTextOf (fnTextChars "valueOf" k) "Object" = none := rfl
    have h1 : asFnTextOf (fnTextChars "valueOf" k) "hasOwnProperty" = none := rfl
    have h2 : asFnTextOf (fnTextChars "valueOf" k) "isPrototypeOf" = none := rfl
    have h3 : asFnTextOf (fnTextChars "valueOf" k) "propertyIsEnumerable" = none := rfl
    have h4 : asFnTextOf (fnTextChars "valueOf" k) "toLocaleString" = none := rfl
    have h5 : asFnTextOf (fnTextChars "valueOf" k) "toString" = none := rfl
    simp only [asFnText, functionNames, List.findSome?, h0, h1, h2, h3, h4, h5, hself]
  · have h0 : asFnTextOf (fnTextChars "__defineGetter__" k) "Object" = none := rfl
    have h1 : asFnTextOf (fnTextChars "__defineGetter__" k) "hasOwnProperty" = none := rfl
    have h2 : asFnTextOf (fnTextChars "__defineGetter__" k) "isPrototypeOf" = none := rfl
    have h3 : asFnTextOf (fnTextChars "__defineGetter__" k) "propertyIsEnumerable" = none := rfl
    have h4 : asFnTextOf (fnTextChars "__defineGetter__" k) "toLocaleString" = none := rfl
    have h5 : asFnTextOf (fnTextChars "__defineGetter__" k) "toString" = none := rfl
    have h6 : asFnTextOf (fnTextChars "__defineGetter__" k) "valueOf" = none := rfl
    simp only [asFnText, functionNames, List.findSome?, h0, h1, h2, h3, h4, h5, h6, hself]
  · have h0 : asFnTextOf (fnTextChars "__defineSetter__" k) "Object" = none := rfl
    have h1 : asFnTextOf (fnTextChars "__defineSetter__" k) "hasOwnProperty" = none := rfl
    have h2 : asFnTextOf (fnTextChars "__defineSetter__" k) "isPrototypeOf" = none := rfl
    have h3 : asFnTextOf (fnTextChars "__defineSetter__" k) "propertyIsEnumerable" = none := rfl
    have h4 : asFnTextOf (fnTextChars "__defineSetter__" k) "toLocaleString" = none := rfl
    have h5 : asFnTextOf (fnTextChars "__defineSetter__" k) "toString" = none := rfl
    have h6 : asFnTextOf (fnTextChars "__defineSetter__" k) "valueOf" = none := rfl
    have h7 : asFnTextOf (fnTextChars "__defineSetter__" k) "__defineGetter__" = none := rfl
    simp only [asFnText, functionNames, List.findSome?, h0, h1, h2, h3, h4, h5, h6, h7, hself]
  · have h0 : asFnTextOf (fnTextChars "__lookupGetter__" k) "Object" = none := rfl
    have h1 : asFnTextOf (fnTextChars "__lookupGetter__" k) "hasOwnProperty" = none := rfl
    have h2 : asFnTextOf (fnTextChars "__lookupGetter__" k) "isPrototypeOf" = none := rfl
    have h3 : asFnTextOf (fnTextChars "__lookupGetter__" k) "propertyIsEnumerable" = none := rfl
    have h4 : asFnTextOf (fnTextChars "__lookupGetter__" k) "toLocaleString" = none := rfl
    have h5 : asFnTextOf (fnTextChars "__lookupGetter__" k) "toString" = none := rfl
    have h6 : asFnTextOf (fnTextChars "__lookupGetter__" k) "valueOf" = none := rfl
    have h7 : asFnTextOf (fnTextChars "__lookupGetter__" k) "__defineGetter__" = none := rfl
    have h8 : asFnTextOf (fnTextChars "__lookupGetter__" k) "__defineSetter__" = none := rfl
    simp only [asFnText, functionNames, List.findSome?, h0, h1, h2, h3, h4, h5, h6, h7, h8, hself]
  · have h0 : asFnTextOf (fnTextChars "__lookupSetter__" k) "Object" = none := rfl
    have h1 : asFnTextOf (fnTextChars "__lookupSetter__" k) "hasOwnProperty" = none := rfl
    have h2 : asFnTextOf (fnTextChars "__lookupSetter__" k) "isPrototypeOf" = none := rfl
    have h3 : asFnTextOf (fnTextChars "__lookupSetter__" k) "propertyIsEnumerable" = none := rfl
    have h4 : asFnTextOf (fnTextChars "__lookupSetter__" k) "toLocaleString" = none := rfl
    have h5 : asFnTextOf (fnTextChars "__lookupSetter__" k) "toString" = none := rfl
    have h6 : asFnTextOf (fnTextChars "__lookupSetter__" k) "valueOf" = none := rfl
    have h7 : asFnTextOf (fnTextChars "__lookupSetter__" k) "__defineGetter__" = none := rfl
    have h8 : asFnTextOf (fnTextChars "__lookupSetter__" k) "__defineSetter__" = none := rfl
    have h9 : asFnTextOf (fnTextChars "__lookupSetter__" k) "__lookupGetter__" = none := rfl
    simp only [asFnText, functionNames, List.findSome?, h0, h1, h2, h3, h4, h5, h6, h7, h8, h9, hself]

theorem skipWs_renderVal (v : Val) (tail : List Char) :
    skipWs (renderVal v ++ tail) = renderVal v ++ tail := by
  cases v with
  | num n =>
    show skipWs (renderInt n ++ tail) = renderInt n ++ tail
    unfold renderInt
    by_cases hn : n < 0
    · rw [if_pos hn]
      exact skipWs_cons_of_not_ws '-' _ (by decide)
    · rw [if_neg hn]
      obtain ⟨c, ds, he, _⟩ := natDigits_head (n.natAbs + 1) n.natAbs (by omega)
      have hc : isDigit c = true := isDigit_natDigits (n.natAbs + 1) n.natAbs c (by rw [he]; simp)
      rw [he]
      refine skipWs_cons_of_not_ws c _ ?_
      unfold isDigit at hc
      unfold isWs
      have h1 : c ≠ ' ' := fun e => by rw [e] at hc; exact absurd hc (by decide)
      have h2 : c ≠ '\n' := fun e => by rw [e] at hc; exact absurd hc (by decide)
      have h3 : c ≠ '\r' := fun e => by rw [e] at hc; exact absurd hc (by decide)
      have h4 : c ≠ '\t' := fun e => by rw [e] at hc; exact absurd hc (by decide)
      simp [h1, h2, h3, h4]
  | inf s => exact skipWs_cons_of_not_ws 'n' _ (by decide)
  | nan => exact skipWs_cons_of_not_ws 'n' _ (by decide)
  | null => exact skipWs_cons_of_not_ws 'n' _ (by decide)
  | fnText f k => exact skipWs_cons_of_not_ws '"' _ (by decide)

/-- A value written is read back as the value `JSON.stringify` writes for
it. -/
theorem parseValue_renderVal (v : Val) (hv : Exact v) (tail : List Char)
    (ht : EndsValue tail) :
    parseValue (skipWs (renderVal v ++ tail)) = some (stringifyVal v, tail) := by
  rw [skipWs_renderVal]
  cases v with
  | num n =>
    show parseValue (renderInt n ++ tail) = _
    rw [parseValue_renderInt n tail (endsNumber_of_endsValue tail ht), numVal_exact n hv]
    rfl
  | inf s => exact parseValue_null tail
  | nan => exact parseValue_null tail
  | null => exact parseValue_null tail
  | fnText f k =>
    show parseValue ('"' :: (quoteChars (fnTextChars f k) ++ tail)) = _
    rw [parseValue_cons, if_neg (by decide), if_pos rfl, parseString_quoteChars]
    dsimp only
    rw [asFnText_fnTextChars f hv k]
    rfl

/-- A record written is read back as the record `JSON.stringify` writes. -/
theorem parseRecord_renderRecord (r : Record) (hr : Ordered r) (hv : ∀ q ∈ r, Exact q.2)
    (tail : List Char) :
    parseRecord (skipWs (renderRecord r ++ tail)) = some (stringifyRecord r, tail) := by
  have hs : skipWs (renderRecord r ++ tail) = renderRecord r ++ tail := by
    unfold renderRecord renderObject
    cases r with
    | nil => exact skipWs_cons_of_not_ws '\x7b' _ (by decide)
    | cons p rest => exact skipWs_cons_of_not_ws '\x7b' _ (by decide)
  rw [hs]
  unfold parseRecord renderRecord
  rw [parseObject_ordered parseValue renderVal stringifyVal 1 r hr
    (fun q hq t ht => parseValue_renderVal q.2 (hv q hq) t ht) tail]
  rfl

/-- The text written for a store of the model is read back as the tree
`stringify` gives for it. -/
theorem parseDocument_render (m : Store) (hm : WellFormed m) :
    parseDocument (render m) = some (stringify m) := by
  have hs : skipWs (render m) = render m ++ [] := by
    rw [List.append_nil]
    unfold render renderObject
    cases m with
    | nil => exact skipWs_cons_of_not_ws '\x7b' _ (by decide)
    | cons p rest => exact skipWs_cons_of_not_ws '\x7b' _ (by decide)
  unfold parseDocument
  rw [hs]
  unfold render
  rw [parseObject_ordered parseRecord renderRecord stringifyRecord 0 m hm.1
    (fun p hp t _ => parseRecord_renderRecord p.2 (hm.2 p hp).1 (hm.2 p hp).2 t) []]
  rfl

theorem ordered_iff_keys {α : Type} (o : Obj α) :
    Ordered o ↔ (keys o).Pairwise (fun a b => keyBefore a b = true) := by
  unfold Ordered keys
  rw [List.pairwise_map]

theorem ordered_replaceOwn {α : Type} (o : Obj α) (k : String) (v : α) (h : Ordered o) :
    Ordered (replaceOwn o k v) := by
  rw [ordered_iff_keys, keys_replaceOwn]
  exact (ordered_iff_keys o).1 h

theorem keyBefore_of_index (a b : String) (n m : Nat) (hne : a ≠ b)
    (ha : arrayIndex a = some n) (hb : arrayIndex b = some m) (h : n ≤ m) :
    keyBefore a b = true := by
  unfold keyBefore
  simp [hne, ha, hb, h]

theorem keyBefore_of_not_index (a b : String) (hne : a ≠ b) (hb : arrayIndex b = none) :
    keyBefore a b = true := by
  unfold keyBefore
  simp [hne, hb]

theorem not_index_of_before (a b : String) (h : keyBefore a b = true)
    (ha : arrayIndex a = none) : arrayIndex b = none := by
  cases hb : arrayIndex b with
  | none => rfl
  | some m =>
    obtain ⟨n, hn, _⟩ := keyBefore_index a b m h hb
    rw [ha] at hn
    cases hn

theorem ordered_insertIndex {α : Type} (n : Nat) (k : String) (v : α) (o : Obj α)
    (hk : arrayIndex k = some n) (hnew : ∀ p ∈ o, p.1 ≠ k) (h : Ordered o) :
    Ordered (insertIndex n k v o) := by
  induction o with
  | nil =>
    unfold Ordered
    simp [insertIndex]
  | cons p rest ih =>
    obtain ⟨a, b⟩ := p
    unfold Ordered at h
    rw [List.pairwise_cons] at h
    have hak : a ≠ k := hnew (a, b) (by simp)
    simp only [insertIndex]
    cases ha : arrayIndex a with
    | some m =>
      dsimp only
      by_cases hlt : n < m
      · rw [if_pos hlt]
        unfold Ordered
        rw [List.pairwise_cons, List.pairwise_cons]
        refine ⟨?_, h⟩
        intro q hq
        rcases List.mem_cons.1 hq with e | e
        · rw [e]
          exact keyBefore_of_index k a n m (fun e2 => hak e2.symm) hk ha (by omega)
        · have hb := h.1 q e
          have hqk : k ≠ q.1 := fun e2 => hnew q (List.mem_cons_of_mem _ e) e2.symm
          cases hq2 : arrayIndex q.1 with
          | none => exact keyBefore_of_not_index k q.1 hqk hq2
          | some m2 =>
            obtain ⟨m1, hm1, hle⟩ := keyBefore_index a q.1 m2 hb hq2
            rw [ha] at hm1
            injection hm1 with hm1
            exact keyBefore_of_index k q.1 n m2 hqk hk hq2 (by omega)
      · rw [if_neg hlt]
        unfold Ordered
        rw [List.pairwise_cons]
        refine ⟨?_, ih (fun q hq => hnew q (List.mem_cons_of_mem _ hq)) h.2⟩
        intro q hq
        rcases List.mem_cons.1 ((insertIndex_perm n k v rest).subset hq) with e | e
        · rw [e]
          exact keyBefore_of_index a k m n hak ha hk (by omega)
        · exact h.1 q e
    | none =>
      dsimp only
      unfold Ordered
      rw [List.pairwise_cons, List.pairwise_cons]
      refine ⟨?_, h⟩
      intro q hq
      rcases List.mem_cons.1 hq with e | e
      · rw [e]
        exact keyBefore_of_not_index k a (fun e2 => hak e2.symm) ha
      · have hqk : k ≠ q.1 := fun e2 => hnew q (List.mem_cons_of_mem _ e) e2.symm
        exact keyBefore_of_not_index k q.1 hqk (not_index_of_before a q.1 (h.1 q e) ha)

/-- A new property is created where `Object.keys` has it. -/
theorem ordered_insertKey {α : Type} (k : String) (v : α) (o : Obj α)
    (hnew : getOwn o k = none) (h : Ordered o) : Ordered (insertKey k v o) := by
  have hne : ∀ p ∈ o, p.1 ≠ k := by
    intro p hp e
    have hk : k ∈ keys o := List.mem_map.2 ⟨p, hp, e⟩
    exact (getOwn_eq_none_iff o k).1 hnew hk
  unfold insertKey
  cases hk : arrayIndex k with
  | some n => exact ordered_insertIndex n k v o hk hne h
  | none =>
    dsimp only
    unfold Ordered at h ⊢
    rw [List.pairwise_append]
    refine ⟨h, by simp, ?_⟩
    intro p hp q hq
    simp only [List.mem_singleton] at hq
    rw [hq]
    exact keyBefore_of_not_index p.1 k (hne p hp) hk

theorem mem_replaceOwn_pair {α : Type} (o : Obj α) (k : String) (v : α) (p : String × α)
    (h : p ∈ replaceOwn o k v) : p ∈ o ∨ p = (k, v) := by
  induction o with
  | nil => simp [replaceOwn] at h
  | cons q rest ih =>
    obtain ⟨a, b⟩ := q
    by_cases hk : k = a
    · subst hk
      simp only [replaceOwn, if_true, List.mem_cons] at h
      rcases h with e | e
      · exact Or.inr e
      · exact Or.inl (List.mem_cons_of_mem _ e)
    · simp only [replaceOwn, hk, if_false, List.mem_cons] at h
      rcases h with e | e
      · exact Or.inl (by rw [e]; simp)
      · rcases ih e with e2 | e2
        · exact Or.inl (List.mem_cons_of_mem _ e2)
        · exact Or.inr e2

theorem exact_of_safe (v : Val) (h : Safe v) : Exact v ∧ stringifyVal v = v := by
  cases v with
  | num n => exact ⟨Nat.le_of_lt h, rfl⟩
  | inf s => exact absurd h (by unfold Safe; exact not_false)
  | nan => exact absurd h (by unfold Safe; exact not_false)
  | null => exact ⟨trivial, rfl⟩
  | fnText f k => exact ⟨h, rfl⟩

/-- A vote for one of the five tiers on a record with safe values leaves a
record whose properties stand as before and whose values are exact. -/
theorem good_increment (r : Record) (t : String) (hc : HasCounters r) (ho : Ordered r)
    (hs : ∀ q ∈ r, Safe q.2) (ht : t ∈ tierSymbols) :
    HasCounters (increment r t) ∧ Ordered (increment r t) ∧
      ∀ q ∈ increment r t, Exact q.2 ∧ stringifyVal q.2 = q.2 := by
  refine ⟨hasCounters_increment r t hc ht, ?_, ?_⟩
  · obtain ⟨n, hn⟩ := hasCounters_getOwn r hc t ht
    rw [increment_of_counter r t n hn]
    exact ordered_replaceOwn r t _ ho
  · obtain ⟨n, hn⟩ := hasCounters_getOwn r hc t ht
    rw [increment_of_counter r t n hn]
    intro q hq
    rcases mem_replaceOwn r t _ q hq with e | e
    · exact exact_of_safe q.2 (hs q e)
    · rw [e]
      have hsafe : Safe (.num n) := hs (t, .num n) (mem_of_getOwn r t _ hn)
      have hlt : n.natAbs < 2 ^ 53 := hsafe
      refine ⟨?_, rfl⟩
      show (n + 1).natAbs ≤ 2 ^ 53
      omega

/-- One step of the loop on a store whose records yet to be voted for have
safe values: the store stays one of the model. -/
theorem wellFormed_mergeStep (all next : Store) (k t : String) (l : List String)
    (hs : mergeStep all k t = some next) (ht : t ∈ tierSymbols) (hk : k ∉ l)
    (hord : Ordered all)
    (hinv : ∀ p ∈ all, (HasCounters p.2 ∧ Ordered p.2 ∧
        ∀ q ∈ p.2, Exact q.2 ∧ stringifyVal q.2 = q.2) ∧
      (p.1 ∈ k :: l → ∀ q ∈ p.2, Safe q.2)) :
    Ordered next ∧ ∀ p ∈ next, (HasCounters p.2 ∧ Ordered p.2 ∧
        ∀ q ∈ p.2, Exact q.2 ∧ stringifyVal q.2 = q.2) ∧
      (p.1 ∈ l → ∀ q ∈ p.2, Safe q.2) := by
  rcases mergeStep_cases all next k t hs with ⟨r, hr, e⟩ | ⟨hnone, _, e⟩ | ⟨_, _, e⟩
  · rw [e]
    refine ⟨ordered_replaceOwn all k _ hord, ?_⟩
    intro p hp
    have hkr := hinv (k, r) (mem_of_getOwn all k r hr)
    rcases mem_replaceOwn_pair all k _ p hp with e2 | e2
    · exact ⟨(hinv p e2).1, fun hl => (hinv p e2).2 (List.mem_cons_of_mem _ hl)⟩
    · rw [e2]
      exact ⟨good_increment r t hkr.1.1 hkr.1.2.1 (hkr.2 (by simp)) ht,
        fun hl => absurd hl hk⟩
  · rw [e]
    refine ⟨ordered_insertKey k _ all hnone hord, ?_⟩
    intro p hp
    rcases List.mem_cons.1 ((insertKey_perm k _ all).subset hp) with e2 | e2
    · rw [e2]
      exact ⟨good_increment zeroRecord t (by decide) (by decide) (by decide) ht,
        fun hl => absurd hl hk⟩
    · exact ⟨(hinv p e2).1, fun hl => (hinv p e2).2 (List.mem_cons_of_mem _ hl)⟩
  · rw [e]
    exact ⟨hord, fun p hp => ⟨(hinv p hp).1, fun hl => (hinv p hp).2 (List.mem_cons_of_mem _ hl)⟩⟩

theorem wellFormed_forEach (f : String → String) (l : List String) (all merged : Store)
    (hm : forEach f l all = some merged) (hf : ∀ k ∈ l, f k ∈ tierSymbols) (hnd : l.Nodup)
    (hord : Ordered all)
    (hinv : ∀ p ∈ all, (HasCounters p.2 ∧ Ordered p.2 ∧
        ∀ q ∈ p.2, Exact q.2 ∧ stringifyVal q.2 = q.2) ∧
      (p.1 ∈ l → ∀ q ∈ p.2, Safe q.2)) :
    Ordered merged ∧ ∀ p ∈ merged, HasCounters p.2 ∧ Ordered p.2 ∧
        ∀ q ∈ p.2, Exact q.2 ∧ stringifyVal q.2 = q.2 := by
  induction l generalizing all with
  | nil =>
    simp only [forEach] at hm
    rw [← Option.some.inj hm]
    exact ⟨hord, fun p hp => (hinv p hp).1⟩
  | cons k rest ih =>
    obtain ⟨next, hn, hr⟩ := forEach_cons f k rest all merged hm
    rw [List.nodup_cons] at hnd
    obtain ⟨ho2, hi2⟩ := wellFormed_mergeStep all next k (f k) rest hn (hf k (by simp))
      hnd.1 hord hinv
    exact ih next hr (fun k2 hk2 => hf k2 (by simp [hk2])) hnd.2 ho2 hi2

/-- The store merged from a store of safe values by a submission of distinct
items with tiers among the five symbols is a store of the model, with no value
that is written as another. -/
theorem wellFormed_merge (doc merged : Store) (userRatings : Ratings)
    (hsafe : SafeStore doc) (hint : IntegerCounters doc)
    (hnd : (keys userRatings).Nodup) (hvalid : ∀ p ∈ userRatings, p.2 ∈ tierSymbols)
    (hm : merge doc userRatings = some merged) :
    WellFormed merged ∧ FiniteValues merged := by
  unfold merge at hm
  obtain ⟨ho, hi⟩ := wellFormed_forEach (tierOf userRatings) (keys userRatings) doc merged hm
    (fun k hk => tierOf_mem userRatings k hvalid hk) hnd hsafe.1
    (fun p hp => ⟨⟨hint p hp, (hsafe.2 p hp).1,
        fun q hq => exact_of_safe q.2 ((hsafe.2 p hp).2 q hq)⟩,
      fun _ => (hsafe.2 p hp).2⟩)
  exact ⟨⟨ho, fun p hp => ⟨(hi p hp).2.1, fun q hq => ((hi p hp).2.2 q hq).1⟩⟩,
    fun p hp q hq => ((hi p hp).2.2 q hq).2⟩

/-- The text model on examples: a name with characters that are escaped and
the text of a built-in function are read back as written; in a text written
by hand a name that is repeated keeps its first place and its last value, an
array index comes first, and a literal that is no double is rounded; the
escapes of a pair of surrogates give one character; a leading zero and a
comma before the closing brace are refused. -/
theorem parseDocument_examples :
    parseDocument (render [("a\"\n\x01b", [("valueOf", .fnText "valueOf" 2)])])
      = some [("a\"\n\x01b", [("valueOf", .fnText "valueOf" 2)])] ∧
    parseDocument
      "\x7b \"b\": \x7b\x7d, \"1\" : \x7b\"S\":9007199254740993\x7d, \"b\": \x7b\"x\":null\x7d\x7d".data
      = some [("1", [("S", .num 9007199254740992)]), ("b", [("x", .null)])] ∧
    parseDocument "\x7b\"\\ud83d\\ude00\": \x7b\x7d\x7d".data
      = some [(String.mk [Char.ofNat 128512], [])] ∧
    parseDocument "\x7b\"a\": \x7b\"S\": 01\x7d\x7d".data = none ∧
    parseDocument "\x7b\"a\": \x7b\"S\": 1,\x7d\x7d".data = none := by
  refine ⟨by decide, by decide, by decide, by decide, by decide⟩

/-- C11 fails as stated: for the accepted submission `{"X":"Z"}` on the empty
document the merged store has `Z: NaN` under `X`, the text written has
`"Z": null`, and parsing it gives `Z: null`, not the merged store. -/
theorem roundtrip_counterexample :
    (submit initData (some [("X", "Z")])).1 = ⟨200, true, none⟩ ∧
    merge (parse initData) [("X", "Z")]
      = some [("X", [("S", .num 0), ("A", .num 0), ("B", .num 0), ("C", .num 0),
          ("D", .num 0), ("Z", .nan)])] ∧
    String.mk (render [("X", [("S", .num 0), ("A", .num 0), ("B", .num 0), ("C", .num 0),
          ("D", .num 0), ("Z", .nan)])])
      = "\x7b\n  \"X\": \x7b\n    \"S\": 0,\n    \"A\": 0,\n    \"B\": 0,\n    \"C\": 0,\n    \"D\": 0,\n    \"Z\": null\n  \x7d\n\x7d" ∧
    parseDocument (render [("X", [("S", .num 0), ("A", .num 0), ("B", .num 0), ("C", .num 0),
          ("D", .num 0), ("Z", .nan)])])
      = some [("X", [("S", .num 0), ("A", .num 0), ("B", .num 0), ("C", .num 0),
          ("D", .num 0), ("Z", .null)])] ∧
    parseDocument (render [("X", [("S", .num 0), ("A", .num 0), ("B", .num 0), ("C", .num 0),
          ("D", .num 0), ("Z", .nan)])])
      ≠ some [("X", [("S", .num 0), ("A", .num 0), ("B", .num 0), ("C", .num 0),
          ("D", .num 0), ("Z", .nan)])] := by
  refine ⟨by decide, by decide, by decide, by decide, by decide⟩

/-- C11 as amended: for a store read from a document whose numbers are safe
integers and whose records have the five integer counters, and a submission
with at least one item, of distinct items, whose tiers are all among the five
symbols, the submission is accepted, and parsing the text that is written for
the merged store gives the merged store back. -/
theorem roundtrip_valid_tiers (doc : Store) (userRatings : Ratings)
    (hsafe : SafeStore doc) (hint : IntegerCounters doc) (hne : userRatings ≠ [])
    (hnd : (keys userRatings).Nodup) (hvalid : ∀ p ∈ userRatings, p.2 ∈ tierSymbols) :
    ∃ merged, merge (parse doc) userRatings = some merged ∧
      submit doc (some userRatings) = (⟨200, true, none⟩, stringify merged) ∧
      parseDocument (render merged) = some merged := by
  obtain ⟨merged, hm⟩ := merge_isSome doc userRatings
    (fun p hp => tierSymbols_not_restricted p.2 (hvalid p hp))
  obtain ⟨hwf, hfin⟩ := wellFormed_merge doc merged userRatings hsafe hint hnd hvalid hm
  refine ⟨merged, hm, submit_nonempty doc merged userRatings hne hm, ?_⟩
  rw [parseDocument_render merged hwf, stringify_of_finite merged hfin]

theorem roundtrip_valid_tiers_witness :
    ∃ merged, merge (parse [("X", tally 1 0 0 0 0)]) [("X", "A"), ("Y", "S")] = some merged ∧
      submit [("X", tally 1 0 0 0 0)] (some [("X", "A"), ("Y", "S")])
        = (⟨200, true, none⟩, stringify merged) ∧
      parseDocument (render merged) = some merged :=
  roundtrip_valid_tiers [("X", tally 1 0 0 0 0)] [("X", "A"), ("Y", "S")]
    (by decide) (by decide) (by decide) (by decide) (by decide)

/-! ## Two submissions in either order (C13) -/

theorem stringifyRecord_replaceOwn (r : Record) (t : String) (v : Val) :
    stringifyRecord (replaceOwn r t v) = replaceOwn (stringifyRecord r) t (stringifyVal v) := by
  unfold stringifyRecord
  induction r with
  | nil => rfl
  | cons q rest ih =>
    obtain ⟨k, w⟩ := q
    by_cases h : t = k
    · simp [replaceOwn, h]
    · simpa [replaceOwn, h] using ih

theorem stringifyVal_idem (v : Val) : stringifyVal (stringifyVal v) = stringifyVal v := by
  cases v <;> rfl

theorem stringifyRecord_idem (r : Record) :
    stringifyRecord (stringifyRecord r) = stringifyRecord r := by
  unfold stringifyRecord
  induction r with
  | nil => rfl
  | cons q rest ih =>
    simp only [List.map_cons, stringifyVal_idem]
    rw [ih]

theorem hasCounters_stringifyRecord (r : Record) (h : HasCounters r) :
    HasCounters (stringifyRecord r) := by
  intro u hu
  obtain ⟨n, hn⟩ := hasCounters_getOwn r h u hu
  rw [getOwn_stringifyRecord, hn]
  rfl

/-- Writing the document and counting a vote can be done in either order. -/
theorem stringifyRecord_increment (r : Record) (t : String) (h : HasCounters r)
    (ht : t ∈ tierSymbols) :
    stringifyRecord (increment r t) = increment (stringifyRecord r) t := by
  obtain ⟨n, hn⟩ := hasCounters_getOwn r h t ht
  have hn2 : getOwn (stringifyRecord r) t = some (.num n) := by
    rw [getOwn_stringifyRecord, hn]
    rfl
  rw [increment_of_counter r t n hn, increment_of_counter _ t n hn2,
    stringifyRecord_replaceOwn]
  rfl

theorem replaceOwn_comm {α : Type} (o : Obj α) (k1 k2 : String) (v1 v2 : α) (h : k1 ≠ k2) :
    replaceOwn (replaceOwn o k1 v1) k2 v2 = replaceOwn (replaceOwn o k2 v2) k1 v1 := by
  induction o with
  | nil => rfl
  | cons q rest ih =>
    obtain ⟨k, w⟩ := q
    by_cases h1 : k1 = k
    · have h2 : ¬ k2 = k := fun e => h (h1.trans e.symm)
      simp [replaceOwn, h1, h2]
    · by_cases h2 : k2 = k
      · simp [replaceOwn, h1, h2]
      · simp [replaceOwn, h1, h2, ih]

theorem increment_comm (r : Record) (t1 t2 : String) (h : HasCounters r)
    (h1 : t1 ∈ tierSymbols) (h2 : t2 ∈ tierSymbols) :
    increment (increment r t1) t2 = increment (increment r t2) t1 := by
  by_cases e : t1 = t2
  · rw [e]
  · obtain ⟨n, hn⟩ := hasCounters_getOwn r h t1 h1
    obtain ⟨m, hm⟩ := hasCounters_getOwn r h t2 h2
    have hm1 : getOwn (increment r t1) t2 = some (.num m) := by
      rw [getOwn_increment_ne r t1 t2 (fun c => e c.symm)]
      exact hm
    have hn1 : getOwn (increment r t2) t1 = some (.num n) := by
      rw [getOwn_increment_ne r t2 t1 e]
      exact hn
    rw [increment_of_counter _ t2 m hm1, increment_of_counter _ t1 n hn1,
      increment_of_counter r t1 n hn, increment_of_counter r t2 m hm]
    exact replaceOwn_comm r t1 t2 _ _ e

/-- Two votes with the document written in between, and with it written once. -/
theorem two_votes (r : Record) (t1 t2 : String) (h : HasCounters r)
    (h1 : t1 ∈ tierSymbols) (h2 : t2 ∈ tierSymbols) :
    stringifyRecord (increment (stringifyRecord (increment r t1)) t2)
      = stringifyRecord (increment (increment r t1) t2) := by
  rw [← stringifyRecord_increment (increment r t1) t2 (hasCounters_increment r t1 h h1) h2,
    stringifyRecord_idem]

theorem two_votes_comm (r : Record) (t1 t2 : String) (h : HasCounters r)
    (h1 : t1 ∈ tierSymbols) (h2 : t2 ∈ tierSymbols) :
    stringifyRecord (increment (stringifyRecord (increment r t1)) t2)
      = stringifyRecord (increment (stringifyRecord (increment r t2)) t1) := by
  rw [two_votes r t1 t2 h h1 h2, two_votes r t2 t1 h h2 h1, increment_comm r t1 t2 h h1 h2]

theorem afterSubmit_comm (o : Option Record) (X : String) (a b : Option String)
    (ho : ∀ r, o = some r → HasCounters r)
    (ha : ∀ t, a = some t → t ∈ tierSymbols) (hb : ∀ t, b = some t → t ∈ tierSymbols) :
    afterSubmit (afterSubmit o X a) X b = afterSubmit (afterSubmit o X b) X a := by
  cases a with
  | none =>
    cases b with
    | none => rfl
    | some t2 =>
      have h2 := hb t2 rfl
      cases o with
      | none =>
        by_cases hk : inheritedName X <;> simp [afterSubmit, afterVote, hk, stringifyRecord_idem]
      | some r =>
        simp only [afterSubmit, afterVote, Option.map_some']
        rw [← stringifyRecord_increment r t2 (ho r rfl) h2, stringifyRecord_idem]
  | some t1 =>
    have h1 := ha t1 rfl
    cases b with
    | none =>
      cases o with
      | none =>
        by_cases hk : inheritedName X <;> simp [afterSubmit, afterVote, hk, stringifyRecord_idem]
      | some r =>
        simp only [afterSubmit, afterVote, Option.map_some']
        rw [← stringifyRecord_increment r t1 (ho r rfl) h1, stringifyRecord_idem]
    | some t2 =>
      have h2 := hb t2 rfl
      cases o with
      | none =>
        by_cases hk : inheritedName X
        · simp [afterSubmit, afterVote, hk]
        · simp only [afterSubmit, afterVote, hk, if_false, Option.map_some']
          rw [two_votes_comm zeroRecord t1 t2 (by decide) h1 h2]
      | some r =>
        simp only [afterSubmit, afterVote, Option.map_some']
        rw [two_votes_comm r t1 t2 (ho r rfl) h1 h2]

/-- The record an accepted submission leaves under any item. -/
theorem getOwn_submit (doc merged : Store) (userRatings : Ratings) (X : String)
    (hne : userRatings ≠ []) (hnd : (keys userRatings).Nodup)
    (hm : merge doc userRatings = some merged) :
    getOwn (submit doc (some userRatings)).2 X
      = afterSubmit (getOwn doc X) X (getOwn userRatings X) := by
  rw [submit_nonempty doc merged userRatings hne hm, getOwn_stringify]
  cases ht : getOwn userRatings X with
  | some t =>
    rw [getOwn_merge_mem doc merged userRatings X t hm hnd (mem_of_getOwn userRatings X t ht)]
    rfl
  | none =>
    rw [getOwn_merge_not_mem doc merged userRatings X hm ((getOwn_eq_none_iff _ _).1 ht)]
    rfl

theorem getOwn_submit_valid (doc : Store) (userRatings : Ratings) (X : String)
    (hne : userRatings ≠ []) (hnd : (keys userRatings).Nodup)
    (hvalid : ∀ p ∈ userRatings, p.2 ∈ tierSymbols) :
    getOwn (submit doc (some userRatings)).2 X
      = afterSubmit (getOwn doc X) X (getOwn userRatings X) := by
  obtain ⟨merged, hm⟩ := merge_isSome doc userRatings
    (fun p hp => tierSymbols_not_restricted p.2 (hvalid p hp))
  exact getOwn_submit doc merged userRatings X hne hnd hm

/-- C13: for a document with integer counters and two submissions `p` and `q`,
each with at least one item, distinct item names and tiers among the five
symbols, submitting `p` then `q` leaves under every item name the same record
(or the same absence of a record) as submitting `q` then `p`. -/
theorem submit_commute (doc : Store) (p q : Ratings) (hint : IntegerCounters doc)
    (hp : p ≠ []) (hq : q ≠ []) (hpn : (keys p).Nodup) (hqn : (keys q).Nodup)
    (hpv : ∀ x ∈ p, x.2 ∈ tierSymbols) (hqv : ∀ x ∈ q, x.2 ∈ tierSymbols) (X : String) :
    getOwn (submit (submit doc (some p)).2 (some q)).2 X
      = getOwn (submit (submit doc (some q)).2 (some p)).2 X := by
  rw [getOwn_submit_valid _ q X hq hqn hqv, getOwn_submit_valid doc p X hp hpn hpv,
    getOwn_submit_valid _ p X hp hpn hpv, getOwn_submit_valid doc q X hq hqn hqv]
  refine afterSubmit_comm (getOwn doc X) X (getOwn p X) (getOwn q X) ?_ ?_ ?_
  · intro r hr
    exact hint (X, r) (mem_of_getOwn doc X r hr)
  · intro t ht
    exact hpv (X, t) (mem_of_getOwn p X t ht)
  · intro t ht
    exact hqv (X, t) (mem_of_getOwn q X t ht)

theorem submit_commute_witness :
    getOwn (submit (submit [("X", tally 1 0 0 0 0)] (some [("X", "A"), ("Y", "S")])).2
        (some [("Z", "D"), ("X", "S")])).2 "X"
      = getOwn (submit (submit [("X", tally 1 0 0 0 0)] (some [("Z", "D"), ("X", "S")])).2
        (some [("X", "A"), ("Y", "S")])).2 "X" :=
  submit_commute [("X", tally 1 0 0 0 0)] [("X", "A"), ("Y", "S")] [("Z", "D"), ("X", "S")]
    (by decide) (by decide) (by decide) (by decide) (by decide) (by decide) (by decide) "X"

/-! ## The frame of a submission (C12) -/

theorem mem_keys_insertKey {α : Type} (o : Obj α) (k X : String) (v : α) :
    X ∈ keys (insertKey k v o) ↔ X = k ∨ X ∈ keys o := by
  have h := ((insertKey_perm k v o).map Prod.fst).mem_iff (a := X)
  simpa [keys] using h

theorem mem_keys_mergeStep (all next : Store) (k t X : String)
    (hs : mergeStep all k t = some next) :
    X ∈ keys next ↔ X ∈ keys all ∨ (X = k ∧ ¬ inheritedName k) := by
  rcases mergeStep_cases all next k t hs with ⟨r, hr, e⟩ | ⟨_, hk, e⟩ | ⟨_, hk, e⟩
  · rw [e, keys_replaceOwn]
    constructor
    · exact Or.inl
    · rintro (h | ⟨h, _⟩)
      · exact h
      · rw [h]
        exact mem_keys_of_mem all k r (mem_of_getOwn all k r hr)
  · rw [e, mem_keys_insertKey]
    constructor
    · rintro (h | h)
      · exact Or.inr ⟨h, hk⟩
      · exact Or.inl h
    · rintro (h | ⟨h, _⟩)
      · exact Or.inr h
      · exact Or.inl h
  · rw [e]
    constructor
    · exact Or.inl
    · rintro (h | ⟨_, h⟩)
      · exact h
      · exact absurd hk h

theorem mem_keys_forEach (f : String → String) (l : List String) (all merged : Store)
    (X : String) (hm : forEach f l all = some merged) :
    X ∈ keys merged ↔ X ∈ keys all ∨ (X ∈ l ∧ ¬ inheritedName X) := by
  induction l generalizing all with
  | nil =>
    simp only [forEach] at hm
    rw [← Option.some.inj hm]
    simp
  | cons k rest ih =>
    obtain ⟨next, hn, hr⟩ := forEach_cons f k rest all merged hm
    rw [ih next hr, mem_keys_mergeStep all next k (f k) X hn]
    constructor
    · rintro ((h | ⟨h, hk⟩) | ⟨h, hk⟩)
      · exact Or.inl h
      · exact Or.inr ⟨by simp [h], h ▸ hk⟩
      · exact Or.inr ⟨by simp [h], hk⟩
    · rintro (h | ⟨h, hk⟩)
      · exact Or.inl (Or.inl h)
      · rcases List.mem_cons.1 h with e | e
        · exact Or.inl (Or.inr ⟨e, e ▸ hk⟩)
        · exact Or.inr ⟨e, hk⟩

theorem keys_stringify (all : Store) : keys (stringify all) = keys all := by
  simp [stringify, keys, List.map_map, Function.comp_def]

theorem getOwn_map_stringifyRecord (doc : Store) (hnan : FiniteValues doc) (X : String) :
    (getOwn doc X).map stringifyRecord = getOwn doc X := by
  cases h : getOwn doc X with
  | none => rfl
  | some r =>
    have := stringifyRecord_of_finite r (hnan (X, r) (mem_of_getOwn doc X r h))
    simp [this]

/-- The frame of a submission, as the code has it: an item the submission does
not name keeps its record, every item of the document stays, every item
afterwards was there or is named by the submission, and a named item is there
afterwards when its name is not found on `Object.prototype` (and no tier is
`caller` or `arguments`). -/
theorem submit_frame (doc : Store) (userRatings : Ratings) (hne : userRatings ≠ [])
    (hnan : FiniteValues doc) :
    (∀ X, X ∉ keys userRatings → getOwn (submit doc (some userRatings)).2 X = getOwn doc X) ∧
    (∀ X, X ∈ keys doc → X ∈ keys (submit doc (some userRatings)).2) ∧
    (∀ X, X ∈ keys (submit doc (some userRatings)).2 → X ∈ keys doc ∨ X ∈ keys userRatings) ∧
    ((∀ p ∈ userRatings, ¬ restrictedName p.2) → ∀ X, X ∈ keys userRatings →
      ¬ inheritedName X → X ∈ keys (submit doc (some userRatings)).2) := by
  cases hm : merge doc userRatings with
  | none =>
    rw [submit_throws doc userRatings hne hm]
    refine ⟨fun _ _ => rfl, fun _ h => h, fun _ h => Or.inl h, ?_⟩
    intro hr
    obtain ⟨merged, hm2⟩ := merge_isSome doc userRatings hr
    rw [hm] at hm2
    cases hm2
  | some merged =>
    rw [submit_nonempty doc merged userRatings hne hm]
    have hk := fun X => mem_keys_forEach (tierOf userRatings) (keys userRatings) doc merged X hm
    refine ⟨?_, ?_, ?_, ?_⟩
    · intro X hX
      rw [getOwn_stringify, getOwn_merge_not_mem doc merged userRatings X hm hX]
      exact getOwn_map_stringifyRecord doc hnan X
    · intro X hX
      rw [keys_stringify, hk X]
      exact Or.inl hX
    · intro X hX
      rw [keys_stringify, hk X] at hX
      rcases hX with h | ⟨h, _⟩
      · exact Or.inl h
      · exact Or.inr h
    · intro _ X hX hi
      rw [keys_stringify, hk X]
      exact Or.inr ⟨hX, hi⟩

/-- C12, at an input where the code departs from it: on the document with the
one item `Y`, the submission `{"X":"S","toString":"A"}` is answered with
success and leaves `Y` as it was, but the items afterwards are `Y` and `X`
only: `toString`, a key of the submission, is not among them. -/
theorem submit_items_not_union :
    (submit [("Y", tally 0 0 0 0 1)] (some [("X", "S"), ("toString", "A")])).1
      = ⟨200, true, none⟩ ∧
    getOwn (submit [("Y", tally 0 0 0 0 1)] (some [("X", "S"), ("toString", "A")])).2 "Y"
      = some (tally 0 0 0 0 1) ∧
    keys (submit [("Y", tally 0 0 0 0 1)] (some [("X", "S"), ("toString", "A")])).2
      = ["Y", "X"] ∧
    "toString" ∈ keys [("Y", tally 0 0 0 0 1)] ++ keys [("X", "S"), ("toString", "A")] := by
  decide

/-! ## Votes and scores (C14) -/

theorem weight_of_tier (t : String) (ht : t ∈ tierSymbols) :
    (t = "S" ∧ weight t = .int 5) ∨ (t = "A" ∧ weight t = .int 4) ∨
    (t = "B" ∧ weight t = .int 3) ∨ (t = "C" ∧ weight t = .int 2) ∨
    (t = "D" ∧ weight t = .int 1) := by
  simp only [tierSymbols, keys, zeroRecord, List.map_cons, List.map_nil, List.mem_cons,
    List.mem_singleton, List.not_mem_nil, or_false] at ht
  rcases ht with h | h | h | h | h <;> subst h <;> decide

/-- The score of an item is the weighted sum of its counters, when the weighted
magnitude of the counters is below `2^53`, so that no product and no sum is
rounded. -/
theorem scoreOf_eq (doc : Store) (hint : IntegerCounters doc) (X : String)
    (hb : 5 * (counter doc X "S").natAbs + 4 * (counter doc X "A").natAbs
      + 3 * (counter doc X "B").natAbs + 2 * (counter doc X "C").natAbs
      + 1 * (counter doc X "D").natAbs < 2 ^ 53) :
    scoreOf doc X = .int (5 * counter doc X "S" + 4 * counter doc X "A"
      + 3 * counter doc X "B" + 2 * counter doc X "C" + 1 * counter doc X "D") := by
  cases hg : getOwn doc X with
  | none => simp [scoreOf, counter, hg]
  | some r =>
    obtain ⟨s, hS⟩ := integerCounters_getOwn doc hint X r hg "S" (by decide)
    obtain ⟨a, hA⟩ := integerCounters_getOwn doc hint X r hg "A" (by decide)
    obtain ⟨b, hB⟩ := integerCounters_getOwn doc hint X r hg "B" (by decide)
    obtain ⟨c, hC⟩ := integerCounters_getOwn doc hint X r hg "C" (by decide)
    obtain ⟨d, hD⟩ := integerCounters_getOwn doc hint X r hg "D" (by decide)
    simp only [counter, hg, hS, hA, hB, hC, hD] at hb
    simp only [scoreOf, counter, hg, hS, hA, hB, hC, hD]
    exact totalScoreOf_eq r s a b c d hS hA hB hC hD hb

/-- The score moves by the weight of the vote for the items the loop records,
as long as the weighted magnitude of the item's counters stays five below
`2^53` (no sum is rounded), and stays for the items the submission does not
name. -/
theorem submit_score_moves (doc : Store) (userRatings : Ratings)
    (hint : IntegerCounters doc) (hne : userRatings ≠ []) (hnd : (keys userRatings).Nodup)
    (hvalid : ∀ p ∈ userRatings, p.2 ∈ tierSymbols) :
    (∀ X t, (X, t) ∈ userRatings → (X ∈ keys doc ∨ ¬ inheritedName X) →
      5 * (counter doc X "S").natAbs + 4 * (counter doc X "A").natAbs
        + 3 * (counter doc X "B").natAbs + 2 * (counter doc X "C").natAbs
        + 1 * (counter doc X "D").natAbs + 5 < 2 ^ 53 →
      scoreOf (submit doc (some userRatings)).2 X = Num.add (scoreOf doc X) (weight t)) ∧
    (∀ X, X ∉ keys userRatings →
      scoreOf (submit doc (some userRatings)).2 X = scoreOf doc X) := by
  have e53 : (2 : Nat) ^ 53 = 9007199254740992 := by norm_num
  constructor
  · intro X t h hX hb
    rw [e53] at hb
    obtain ⟨_, r', hr', hc⟩ := submit_counts_vote doc userRatings X t hint hnd hvalid h hX
    have hafter : scoreOf (submit doc (some userRatings)).2 X = totalScoreOf r' := by
      simp [scoreOf, hr']
    rw [hafter, scoreOf_eq doc hint X (by rw [e53]; omega)]
    rcases weight_of_tier t (hvalid (X, t) h) with ⟨e, w⟩ | ⟨e, w⟩ | ⟨e, w⟩ | ⟨e, w⟩ | ⟨e, w⟩ <;>
      · rw [w]
        subst e
        have hS := hc "S" (by decide)
        have hA := hc "A" (by decide)
        have hB := hc "B" (by decide)
        have hC := hc "C" (by decide)
        have hD := hc "D" (by decide)
        simp only [String.reduceEq, if_true, if_false, reduceIte, add_zero] at hS hA hB hC hD
        rw [totalScoreOf_eq r' _ _ _ _ _ hS hA hB hC hD (by rw [e53]; omega)]
        simp only [Num.add]
        rw [roundToDouble_safe _ (by rw [e53]; omega)]
        congr 1
        ring
  · intro X hX
    have hsub := getOwn_submit_valid doc userRatings X hne hnd hvalid
    have hnone : getOwn userRatings X = none := (getOwn_eq_none_iff _ _).2 hX
    rw [hnone] at hsub
    simp only [afterSubmit] at hsub
    cases hg : getOwn doc X with
    | none =>
      rw [hg] at hsub
      simp [scoreOf, hg, hsub]
    | some r =>
      rw [hg] at hsub
      simp only [scoreOf, hg, hsub, Option.map_some']
      have hf : ∀ u ∈ tierSymbols, field (stringifyRecord r) u = field r u := by
        intro u hu
        obtain ⟨n, hn⟩ := integerCounters_getOwn doc hint X r hg u hu
        have hn2 : getOwn (stringifyRecord r) u = some (.num n) := by
          rw [getOwn_stringifyRecord, hn]
          rfl
        simp [field, get_of_getOwn _ _ _ hn, get_of_getOwn _ _ _ hn2]
      simp only [totalScoreOf, hf "S" (by decide), hf "A" (by decide), hf "B" (by decide),
        hf "C" (by decide), hf "D" (by decide)]

/-- C14, at an input where the code departs from it: on the empty document the
submission `{"toString":"S"}` is answered with success, but afterwards the
rankings have no entry for `toString` and its score is still `0`, where the
score before (`0`) plus the weight of `S` is `5`. -/
theorem submit_score_not_moved :
    (submit initData (some [("toString", "S")])).1 = ⟨200, true, none⟩ ∧
    scoreOf (submit initData (some [("toString", "S")])).2 "toString" = .int 0 ∧
    (rankings (submit initData (some [("toString", "S")])).2).1 = ⟨200, true, some []⟩ ∧
    Num.add (scoreOf initData "toString") (weight "S") = .int 5 := by
  decide

end VoteSystem
